import Mathlib

/-!
# kobopatch: patch specification, validator and instruction engine

A shallow embedding of `kobopatch.go`.

* Go strings are Lean strings (sequences of Unicode code points; the patch
  file is YAML, hence valid UTF-8).
* `[]byte` is `List Nat` (every element below 256), `int32` is `Int`,
  `uint8` is `Nat`, `float64` is carried as its IEEE-754 bit pattern: the
  program never computes with these values, it only passes them on.
* A nil pointer field is `none`.
* `patchFile` is a Go map.  A `range` loop over a map visits its entries in
  an order the language does not fix, so a `patchFile` value here is the
  list of entries in the order one particular loop visits them.
* The Go `error` result is `Option Err` (`none` is `nil`).
-/

namespace Kobopatch

/-! ## Data model (`kobopatch.go` lines 223-258) -/

/-- Payload of `FindReplaceString`. -/
structure FindReplaceStringArgs where
  Find : String
  Replace : String
deriving DecidableEq, Repr

/-- Payload of `ReplaceString`. -/
structure ReplaceStringArgs where
  Offset : Int
  Find : String
  Replace : String
deriving DecidableEq, Repr

/-- Payload of `ReplaceInt` (`Find` and `Replace` are `uint8`). -/
structure ReplaceIntArgs where
  Offset : Int
  Find : Nat
  Replace : Nat
deriving DecidableEq, Repr

/-- Payload of `ReplaceFloat`; the two `float64` values are kept as bit patterns. -/
structure ReplaceFloatArgs where
  Offset : Int
  Find : Nat
  Replace : Nat
deriving DecidableEq, Repr

/-- Payload of `ReplaceBytes`, with the two hex shorthand fields. -/
structure ReplaceBytesArgs where
  Offset : Int
  FindH : Option String
  ReplaceH : Option String
  Find : List Nat
  Replace : List Nat
deriving DecidableEq, Repr

/-- The `instruction` struct: eleven pointer fields, nil when absent. -/
structure instruction where
  Enabled : Option Bool := none
  Description : Option String := none
  PatchGroup : Option String := none
  BaseAddress : Option Int := none
  FindBaseAddressHex : Option String := none
  FindBaseAddressString : Option String := none
  FindReplaceString : Option FindReplaceStringArgs := none
  ReplaceString : Option ReplaceStringArgs := none
  ReplaceInt : Option ReplaceIntArgs := none
  ReplaceFloat : Option ReplaceFloatArgs := none
  ReplaceBytes : Option ReplaceBytesArgs := none
deriving DecidableEq, Repr

/-- A patch is an ordered list of instructions. -/
abbrev patch := List instruction

/-- The entries of the `map[string]patch`, in the order a `range` loop visits them. -/
abbrev patchFile := List (String × patch)

/-- Errors of the scanner behind `fmt.Sscanf`. -/
inductive ScanErr where
  | unexpectedNewline
  | eof
  | unexpectedEOF
  | illegalHexDigit
  | noHexData
  | newlineMismatch
deriving DecidableEq, Repr

/-- The error values the program builds, one constructor per `fmt.Errorf` site. -/
inductive Err where
  | internalValidating (n : String)
  | moreThanOneInstruction (n : String)
  | noEnabledOption (n : String)
  | moreThanOneEnabled (n : String)
  | moreThanOneDescription (n : String)
  | moreThanOnePatchGroup (n : String)
  | moreThanOneEnabledInGroup (pg : String)
  | useFindBaseAddressHex (n : String)
  | expandingShorthandHex (hex : String)
  | invalidPatchFile (cause : Err)
  | invalidHexString
  | findReplaceString (cause : String)
  | invalidInstruction (i : instruction)
  | surface (msg : String)
deriving DecidableEq, Repr

deriving instance DecidableEq for Except

/-! ## `validate` (lines 420-511) -/

/-- The per-patch counters of `validate`: `ec, e, pgc, pg, dc, rbc, roc, fbsc`. -/
structure patchCounters where
  ec : Nat := 0
  e : Bool := false
  pgc : Nat := 0
  pg : String := ""
  dc : Nat := 0
  rbc : Nat := 0
  roc : Nat := 0
  fbsc : Nat := 0
deriving DecidableEq, Repr

/-- One when the pointer is set, zero when it is nil. -/
def isSet {α : Type} (o : Option α) : Nat :=
  match o with
  | some _ => 1
  | none => 0

/-- The counter `ic` after the eleven `if i.X != nil` tests of one loop body. -/
def ic (i : instruction) : Nat :=
  isSet i.Enabled + isSet i.Description + isSet i.PatchGroup + isSet i.BaseAddress
    + isSet i.FindBaseAddressString + isSet i.FindBaseAddressHex + isSet i.ReplaceBytes
    + isSet i.ReplaceFloat + isSet i.ReplaceInt + isSet i.ReplaceString
    + isSet i.FindReplaceString

/-- The per-patch counters after the eleven tests of one loop body. -/
def tally (c : patchCounters) (i : instruction) : patchCounters where
  ec := c.ec + isSet i.Enabled
  e := match i.Enabled with
    | some b => b
    | none => c.e
  pgc := c.pgc + isSet i.PatchGroup
  pg := match i.PatchGroup with
    | some g => g
    | none => c.pg
  dc := c.dc + isSet i.Description
  rbc := c.rbc + isSet i.ReplaceBytes
  roc := c.roc + isSet i.ReplaceFloat + isSet i.ReplaceInt + isSet i.ReplaceString
    + isSet i.FindReplaceString
  fbsc := c.fbsc + isSet i.FindBaseAddressString

/-- The inner loop `for _, i := range p` of `validate`, with its two early returns. -/
def scanInstructions (n : String) : patch → patchCounters → Except Err patchCounters
  | [], c => .ok c
  | i :: rest, c =>
    if ic i < 1 then .error (.internalValidating n)
    else if ic i > 1 then .error (.moreThanOneInstruction n)
    else scanInstructions n rest (tally c i)

/-- Lines 499-504: an enabled patch with a non-empty group name is refused when the
name is already a key of `enabledPatchGroups` and records its name otherwise;
`groups` holds the keys of that map. -/
def recordGroup (c : patchCounters) (groups : List String) : Except Err (List String) :=
  if c.pg ≠ "" ∧ c.e = true then
    if c.pg ∈ groups then .error (.moreThanOneEnabledInGroup c.pg)
    else .ok (c.pg :: groups)
  else .ok groups

/-- The checks made on one patch after its instructions were counted (lines 488-507). -/
def checkCounters (n : String) (c : patchCounters) (groups : List String) :
    Except Err (List String) :=
  if c.ec < 1 then .error (.noEnabledOption n)
  else if c.ec > 1 then .error (.moreThanOneEnabled n)
  else if c.dc > 1 then .error (.moreThanOneDescription n)
  else if c.pgc > 1 then .error (.moreThanOnePatchGroup n)
  else
    match recordGroup c groups with
    | .error err => .error err
    | .ok groups' =>
      if c.roc = 0 ∧ c.rbc > 0 ∧ c.fbsc > 0 then .error (.useFindBaseAddressHex n)
      else .ok groups'

/-- The outer loop `for n, p := range *pf` of `validate`. -/
def validateLoop : patchFile → List String → Option Err
  | [], _ => none
  | (n, p) :: rest, groups =>
    match scanInstructions n p {} with
    | .error err => some err
    | .ok c =>
      match checkCounters n c groups with
      | .error err => some err
      | .ok groups' => validateLoop rest groups'

/-- The method `validate`: the loop started with an empty `enabledPatchGroups`. -/
def validate (pf : patchFile) : Option Err :=
  validateLoop pf []

/-! ## Hex decoding: `fmt.Sscanf(strings.Replace(hex, " ", "", -1), "%x\n", &dst)`

The scanner is the Go standard library's (`fmt/scan.go`); the functions below follow
it for the one format string the program uses, `"%x\n"`, and a `*[]byte` operand. -/

/-- The table `space` of `fmt/scan.go`, as used by its `isSpace`. -/
def isSpace (r : Char) : Bool :=
  let n := r.toNat
  (0x0009 ≤ n && n ≤ 0x000d) || n == 0x0020 || n == 0x0085 || n == 0x00a0 || n == 0x1680
    || (0x2000 ≤ n && n ≤ 0x200a) || (0x2028 ≤ n && n ≤ 0x2029) || n == 0x202f
    || n == 0x205f || n == 0x3000

/-- The function `hexDigit` of `fmt/scan.go`. -/
def hexDigit (d : Char) : Option Nat :=
  let digit := d.toNat
  if 48 ≤ digit ∧ digit ≤ 57 then some (digit - 48)
  else if 97 ≤ digit ∧ digit ≤ 102 then some (10 + digit - 97)
  else if 65 ≤ digit ∧ digit ≤ 70 then some (10 + digit - 65)
  else none

/-- The method `SkipSpace` with `nlIsSpace = false`: spaces are skipped, a newline is
an error, anything else is left unread. -/
def SkipSpace : List Char → Except ScanErr (List Char)
  | [] => .ok []
  | r :: rest =>
    if r = '\n' then .error .unexpectedNewline
    else if isSpace r then SkipSpace rest
    else .ok (r :: rest)

/-- The loop of `hexString`: `hexByte` reads two hex digits at a time and stops, leaving
the input unread, at end of input or at a first digit that is not hexadecimal; a
missing or illegal second digit is an error. -/
def hexBytes : List Char → List Nat → Except ScanErr (List Nat × List Char)
  | [], buf => .ok (buf, [])
  | [rune1], buf =>
    match hexDigit rune1 with
    | none => .ok (buf, [rune1])
    | some _ => .error .unexpectedEOF
  | rune1 :: rune2 :: rest, buf =>
    match hexDigit rune1 with
    | none => .ok (buf, rune1 :: rune2 :: rest)
    | some value1 =>
      match hexDigit rune2 with
      | none => .error .illegalHexDigit
      | some value2 => hexBytes rest (buf ++ [(value1 <<< 4 ||| value2) % 256])

/-- The method `hexString` with the `notEOF` check that precedes it: no input at all is
the error `io.EOF`, no hex data is an error. -/
def hexString (input : List Char) : Except ScanErr (List Nat × List Char) :=
  match input with
  | [] => .error .eof
  | _ =>
    match hexBytes input [] with
    | .error err => .error err
    | .ok (buf, rest) => if buf.length = 0 then .error .noHexData else .ok (buf, rest)

/-- The newline of the format string in `advance`: it matches spaces other than
newline followed by a newline or the end of the input. -/
def matchNewline : List Char → Except ScanErr Unit
  | [] => .ok ()
  | inputc :: rest =>
    if inputc = '\n' then .ok ()
    else if isSpace inputc then matchNewline rest
    else .error .newlineMismatch

/-- The call `fmt.Sscanf(input, "%x\n", &dst)` for `dst` of type `[]byte`: the bytes
stored in `dst` when the returned error is nil. Input left after the newline of the
format is matched is not looked at. -/
def sscanfHex (input : List Char) : Except ScanErr (List Nat) :=
  match SkipSpace input with
  | .error err => .error err
  | .ok input1 =>
    match hexString input1 with
    | .error err => .error err
    | .ok (buf, input2) =>
      match matchNewline input2 with
      | .error err => .error err
      | .ok _ => .ok buf

/-- The call `strings.Replace(hex, " ", "", -1)`: every U+0020 is removed. -/
def stripSpaces (hex : String) : List Char :=
  hex.toList.filter (fun c => c != ' ')

/-- Decoding of one hex string as the program does it at its three call sites. -/
def decodeHex (hex : String) : Except ScanErr (List Nat) :=
  sscanfHex (stripSpaces hex)

/-! ## `newPatchFile` (lines 260-315), after the YAML document was unmarshalled -/

/-- Lines 278-290: expansion of `FindH` into `Find`. -/
def expandFindH (r : ReplaceBytesArgs) : Except Err ReplaceBytesArgs :=
  match r.FindH with
  | none => .ok r
  | some hex =>
    match decodeHex hex with
    | .error _ => .error (.expandingShorthandHex hex)
    | .ok buf => .ok { r with Find := buf }

/-- Lines 291-303: expansion of `ReplaceH` into `Replace`. -/
def expandReplaceH (r : ReplaceBytesArgs) : Except Err ReplaceBytesArgs :=
  match r.ReplaceH with
  | none => .ok r
  | some hex =>
    match decodeHex hex with
    | .error _ => .error (.expandingShorthandHex hex)
    | .ok buf => .ok { r with Replace := buf }

/-- The body of the loop over the instructions of a patch (lines 277-304). -/
def expandInstruction (i : instruction) : Except Err instruction :=
  match i.ReplaceBytes with
  | none => .ok i
  | some r =>
    match expandFindH r with
    | .error err => .error err
    | .ok r1 =>
      match expandReplaceH r1 with
      | .error err => .error err
      | .ok r2 => .ok { i with ReplaceBytes := some r2 }

/-- The loop `for i := range (*pf)[n]`. -/
def expandPatch : patch → Except Err patch
  | [] => .ok []
  | i :: rest =>
    match expandInstruction i with
    | .error err => .error err
    | .ok i1 =>
      match expandPatch rest with
      | .error err => .error err
      | .ok rest1 => .ok (i1 :: rest1)

/-- The loop `for n := range *pf`. -/
def expandPatchFile : patchFile → Except Err patchFile
  | [] => .ok []
  | (n, p) :: rest =>
    match expandPatch p with
    | .error err => .error err
    | .ok p1 =>
      match expandPatchFile rest with
      | .error err => .error err
      | .ok rest1 => .ok ((n, p1) :: rest1)

/-- The function `newPatchFile` from line 274 on: `parsed` is the map produced by
`yaml.UnmarshalStrict`, in the order the expansion loop visits it, and `order` gives
the order in which the loop of `validate` then visits the expanded map. -/
def newPatchFile (order : patchFile → patchFile) (parsed : patchFile) :
    Except Err patchFile :=
  match expandPatchFile parsed with
  | .error err => .error err
  | .ok pf =>
    match validate (order pf) with
    | some err => .error (.invalidPatchFile err)
    | none => .ok pf

/-! ## The Binary Patch Surface (`patchlib.Patcher`) as `ApplyTo` uses it -/

/-- The methods of `*patchlib.Patcher` that `ApplyTo` calls, over a surface state `σ`.
A method that returns a Go `error` returns the error message, or `none` for nil. -/
structure Patcher (σ : Type) where
  ResetBaseAddress : σ → σ
  BaseAddress : Int → σ → σ × Option String
  FindBaseAddress : List Nat → σ → σ × Option String
  FindBaseAddressString : String → σ → σ × Option String
  ReplaceBytes : Int → List Nat → List Nat → σ → σ × Option String
  ReplaceFloat : Int → Nat → Nat → σ → σ × Option String
  ReplaceInt : Int → Nat → Nat → σ → σ × Option String
  ReplaceString : Int → String → String → σ → σ × Option String

/-- A call of a surface method together with its arguments. -/
inductive Call where
  | ResetBaseAddress
  | BaseAddress (a : Int)
  | FindBaseAddress (buf : List Nat)
  | FindBaseAddressString (find : String)
  | ReplaceBytes (offset : Int) (find replace : List Nat)
  | ReplaceFloat (offset : Int) (find replace : Nat)
  | ReplaceInt (offset : Int) (find replace : Nat)
  | ReplaceString (offset : Int) (find replace : String)
deriving DecidableEq, Repr

/-- The replace methods of the surface. -/
def Call.isReplace : Call → Bool
  | .ReplaceBytes _ _ _ => true
  | .ReplaceFloat _ _ _ => true
  | .ReplaceInt _ _ _ => true
  | .ReplaceString _ _ _ => true
  | _ => false

/-- The surface method a call names, applied to its arguments. -/
def Patcher.perform {σ : Type} (pt : Patcher σ) : Call → σ → σ × Option String
  | .ResetBaseAddress, s => (pt.ResetBaseAddress s, none)
  | .BaseAddress a, s => pt.BaseAddress a s
  | .FindBaseAddress buf, s => pt.FindBaseAddress buf s
  | .FindBaseAddressString find, s => pt.FindBaseAddressString find s
  | .ReplaceBytes o f r, s => pt.ReplaceBytes o f r s
  | .ReplaceFloat o f r, s => pt.ReplaceFloat o f r s
  | .ReplaceInt o f r, s => pt.ReplaceInt o f r s
  | .ReplaceString o f r, s => pt.ReplaceString o f r s

/-- One surface call as `ApplyTo` made it: `num` is the value of the loop counter
`num` (the 1-based position of the patch being processed), `failed` tells whether
the call returned a non-nil error. -/
structure Event where
  num : Nat
  call : Call
  failed : Bool
deriving DecidableEq, Repr

/-- The surface state together with the record of the calls made so far. -/
structure Run (σ : Type) where
  st : σ
  trace : List Event

/-- Makes one surface call and records it. -/
def invoke {σ : Type} (pt : Patcher σ) (num : Nat) (c : Call) (r : Run σ) :
    Run σ × Option String :=
  let res := pt.perform c r.st
  (⟨res.1, r.trace ++ [⟨num, c, res.2.isSome⟩]⟩, res.2)

/-! ## `ApplyTo` (lines 317-418) -/

/-- The `switch` over one instruction (lines 354-408), with the value of `err`
after it. The cases are tried in the order of the source. -/
def execInstruction {σ : Type} (pt : Patcher σ) (num : Nat) (i : instruction)
    (r : Run σ) : Run σ × Option Err :=
  if i.Enabled.isSome ∨ i.PatchGroup.isSome ∨ i.Description.isSome then (r, none)
  else match i.BaseAddress with
  | some a =>
    let res := invoke pt num (.BaseAddress a) r
    (res.1, res.2.map Err.surface)
  | none =>
  match i.FindBaseAddressHex with
  | some hex =>
    match decodeHex hex with
    | .error _ => (r, some .invalidHexString)
    | .ok buf =>
      let res := invoke pt num (.FindBaseAddress buf) r
      (res.1, res.2.map Err.surface)
  | none =>
  match i.FindBaseAddressString with
  | some find =>
    let res := invoke pt num (.FindBaseAddressString find) r
    (res.1, res.2.map Err.surface)
  | none =>
  match i.ReplaceBytes with
  | some a =>
    let res := invoke pt num (.ReplaceBytes a.Offset a.Find a.Replace) r
    (res.1, res.2.map Err.surface)
  | none =>
  match i.ReplaceFloat with
  | some a =>
    let res := invoke pt num (.ReplaceFloat a.Offset a.Find a.Replace) r
    (res.1, res.2.map Err.surface)
  | none =>
  match i.ReplaceInt with
  | some a =>
    let res := invoke pt num (.ReplaceInt a.Offset a.Find a.Replace) r
    (res.1, res.2.map Err.surface)
  | none =>
  match i.ReplaceString with
  | some a =>
    let res := invoke pt num (.ReplaceString a.Offset a.Find a.Replace) r
    (res.1, res.2.map Err.surface)
  | none =>
  match i.FindReplaceString with
  | some a =>
    let res1 := invoke pt num (.FindBaseAddressString a.Find) r
    match res1.2 with
    | some msg => (res1.1, some (.findReplaceString msg))
    | none =>
      let res2 := invoke pt num (.ReplaceString 0 a.Find a.Replace) res1.1
      (res2.1, res2.2.map Err.findReplaceString)
  | none => (r, some (.invalidInstruction i))

/-- The loop `for _, i := range p` over the instructions of an enabled patch
(lines 353-415): the first non-nil `err` is returned. -/
def applyInstructions {σ : Type} (pt : Patcher σ) (num : Nat) :
    patch → Run σ → Run σ × Option Err
  | [], r => (r, none)
  | i :: rest, r =>
    match execInstruction pt num i r with
    | (r1, some err) => (r1, some err)
    | (r1, none) => applyInstructions pt num rest r1

/-- The value of `enabled` after the loop of lines 334-340. -/
def patchEnabled : patch → Bool
  | [] => false
  | i :: rest =>
    match i.Enabled with
    | some true => true
    | _ => patchEnabled rest

/-- The loop `for n, p := range *pf` of `ApplyTo` (lines 328-416); `num` is the
counter before the patch at the head of the list is processed. -/
def applyPatches {σ : Type} (pt : Patcher σ) : patchFile → Nat → Run σ → Run σ × Option Err
  | [], _, r => (r, none)
  | (_, p) :: rest, num, r =>
    let r1 := (invoke pt (num + 1) .ResetBaseAddress r).1
    if patchEnabled p = false then applyPatches pt rest (num + 1) r1
    else
      match applyInstructions pt (num + 1) p r1 with
      | (r2, some err) => (r2, some err)
      | (r2, none) => applyPatches pt rest (num + 1) r2

/-- The method `ApplyTo`. The two loops over the map, the one inside `validate` and
the patch loop, need not visit it in the same order: `pf` is the order of the patch
loop and `order pf` the order of the loop of `validate`. The result is the surface
state with the calls made, and the error returned. -/
def ApplyTo {σ : Type} (pt : Patcher σ) (order : patchFile → patchFile) (pf : patchFile)
    (s : σ) : Run σ × Option Err :=
  match validate (order pf) with
  | some err => (⟨s, []⟩, some (.invalidPatchFile err))
  | none => applyPatches pt pf 0 ⟨s, []⟩

/-! ## A reference surface -/

/-- Modelled from the spec: the state of the Binary Patch Surface (package
`patchlib`, which is not among the sources): a byte buffer and the base-address
register. -/
structure Surface where
  buf : List Nat
  cur : Int
deriving DecidableEq, Repr

/-- Modelled from the spec: the position of the first occurrence of `pattern` in the
buffer (`findBaseAddress` "scans the buffer for the first occurrence"), counted
from `k` at the head of the list. -/
def firstIndex (pattern : List Nat) : List Nat → Nat → Option Nat
  | [], k => if pattern = [] then some k else none
  | b :: rest, k =>
    if pattern.isPrefixOf (b :: rest) then some k else firstIndex pattern rest (k + 1)

/-- Modelled from the spec: `findBaseAddress(pattern)` sets the register to the
location of the first occurrence and fails if there is none. -/
def Surface.find (pattern : List Nat) (s : Surface) : Surface × Option String :=
  match firstIndex pattern s.buf 0 with
  | some k => ({ s with cur := k }, none)
  | none => (s, some "could not find bytes")

/-- Modelled from the spec: the verify-then-write of the replace operations: read
`len(find)` bytes at `register + offset`, fail when the location is out of bounds or
the bytes differ from `find`, else overwrite them with `replace`. The spec leaves the
case of a `replace` of another length open; the bytes are spliced in here. -/
def Surface.replace (offset : Int) (find replace : List Nat) (s : Surface) :
    Surface × Option String :=
  let at_ := s.cur + offset
  if at_ < 0 ∨ (s.buf.length : Int) < at_ + find.length then (s, some "offset out of bounds")
  else
    let k := at_.toNat
    if (s.buf.drop k).take find.length = find then
      ({ s with buf := s.buf.take k ++ replace ++ s.buf.drop (k + find.length) }, none)
    else (s, some "could not find specified bytes at offset")

/-- The UTF-8 bytes of a string (`[]byte(str)`). -/
def stringBytes (str : String) : List Nat :=
  str.toList.flatMap (fun c => (String.utf8EncodeChar c).map UInt8.toNat)

/-- Modelled from the spec: the bytes of a `float64`; the spec leaves the width
open, the eight bytes of the bit pattern, least significant first, are used here. -/
def floatBytes (bits : Nat) : List Nat :=
  (List.range 8).map (fun k => bits / 256 ^ k % 256)

/-- Modelled from the spec: the Binary Patch Surface of section 6 as a `Patcher`. -/
def referencePatcher : Patcher Surface where
  ResetBaseAddress := fun s => { s with cur := 0 }
  BaseAddress := fun a s => ({ s with cur := a }, none)
  FindBaseAddress := fun buf s => s.find buf
  FindBaseAddressString := fun find s => s.find (stringBytes find)
  ReplaceBytes := fun o f r s => s.replace o f r
  ReplaceFloat := fun o f r s => s.replace o (floatBytes f) (floatBytes r)
  ReplaceInt := fun o f r s => s.replace o [f] [r]
  ReplaceString := fun o f r s => s.replace o (stringBytes f) (stringBytes r)

/-! ## Vocabulary of the specification -/

/-- The eleven variants of an instruction, each marked populated or not. -/
def populated (i : instruction) : List Bool :=
  [i.Enabled.isSome, i.Description.isSome, i.PatchGroup.isSome, i.BaseAddress.isSome,
   i.FindBaseAddressHex.isSome, i.FindBaseAddressString.isSome, i.FindReplaceString.isSome,
   i.ReplaceString.isSome, i.ReplaceInt.isSome, i.ReplaceFloat.isSome, i.ReplaceBytes.isSome]

/-- The number of populated variants of an instruction. -/
def populatedCount (i : instruction) : Nat :=
  (populated i).count true

/-- The number of `Enabled` instructions of a patch. -/
def enabledCount (p : patch) : Nat :=
  p.countP (fun i => i.Enabled.isSome)

/-- The number of `Description` instructions of a patch. -/
def descriptionCount (p : patch) : Nat :=
  p.countP (fun i => i.Description.isSome)

/-- The number of `PatchGroup` instructions of a patch. -/
def patchGroupCount (p : patch) : Nat :=
  p.countP (fun i => i.PatchGroup.isSome)

/-- A patch that has an `Enabled: true` instruction. -/
def hasEnabledTrue (p : patch) : Prop :=
  ∃ i ∈ p, i.Enabled = some true

/-- A patch that has a `PatchGroup` instruction naming the group `g`. -/
def hasPatchGroup (g : String) (p : patch) : Prop :=
  ∃ i ∈ p, i.PatchGroup = some g

/-- A patch with at least one `ReplaceBytes` and one `FindBaseAddressString`
instruction and no `ReplaceString`, `ReplaceInt`, `ReplaceFloat` or
`FindReplaceString` instruction. -/
def bytesByStringOnly (p : patch) : Prop :=
  (∃ i ∈ p, i.ReplaceBytes.isSome) ∧ (∃ i ∈ p, i.FindBaseAddressString.isSome) ∧
    ∀ i ∈ p, i.ReplaceString = none ∧ i.ReplaceInt = none ∧ i.ReplaceFloat = none
      ∧ i.FindReplaceString = none

instance (p : patch) : Decidable (hasEnabledTrue p) := by
  unfold hasEnabledTrue; infer_instance

instance (g : String) (p : patch) : Decidable (hasPatchGroup g p) := by
  unfold hasPatchGroup; infer_instance

instance (p : patch) : Decidable (bytesByStringOnly p) := by
  unfold bytesByStringOnly; infer_instance

/-! ## Concrete specifications -/

/-- An enabled patch that names the group `g`. -/
def enabledInGroup (g : String) : patch :=
  [{ Enabled := some true }, { PatchGroup := some g }]

/-- Two enabled patches that name the same group `g`. -/
def sameGroupSpec (g : String) : patchFile :=
  [("first", enabledInGroup g), ("second", enabledInGroup g)]

/-- One enabled patch that sets the base address. -/
def simpleSpec : patchFile :=
  [("only", [{ Enabled := some true }, { BaseAddress := some 0 }])]

/-- A patch without an `Enabled` instruction. -/
def noEnabledSpec : patchFile :=
  [("only", [{ Description := some "nothing here" }])]

/-- A patch with an instruction none of whose variants is populated. -/
def emptyInstructionSpec : patchFile :=
  [("only", [{ Enabled := some true }, {}])]

/-- A disabled patch that finds its base address by string and replaces raw bytes. -/
def bytesByStringSpec : patchFile :=
  [("only", [{ Enabled := some false }, { FindBaseAddressString := some "x" },
    { ReplaceBytes := some ⟨0, none, none, [1], [2]⟩ }])]

/-- A patch with two `Description` instructions. -/
def twoDescriptionsSpec : patchFile :=
  [("only", [{ Enabled := some true }, { Description := some "a" },
    { Description := some "b" }])]

/-- The hex digit of a value below sixteen, in upper or in lower case. -/
def digitChar (upper : Bool) (n : Nat) : Char :=
  (if upper then "0123456789ABCDEF" else "0123456789abcdef").toList.getD n '0'

/-- The two-digit hex encodings of the bytes of `b`, one after the other. -/
def encodeHex (upper : Bool) : List Nat → List Char
  | [] => []
  | x :: rest => digitChar upper (x / 16) :: digitChar upper (x % 16) :: encodeHex upper rest

/-- The hex shorthand strings of an instruction: its `FindH` and its `ReplaceH`. -/
def instructionShorthand (i : instruction) : List String :=
  match i.ReplaceBytes with
  | none => []
  | some r => r.FindH.toList ++ r.ReplaceH.toList

/-- The hex shorthand strings of a patch file. -/
def shorthand (pf : patchFile) : List String :=
  pf.flatMap (fun np => np.2.flatMap instructionShorthand)

/-- A hex string that the program decodes without error. -/
def Decodes (hex : String) : Prop :=
  ∃ b, decodeHex hex = .ok b

/-- A patch file with one `ReplaceBytes` instruction whose `FindH` is `hex`. -/
def findHSpec (hex : String) : patchFile :=
  [("only", [{ Enabled := some true },
    { ReplaceBytes := some ⟨0, some hex, none, [], [1]⟩ }])]

/-- A record of calls none of which returned an error. -/
def Clean (tr : List Event) : Prop :=
  ∀ ev ∈ tr, ev.failed = false

/-- The shape of the calls added by a piece of `ApplyTo` that returned `e`: calls that
succeeded, then at most one call that failed, and then `e` is an error. -/
def Shape (new : List Event) (e : Option Err) : Prop :=
  ∃ good, Clean good ∧
    (new = good ∨ ∃ bad, bad.failed = true ∧ new = good ++ [bad] ∧ e.isSome = true)

/-- The record of a `ResetBaseAddress` call made for the patch number `num`. -/
def resetEvent (num : Nat) : Event :=
  ⟨num, .ResetBaseAddress, false⟩

/-- A buffer of three bytes with the register at zero. -/
def smallSurface : Surface :=
  ⟨[1, 2, 3], 0⟩

/-- Two disabled patches, the first with a replace instruction. -/
def disabledSpec : patchFile :=
  [("first", [{ Enabled := some false }, { ReplaceInt := some ⟨0, 1, 2⟩ }]),
   ("second", [{ Enabled := some false }])]

/-- An enabled patch with a replace instruction before and one after a
`FindBaseAddressHex` whose pattern `AA` is not in `smallSurface`. -/
def hexMissSpec : patchFile :=
  [("only", [{ Enabled := some true }, { ReplaceInt := some ⟨0, 1, 2⟩ },
    { FindBaseAddressHex := some "AA" }, { ReplaceInt := some ⟨0, 2, 3⟩ }])]

/-- Two enabled patches; the replace of the first does not find its byte in
`smallSurface`. -/
def failingSpec : patchFile :=
  [("first", [{ Enabled := some true }, { ReplaceInt := some ⟨0, 9, 2⟩ },
    { ReplaceInt := some ⟨1, 2, 5⟩ }]),
   ("second", [{ Enabled := some true }, { ReplaceInt := some ⟨2, 3, 4⟩ }])]

/-- The surface calls that the populated variants of an instruction stand for. -/
def callsOf (i : instruction) : List Call :=
  (match i.BaseAddress with
    | some a => [.BaseAddress a]
    | none => [])
  ++ (match i.FindBaseAddressHex with
    | some hex =>
      match decodeHex hex with
      | .ok buf => [.FindBaseAddress buf]
      | .error _ => []
    | none => [])
  ++ (match i.FindBaseAddressString with
    | some find => [.FindBaseAddressString find]
    | none => [])
  ++ (match i.ReplaceBytes with
    | some a => [.ReplaceBytes a.Offset a.Find a.Replace]
    | none => [])
  ++ (match i.ReplaceFloat with
    | some a => [.ReplaceFloat a.Offset a.Find a.Replace]
    | none => [])
  ++ (match i.ReplaceInt with
    | some a => [.ReplaceInt a.Offset a.Find a.Replace]
    | none => [])
  ++ (match i.ReplaceString with
    | some a => [.ReplaceString a.Offset a.Find a.Replace]
    | none => [])
  ++ (match i.FindReplaceString with
    | some a => [.FindBaseAddressString a.Find, .ReplaceString 0 a.Find a.Replace]
    | none => [])

/-- Where a call of the patch loop comes from: the patch at position `k` of the list
is the one numbered `num + k + 1`, and the call is either the `ResetBaseAddress` that
starts the patch or a call of one of the instructions of that patch, which is then
enabled. -/
def Origin (pf : patchFile) (num : Nat) (ev : Event) : Prop :=
  ∃ k np, pf[k]? = some np ∧ ev.num = num + k + 1
    ∧ (ev = resetEvent (num + k + 1)
      ∨ (patchEnabled np.2 = true ∧ ∃ i ∈ np.2, ev.call ∈ callsOf i))

/-- The counters of `validate` after all the instructions of a patch. -/
def patchTotals (p : patch) : patchCounters :=
  p.foldl tally {}

/-- A patch that passes every check `validate` makes on a patch alone. -/
def patchPasses (p : patch) : Prop :=
  (∀ i ∈ p, ic i = 1) ∧ (patchTotals p).ec = 1 ∧ (patchTotals p).dc ≤ 1
    ∧ (patchTotals p).pgc ≤ 1
    ∧ ¬((patchTotals p).roc = 0 ∧ (patchTotals p).rbc > 0 ∧ (patchTotals p).fbsc > 0)

/-- The name a patch puts into `enabledPatchGroups`, if it puts one. -/
def groupKey (p : patch) : Option String :=
  if (patchTotals p).pg ≠ "" ∧ (patchTotals p).e = true then some (patchTotals p).pg else none

/-- The names the patches of a specification put into `enabledPatchGroups`. -/
def groupKeys (pf : patchFile) : List String :=
  pf.filterMap (fun np => groupKey np.2)

/-- Two patches with one fault each: the first has no `Enabled`, the second has two
`Description` instructions. -/
def twoFaultsSpec : patchFile :=
  [("first", [{ Description := some "nothing here" }]),
   ("second", [{ Enabled := some true }, { Description := some "a" },
    { Description := some "b" }])]

/-- Two patches in different groups, one disabled patch in the group of the first,
and instructions of every kind. -/
def mixedSpec : patchFile :=
  [("first", [{ Enabled := some true }, { PatchGroup := some "night" },
    { Description := some "dark" }, { FindBaseAddressHex := some "AA BB" },
    { ReplaceBytes := some ⟨0, none, none, [1], [2]⟩ }]),
   ("second", [{ Enabled := some true }, { PatchGroup := some "day" },
    { FindBaseAddressString := some "x" }, { ReplaceBytes := some ⟨0, none, none, [1], [2]⟩ },
    { ReplaceInt := some ⟨0, 1, 2⟩ }]),
   ("third", [{ Enabled := some false }, { PatchGroup := some "night" },
    { BaseAddress := some 4 }, { ReplaceString := some ⟨0, "a", "b"⟩ }])]

/-- Two instructions that differ at most in the string of `FindBaseAddressHex`. -/
def sameButHex (i j : instruction) : Prop :=
  i.FindBaseAddressHex.isSome = j.FindBaseAddressHex.isSome
    ∧ { i with FindBaseAddressHex := none } = { j with FindBaseAddressHex := none }

/-- Two specifications with the same patch names and the same instructions, except
for the strings that their `FindBaseAddressHex` instructions carry. -/
def sameSpecButHex (pf1 pf2 : patchFile) : Prop :=
  List.Forall₂ (fun a b => a.1 = b.1 ∧ List.Forall₂ sameButHex a.2 b.2) pf1 pf2

/-- The instruction `FindReplaceString{find, replace}`. -/
def findReplaceStringOf (find replace : String) : instruction :=
  { FindReplaceString := some ⟨find, replace⟩ }

/-- The two instructions `FindBaseAddressString(find)` and
`ReplaceString(0, find, replace)`. -/
def findThenReplaceOf (find replace : String) : List instruction :=
  [{ FindBaseAddressString := some find }, { ReplaceString := some ⟨0, find, replace⟩ }]

/-- An enabled patch whose `FindBaseAddressHex` carries the string `zz`, after a
replace instruction that succeeds on `smallSurface`. -/
def badHexSpec : patchFile :=
  [("only", [{ Enabled := some true }, { ReplaceInt := some ⟨0, 1, 2⟩ },
    { FindBaseAddressHex := some "zz" }, { ReplaceInt := some ⟨0, 2, 3⟩ }])]

/-- The specification `badHexSpec` with a replace instruction that fails on
`smallSurface` placed before the `FindBaseAddressHex`. -/
def badHexLateSpec : patchFile :=
  [("only", [{ Enabled := some true }, { ReplaceInt := some ⟨0, 9, 2⟩ },
    { FindBaseAddressHex := some "zz" }, { ReplaceInt := some ⟨0, 2, 3⟩ }])]

/-- Two states of the counters of `validate` that agree except in `fbsc`, with a
replace instruction other than `ReplaceBytes` already counted. -/
def agreeButFbsc (c d : patchCounters) : Prop :=
  c.ec = d.ec ∧ c.e = d.e ∧ c.pgc = d.pgc ∧ c.pg = d.pg ∧ c.dc = d.dc ∧ c.rbc = d.rbc
    ∧ c.roc = d.roc ∧ 0 < c.roc

/-- An enabled patch made of one `FindReplaceString` instruction. -/
def compositeSpec : patchFile :=
  [("only", [{ Enabled := some true }] ++ [findReplaceStringOf "ab" "cd"] ++ [])]

/-- The patch of `compositeSpec` with the two instructions in place of the one. -/
def sequenceSpec : patchFile :=
  [("only", [{ Enabled := some true }] ++ findThenReplaceOf "ab" "cd" ++ [])]

/-- A buffer that holds the string `ab` at position two. -/
def textSurface : Surface :=
  ⟨[0, 0, 97, 98, 0], 0⟩

instance (i j : instruction) : Decidable (sameButHex i j) := by
  unfold sameButHex; infer_instance

instance (pf1 pf2 : patchFile) : Decidable (sameSpecButHex pf1 pf2) := by
  unfold sameSpecButHex; infer_instance

deriving instance DecidableEq for Run

/-! ## The surface with its buffer -/

/-- The package `patchlib` as `main` uses it: the methods `ApplyTo` calls, the
constructor `NewPatcher` and the method `GetBytes`. -/
structure Patchlib (σ : Type) extends Patcher σ where
  NewPatcher : List Nat → σ
  GetBytes : σ → List Nat

/-- Modelled from the spec: `create(bytes)` wraps a copy of the bytes and `getBytes()`
returns the current buffer contents, on the surface of section 6. -/
def referencePatchlib : Patchlib Surface where
  toPatcher := referencePatcher
  NewPatcher := fun b => ⟨b, 0⟩
  GetBytes := fun s => s.buf

/-- Modelled from the spec: a surface obeys the verify-then-write contract of section 6
when a view `abs` of its state as a buffer with a register shows that: `create` wraps
the bytes, `getBytes` returns the buffer, `resetBaseAddress` leaves the buffer alone,
`setBaseAddress` sets the register literally and cannot fail, and `replaceInt` fails
exactly when the byte at register plus offset is out of bounds or is not `find`, and
else overwrites it with `replace`. -/
structure VerifyThenWrite {σ : Type} (lib : Patchlib σ) (abs : σ → Surface) : Prop where
  create : ∀ b, (abs (lib.NewPatcher b)).buf = b
  bytes : ∀ s, lib.GetBytes s = (abs s).buf
  reset : ∀ s, (abs (lib.ResetBaseAddress s)).buf = (abs s).buf
  base : ∀ a s, (lib.BaseAddress a s).2 = none
    ∧ abs (lib.BaseAddress a s).1 = { abs s with cur := a }
  replaceInt : ∀ o f r s,
    (lib.ReplaceInt o f r s).2.isSome = ((abs s).replace o [f] [r]).2.isSome
      ∧ ((lib.ReplaceInt o f r s).2 = none →
          abs (lib.ReplaceInt o f r s).1 = ((abs s).replace o [f] [r]).1)

/-- An enabled patch that sets the base address to zero and replaces the byte `f`
there by `r`. -/
def replaceOnce (f r : Nat) : patch :=
  [{ Enabled := some true }, { BaseAddress := some 0 }, { ReplaceInt := some ⟨0, f, r⟩ }]

/-- Two enabled patches on the same byte: the first turns 1 into 2, the second turns
2 into 3. -/
def chainSpec : patchFile :=
  [("first", replaceOnce 1 2), ("second", replaceOnce 2 3)]

/-! ## `main` (lines 34-203), from the parsed configuration on -/

/-- The struct `config`; the map `Patches` is the list of its entries. -/
structure config where
  Version : String
  In : String
  Out : String
  Log : String
  UseNewPatchFormat : Bool
  Patches : List (String × String)
deriving DecidableEq, Repr

/-- The struct `tar.Header`; the maps are lists of entries and an instant of time is
a number. -/
structure Header where
  Typeflag : Nat := 0
  Name : String := ""
  Linkname : String := ""
  Size : Int := 0
  Mode : Int := 0
  Uid : Int := 0
  Gid : Int := 0
  Uname : String := ""
  Gname : String := ""
  ModTime : Nat := 0
  AccessTime : Nat := 0
  ChangeTime : Nat := 0
  Devmajor : Int := 0
  Devminor : Int := 0
  Xattrs : List (String × String) := []
  PAXRecords : List (String × String) := []
  Format : Nat := 0
deriving DecidableEq, Repr

/-- The constant `tar.TypeReg`, the character `0`. -/
def TypeReg : Nat := 48

/-- An entry of the inner archive as the tar reader yields it: the header that `Next`
returns and the result of `ioutil.ReadAll` on the reader. -/
structure TarEntry where
  header : Header
  contents : Except String (List Nat)
deriving DecidableEq, Repr

/-- An entry written to the output tar: the header given to `WriteHeader` and the
bytes given to `Write`. -/
structure TarOut where
  header : Header
  payload : List Nat
deriving DecidableEq, Repr

/-- The ways `newPatchFile` fails before the hex shorthand is expanded, and after. -/
inductive LoadErr where
  | reading (msg : String)
  | parsing (msg : String)
  | rejected (cause : Err)
deriving DecidableEq, Repr

/-- The fatal errors of `main`, one for each `checkErr` site from line 44 on. -/
inductive Fatal where
  | requiredFields
  | oldPatchFormat
  | openLog (msg : String)
  | openInput (msg : String)
  | noKoboRoot
  | openKoboRoot (msg : String)
  | decompress (msg : String)
  | readEntry (msg : String)
  | notRegularFile
  | readContents (msg : String)
  | loadPatchFile (pfn : String) (cause : LoadErr)
  | applyPatchFile (pfn : String) (cause : Err)
  | writeHeader (msg : String)
  | writeContents (msg : String)
  | shortWrite
  | closeTar (msg : String)
  | closeGzip (msg : String)
  | writeOutput (msg : String)
deriving DecidableEq, Repr

/-- An effect of `main` on the file system: `os.Create` creates or truncates a file,
`logged` is the text that `log` writes to the file it names, `os.Remove` removes
a file, `ioutil.WriteFile` writes the compressed tar made of the given entries. -/
inductive FsOp where
  | create (path : String)
  | logged (path : String)
  | remove (path : String)
  | writeFile (path : String) (entries : List TarOut)
deriving DecidableEq, Repr

/-- The file an effect acts on. -/
def FsOp.path : FsOp → String
  | .create path => path
  | .logged path => path
  | .remove path => path
  | .writeFile path _ => path

/-- What lies outside the program: the patch library, the file system, the archive
readers and writers, the clock, and the orders in which the `range` loops visit the
maps. -/
structure World (σ : Type) where
  lib : Patchlib σ
  createLog : Option String
  openInner : Except Fatal (List TarEntry × Option String)
  cfgOrder : Nat → List (String × String)
  readFile : String → Except String (List Nat)
  unmarshal : List Nat → Except String patchFile
  loadOrder : patchFile → patchFile
  loopOrder : patchFile → patchFile
  checkOrder : patchFile → patchFile
  now : Nat → Nat
  writeHeader : List TarOut → Header → Option String
  write : List TarOut → Header → List Nat → Nat × Option String
  closeTar : List TarOut → Option String
  closeGzip : List TarOut → Option String
  writeOut : List TarOut → Option String

/-- The loop of lines 117-124 over `cfg.Patches`, visited in the order of the list:
`n` is the key and `f` the value of an entry of the map, and the result is the
value of `pfn` when `needsPatching` is set. -/
def needsPatching : List (String × String) → String → Option String
  | [], _ => none
  | (n, f) :: rest, name =>
    if name = "./" ++ f ∨ name = f then some n else needsPatching rest name

/-- The function `newPatchFile` with the reading and the parsing of the file. -/
def loadPatchFile {σ : Type} (w : World σ) (filename : String) : Except LoadErr patchFile :=
  match w.readFile filename with
  | .error msg => .error (.reading msg)
  | .ok buf =>
    match w.unmarshal buf with
    | .error msg => .error (.parsing msg)
    | .ok parsed =>
      match newPatchFile w.loadOrder parsed with
      | .error err => .error (.rejected err)
      | .ok pf => .ok pf

/-- The header of lines 156-168 for the entry read as `h`, patched to `fbuf`, at the
time `now`. -/
def outputHeader (h : Header) (fbuf : List Nat) (now : Nat) : Header where
  Typeflag := h.Typeflag
  Name := h.Name
  Mode := h.Mode
  Uid := h.Uid
  Gid := h.Gid
  ModTime := now
  Uname := h.Uname
  Gname := h.Gname
  PAXRecords := h.PAXRecords
  Size := fbuf.length
  Format := h.Format

/-- The loop of lines 104-177 over the entries of the inner archive: `entries` are
the entries the reader yields before it ends, with `readErr` or with `io.EOF`; `k`
counts the entries read and `out` holds the entries written so far. -/
def streamEntries {σ : Type} (w : World σ) (readErr : Option String) :
    List TarEntry → Nat → List TarOut → Except Fatal (List TarOut)
  | [], _, out =>
    match readErr with
    | some msg => .error (.readEntry msg)
    | none => .ok out
  | e :: rest, k, out =>
    match needsPatching (w.cfgOrder k) e.header.Name with
    | none => streamEntries w readErr rest (k + 1) out
    | some pfn =>
      if e.header.Typeflag ≠ TypeReg then .error .notRegularFile
      else
        match e.contents with
        | .error msg => .error (.readContents msg)
        | .ok fbuf =>
          match loadPatchFile w pfn with
          | .error err => .error (.loadPatchFile pfn err)
          | .ok pf =>
            match ApplyTo w.lib.toPatcher w.checkOrder (w.loopOrder pf)
                (w.lib.NewPatcher fbuf) with
            | (_, some err) => .error (.applyPatchFile pfn err)
            | (run, none) =>
              let fbuf1 := w.lib.GetBytes run.st
              let h := outputHeader e.header fbuf1 (w.now k)
              match w.writeHeader out h with
              | some msg => .error (.writeHeader msg)
              | none =>
                match w.write out h fbuf1 with
                | (_, some msg) => .error (.writeContents msg)
                | (i, none) =>
                  if i ≠ fbuf1.length then .error .shortWrite
                  else streamEntries w readErr rest (k + 1) (out ++ [⟨h, fbuf1⟩])

/-- The effects of a run of `main` on the file system and the fatal error it exits
with, if any. -/
structure Outcome where
  ops : List FsOp
  fatal : Option Fatal
deriving DecidableEq, Repr

/-- Lines 179-194: the old output is removed, the writers are closed and the buffer
is written to the output path. -/
def finish {σ : Type} (w : World σ) (cfg : config) (ops : List FsOp) (out : List TarOut) :
    Outcome :=
  let ops1 := ops ++ [.remove cfg.Out]
  match w.closeTar out with
  | some msg => ⟨ops1, some (.closeTar msg)⟩
  | none =>
    match w.closeGzip out with
    | some msg => ⟨ops1, some (.closeGzip msg)⟩
    | none =>
      match w.writeOut out with
      | some msg => ⟨ops1 ++ [.writeFile cfg.Out out], some (.writeOutput msg)⟩
      | none => ⟨ops1 ++ [.writeFile cfg.Out out], none⟩

/-- The function `main` from line 44 on, for the configuration `cfg` parsed from
`kobopatch.yaml`. Every `checkErr` with an error ends the run at once. -/
def main {σ : Type} (w : World σ) (cfg : config) : Outcome :=
  if cfg.Version = "" ∨ cfg.In = "" ∨ cfg.Out = "" ∨ cfg.Log = "" then
    ⟨[], some .requiredFields⟩
  else if cfg.UseNewPatchFormat = false then ⟨[], some .oldPatchFormat⟩
  else
    match w.createLog with
    | some msg => ⟨[], some (.openLog msg)⟩
    | none =>
      let ops := [.create cfg.Log, .logged cfg.Log]
      match w.openInner with
      | .error f => ⟨ops, some f⟩
      | .ok (entries, readErr) =>
        match streamEntries w readErr entries 0 [] with
        | .error f => ⟨ops, some f⟩
        | .ok out => finish w cfg ops out

/-- An entry name that the configuration selects: it equals a value of the map or a
value with `./` before it. -/
def matchesConfig (patches : List (String × String)) (name : String) : Bool :=
  patches.any (fun nf => name == "./" ++ nf.2 || name == nf.2)

/-- The relation between an entry read from the inner archive and the entry written
for it: the header is cloned except for the size and the modification time, the
entry is a regular file selected by an entry of the configuration, and the size and
the payload are those of the bytes the surface returns after `ApplyTo` has applied,
to the contents of the entry, the patch file loaded from the key of that entry. -/
def Patched {σ : Type} (w : World σ) (cfg : config) (e : TarEntry) (o : TarOut) : Prop :=
  o.header.Typeflag = e.header.Typeflag ∧ o.header.Name = e.header.Name
    ∧ o.header.Mode = e.header.Mode ∧ o.header.Uid = e.header.Uid
    ∧ o.header.Gid = e.header.Gid ∧ o.header.Uname = e.header.Uname
    ∧ o.header.Gname = e.header.Gname ∧ o.header.PAXRecords = e.header.PAXRecords
    ∧ o.header.Format = e.header.Format
    ∧ ∃ pfn f fbuf pf run, (pfn, f) ∈ cfg.Patches
        ∧ (e.header.Name = "./" ++ f ∨ e.header.Name = f)
        ∧ e.header.Typeflag = TypeReg ∧ e.contents = .ok fbuf
        ∧ loadPatchFile w pfn = .ok pf
        ∧ ApplyTo w.lib.toPatcher w.checkOrder (w.loopOrder pf) (w.lib.NewPatcher fbuf)
          = (run, none)
        ∧ o.header.Size = (w.lib.GetBytes run.st).length
        ∧ o.payload = w.lib.GetBytes run.st

/-- A configuration in the form of the program: the key is the path of the patch
file, the value the name of the file inside the inner archive. -/
def demoConfig : config :=
  ⟨"4.9", "update.zip", "out.tgz", "log.txt", true, [("nickel.yaml", "bin/app")]⟩

/-- The configuration `demoConfig` with the log written to the output path. -/
def aliasConfig : config :=
  ⟨"4.9", "update.zip", "out.tgz", "out.tgz", true, [("nickel.yaml", "bin/app")]⟩

/-- The patch file of the end-to-end example: find `AA BB`, then replace the byte 1
two places further by 2. -/
def demoSpec : patchFile :=
  [("only", [{ Enabled := some true }, { FindBaseAddressHex := some "AA BB" },
    { ReplaceInt := some ⟨2, 1, 2⟩ }])]

/-- The regular file `./bin/app` with its attributes. -/
def appEntry : TarEntry :=
  ⟨{ Typeflag := TypeReg, Name := "./bin/app", Size := 5, Mode := 493, Uid := 0, Gid := 0,
     Uname := "root", Gname := "root", ModTime := 7, PAXRecords := [("path", "./bin/app")],
     Format := 4 }, .ok [0, 0xAA, 0xBB, 1, 5]⟩

/-- A regular file that the configuration does not name. -/
def otherEntry : TarEntry :=
  ⟨{ Typeflag := TypeReg, Name := "./etc/passwd", Size := 2, Mode := 420 }, .ok [7, 7]⟩

/-- A directory with the name the configuration selects. -/
def dirEntry : TarEntry :=
  ⟨{ Typeflag := 53, Name := "bin/app", Mode := 493 }, .ok []⟩

/-- A world in which nothing outside the program fails: the inner archive holds
`entries`, every patch file parses to `demoSpec`, the surface is the reference
surface and the maps are visited in the order of their lists. -/
def demoWorld (cfg : config) (entries : List TarEntry) : World Surface where
  lib := referencePatchlib
  createLog := none
  openInner := .ok (entries, none)
  cfgOrder := fun _ => cfg.Patches
  readFile := fun _ => .ok []
  unmarshal := fun _ => .ok demoSpec
  loadOrder := id
  loopOrder := id
  checkOrder := id
  now := fun k => 1000 + k
  writeHeader := fun _ _ => none
  write := fun _ _ b => (b.length, none)
  closeTar := fun _ => none
  closeGzip := fun _ => none
  writeOut := fun _ => none

/-- The world `demoWorld` where the only file that can be read is the one named by
the key of the configuration entry. -/
def keyedWorld (cfg : config) (entries : List TarEntry) : World Surface :=
  { demoWorld cfg entries with
    readFile := fun filename =>
      if filename = "nickel.yaml" then .ok [] else .error "no such file" }

/-! ## Facts about the counters of `validate` -/

theorem isSet_eq {α : Type} (o : Option α) : isSet o = if o.isSome then 1 else 0 := by
  cases o <;> rfl

theorem isSet_eq_toNat {α : Type} (o : Option α) : isSet o = o.isSome.toNat := by
  cases o <;> rfl

theorem count_true_cons (b : Bool) (l : List Bool) :
    (b :: l).count true = b.toNat + l.count true := by
  cases b <;> simp [List.count_cons]
  omega

theorem ic_eq_populatedCount (i : instruction) : ic i = populatedCount i := by
  simp only [ic, populatedCount, populated, isSet_eq_toNat, count_true_cons, List.count_nil]
  omega

theorem foldl_tally_ec (p : patch) (c : patchCounters) :
    (p.foldl tally c).ec = c.ec + enabledCount p := by
  induction p generalizing c with
  | nil => simp [enabledCount]
  | cons i rest ih =>
    rw [List.foldl_cons, ih]
    cases h : i.Enabled <;> simp [tally, enabledCount, List.countP_cons, isSet, h]
    omega

theorem foldl_tally_dc (p : patch) (c : patchCounters) :
    (p.foldl tally c).dc = c.dc + descriptionCount p := by
  induction p generalizing c with
  | nil => simp [descriptionCount]
  | cons i rest ih =>
    rw [List.foldl_cons, ih]
    cases h : i.Description <;> simp [tally, descriptionCount, List.countP_cons, isSet, h]
    omega

theorem foldl_tally_pgc (p : patch) (c : patchCounters) :
    (p.foldl tally c).pgc = c.pgc + patchGroupCount p := by
  induction p generalizing c with
  | nil => simp [patchGroupCount]
  | cons i rest ih =>
    rw [List.foldl_cons, ih]
    cases h : i.PatchGroup <;> simp [tally, patchGroupCount, List.countP_cons, isSet, h]
    omega

theorem foldl_tally_rbc (p : patch) (c : patchCounters) :
    (p.foldl tally c).rbc = c.rbc + p.countP (fun i => i.ReplaceBytes.isSome) := by
  induction p generalizing c with
  | nil => simp
  | cons i rest ih =>
    rw [List.foldl_cons, ih]
    cases h : i.ReplaceBytes <;> simp [tally, List.countP_cons, isSet, h]
    omega

theorem foldl_tally_fbsc (p : patch) (c : patchCounters) :
    (p.foldl tally c).fbsc = c.fbsc + p.countP (fun i => i.FindBaseAddressString.isSome) := by
  induction p generalizing c with
  | nil => simp
  | cons i rest ih =>
    rw [List.foldl_cons, ih]
    cases h : i.FindBaseAddressString <;> simp [tally, List.countP_cons, isSet, h]
    omega

theorem foldl_tally_roc (p : patch) (c : patchCounters)
    (h : ∀ i ∈ p, i.ReplaceString = none ∧ i.ReplaceInt = none ∧ i.ReplaceFloat = none
      ∧ i.FindReplaceString = none) :
    (p.foldl tally c).roc = c.roc := by
  induction p generalizing c with
  | nil => simp
  | cons i rest ih =>
    rw [List.foldl_cons, ih _ (fun j hj => h j (List.mem_cons_of_mem _ hj))]
    obtain ⟨h1, h2, h3, h4⟩ := h i (List.mem_cons_self _ _)
    simp [tally, isSet, h1, h2, h3, h4]

theorem foldl_tally_e_of_zero (p : patch) (c : patchCounters) (h : enabledCount p = 0) :
    (p.foldl tally c).e = c.e := by
  induction p generalizing c with
  | nil => simp
  | cons i rest ih =>
    cases hi : i.Enabled with
    | some b => simp [enabledCount, List.countP_cons, hi] at h
    | none =>
      have h0 : enabledCount rest = 0 := by
        simpa [enabledCount, List.countP_cons, hi] using h
      rw [List.foldl_cons, ih _ h0]
      simp [tally, hi]

theorem foldl_tally_e_of_one (p : patch) (c : patchCounters) (h : enabledCount p = 1)
    (i : instruction) (hi : i ∈ p) (b : Bool) (hb : i.Enabled = some b) :
    (p.foldl tally c).e = b := by
  induction p generalizing c with
  | nil => simp at hi
  | cons j rest ih =>
    rw [List.foldl_cons]
    cases hj : j.Enabled with
    | some b1 =>
      have h0 : enabledCount rest = 0 := by
        simpa [enabledCount, List.countP_cons, hj] using h
      rw [foldl_tally_e_of_zero _ _ h0]
      rcases List.mem_cons.mp hi with rfl | hmem
      · rw [hb] at hj
        cases hj
        simp [tally, hb]
      · exfalso
        have hpos : 0 < enabledCount rest :=
          List.countP_pos_iff.mpr ⟨i, hmem, by simp [hb]⟩
        omega
    | none =>
      have h1 : enabledCount rest = 1 := by
        simpa [enabledCount, List.countP_cons, hj] using h
      rcases List.mem_cons.mp hi with rfl | hmem
      · rw [hb] at hj
        cases hj
      · exact ih _ h1 hmem

theorem foldl_tally_pg_of_zero (p : patch) (c : patchCounters) (h : patchGroupCount p = 0) :
    (p.foldl tally c).pg = c.pg := by
  induction p generalizing c with
  | nil => simp
  | cons i rest ih =>
    cases hi : i.PatchGroup with
    | some b => simp [patchGroupCount, List.countP_cons, hi] at h
    | none =>
      have h0 : patchGroupCount rest = 0 := by
        simpa [patchGroupCount, List.countP_cons, hi] using h
      rw [List.foldl_cons, ih _ h0]
      simp [tally, hi]

theorem foldl_tally_pg_of_one (p : patch) (c : patchCounters) (h : patchGroupCount p = 1)
    (i : instruction) (hi : i ∈ p) (g : String) (hg : i.PatchGroup = some g) :
    (p.foldl tally c).pg = g := by
  induction p generalizing c with
  | nil => simp at hi
  | cons j rest ih =>
    rw [List.foldl_cons]
    cases hj : j.PatchGroup with
    | some g1 =>
      have h0 : patchGroupCount rest = 0 := by
        simpa [patchGroupCount, List.countP_cons, hj] using h
      rw [foldl_tally_pg_of_zero _ _ h0]
      rcases List.mem_cons.mp hi with rfl | hmem
      · rw [hg] at hj
        cases hj
        simp [tally, hg]
      · exfalso
        have hpos : 0 < patchGroupCount rest :=
          List.countP_pos_iff.mpr ⟨i, hmem, by simp [hg]⟩
        omega
    | none =>
      have h1 : patchGroupCount rest = 1 := by
        simpa [patchGroupCount, List.countP_cons, hj] using h
      rcases List.mem_cons.mp hi with rfl | hmem
      · rw [hg] at hj
        cases hj
      · exact ih _ h1 hmem

/-! ## Facts about the loops of `validate` -/

theorem scanInstructions_ok {n : String} {p : patch} {c c1 : patchCounters}
    (h : scanInstructions n p c = .ok c1) :
    (∀ i ∈ p, ic i = 1) ∧ c1 = p.foldl tally c := by
  induction p generalizing c with
  | nil =>
    simp only [scanInstructions, Except.ok.injEq] at h
    simp [h]
  | cons i rest ih =>
    unfold scanInstructions at h
    split at h
    · cases h
    · split at h
      · cases h
      · have hi : ic i = 1 := by omega
        obtain ⟨h1, h2⟩ := ih h
        refine ⟨?_, by simpa using h2⟩
        intro j hj
        rcases List.mem_cons.mp hj with rfl | hmem
        · exact hi
        · exact h1 j hmem

theorem scanInstructions_of_all (n : String) (p : patch) (c : patchCounters)
    (h : ∀ i ∈ p, ic i = 1) : scanInstructions n p c = .ok (p.foldl tally c) := by
  induction p generalizing c with
  | nil => rfl
  | cons i rest ih =>
    have hi : ic i = 1 := h i (List.mem_cons_self _ _)
    unfold scanInstructions
    simp only [hi, Nat.lt_irrefl, if_false, List.foldl_cons]
    exact ih _ (fun j hj => h j (List.mem_cons_of_mem _ hj))

theorem recordGroup_ok {c : patchCounters} {g g1 : List String}
    (h : recordGroup c g = .ok g1) :
    (∀ x ∈ g, x ∈ g1) ∧ (c.pg ≠ "" → c.e = true → c.pg ∉ g ∧ c.pg ∈ g1) := by
  unfold recordGroup at h
  split at h
  · split at h
    · cases h
    · rename_i hin
      cases h
      exact ⟨fun x hx => List.mem_cons_of_mem _ hx, fun _ _ => ⟨hin, List.mem_cons_self _ _⟩⟩
  · rename_i hcond
    cases h
    exact ⟨fun x hx => hx, fun h1 h2 => absurd ⟨h1, h2⟩ hcond⟩

theorem checkCounters_ok {n : String} {c : patchCounters} {g g1 : List String}
    (h : checkCounters n c g = .ok g1) :
    c.ec = 1 ∧ c.dc ≤ 1 ∧ c.pgc ≤ 1 ∧ recordGroup c g = .ok g1
      ∧ ¬(c.roc = 0 ∧ c.rbc > 0 ∧ c.fbsc > 0) := by
  unfold checkCounters at h
  split at h
  · cases h
  · split at h
    · cases h
    · split at h
      · cases h
      · split at h
        · cases h
        · split at h
          · cases h
          · rename_i hrec
            split at h
            · cases h
            · rename_i hroc
              cases h
              exact ⟨by omega, by omega, by omega, hrec, hroc⟩

/-- What the checks of `validate` establish about one patch it lets through. -/
theorem patch_checked {n : String} {p : patch} {c : patchCounters} {g g1 : List String}
    (hs : scanInstructions n p {} = .ok c) (hc : checkCounters n c g = .ok g1) :
    (∀ i ∈ p, ic i = 1) ∧ enabledCount p = 1 ∧ descriptionCount p ≤ 1
      ∧ patchGroupCount p ≤ 1 ∧ ¬bytesByStringOnly p ∧ (∀ x ∈ g, x ∈ g1)
      ∧ (∀ gn, hasEnabledTrue p → hasPatchGroup gn p → gn ≠ "" → gn ∉ g ∧ gn ∈ g1) := by
  obtain ⟨hall, hfold⟩ := scanInstructions_ok hs
  obtain ⟨hec, hdc, hpgc, hrec, hroc⟩ := checkCounters_ok hc
  obtain ⟨hsub, hgrp⟩ := recordGroup_ok hrec
  have e1 : c.ec = enabledCount p := by rw [hfold, foldl_tally_ec]; simp
  have e2 : c.dc = descriptionCount p := by rw [hfold, foldl_tally_dc]; simp
  have e3 : c.pgc = patchGroupCount p := by rw [hfold, foldl_tally_pgc]; simp
  refine ⟨hall, by omega, by omega, by omega, ?_, hsub, ?_⟩
  · rintro ⟨⟨i, hi, hrb⟩, ⟨j, hj, hfb⟩, hno⟩
    apply hroc
    have r1 : c.roc = 0 := by rw [hfold, foldl_tally_roc _ _ hno]
    have r2 : 0 < p.countP (fun i => i.ReplaceBytes.isSome) :=
      List.countP_pos_iff.mpr ⟨i, hi, hrb⟩
    have r3 : 0 < p.countP (fun i => i.FindBaseAddressString.isSome) :=
      List.countP_pos_iff.mpr ⟨j, hj, hfb⟩
    refine ⟨r1, ?_, ?_⟩
    · rw [hfold, foldl_tally_rbc]; simp only [gt_iff_lt]; omega
    · rw [hfold, foldl_tally_fbsc]; simp only [gt_iff_lt]; omega
  · rintro gn ⟨i, hi, hen⟩ ⟨j, hj, hpg⟩ hne
    have he : c.e = true := by
      rw [hfold]; exact foldl_tally_e_of_one p _ (by omega) i hi true hen
    have hpos : 0 < patchGroupCount p := List.countP_pos_iff.mpr ⟨j, hj, by simp [hpg]⟩
    have hg : c.pg = gn := by
      rw [hfold]; exact foldl_tally_pg_of_one p _ (by omega) j hj gn hpg
    rw [← hg]
    exact hgrp (by rw [hg]; exact hne) he

/-- Every patch of a specification that the loop of `validate` lets through passed
its checks. -/
theorem validateLoop_none_mem {pf : patchFile} {g : List String}
    (h : validateLoop pf g = none) :
    ∀ np ∈ pf, (∀ i ∈ np.2, ic i = 1) ∧ enabledCount np.2 = 1 ∧ descriptionCount np.2 ≤ 1
      ∧ patchGroupCount np.2 ≤ 1 ∧ ¬bytesByStringOnly np.2 := by
  induction pf generalizing g with
  | nil => intro np hnp; simp at hnp
  | cons x rest ih =>
    obtain ⟨n, p⟩ := x
    unfold validateLoop at h
    split at h
    · cases h
    · rename_i c hs
      split at h
      · cases h
      · rename_i g1 hc
        obtain ⟨h1, h2, h3, h4, h5, _, _⟩ := patch_checked hs hc
        intro np hnp
        rcases List.mem_cons.mp hnp with rfl | hmem
        · exact ⟨h1, h2, h3, h4, h5⟩
        · exact ih h np hmem

/-- A later enabled patch whose group name is already recorded is refused. -/
theorem validateLoop_group_recorded {pf : patchFile} {g : List String} {np : String × patch}
    {gn : String} (hnp : np ∈ pf) (hen : hasEnabledTrue np.2) (hpg : hasPatchGroup gn np.2)
    (hne : gn ≠ "") (hg : gn ∈ g) : validateLoop pf g ≠ none := by
  induction pf generalizing g with
  | nil => simp at hnp
  | cons x rest ih =>
    obtain ⟨n, p⟩ := x
    intro h
    unfold validateLoop at h
    split at h
    · cases h
    · rename_i c hs
      split at h
      · cases h
      · rename_i g1 hc
        obtain ⟨_, _, _, _, _, hsub, hgrp⟩ := patch_checked hs hc
        rcases List.mem_cons.mp hnp with rfl | hmem
        · exact (hgrp gn hen hpg hne).1 hg
        · exact ih hmem (hsub gn hg) h

/-- Two enabled patches at positions `i < j` naming the same non-empty group make
the loop of `validate` return an error. -/
theorem validateLoop_same_group {pf : patchFile} {g : List String} {i j : Nat}
    {np1 np2 : String × patch} {gn : String} (hij : i < j)
    (h1 : pf[i]? = some np1) (h2 : pf[j]? = some np2)
    (hen1 : hasEnabledTrue np1.2) (hpg1 : hasPatchGroup gn np1.2)
    (hen2 : hasEnabledTrue np2.2) (hpg2 : hasPatchGroup gn np2.2)
    (hne : gn ≠ "") : validateLoop pf g ≠ none := by
  induction pf generalizing g i j with
  | nil => simp at h1
  | cons x rest ih =>
    obtain ⟨n, p⟩ := x
    intro h
    unfold validateLoop at h
    split at h
    · cases h
    · rename_i c hs
      split at h
      · cases h
      · rename_i g1 hc
        obtain ⟨_, _, _, _, _, hsub, hgrp⟩ := patch_checked hs hc
        obtain ⟨j1, rfl⟩ : ∃ j1, j = j1 + 1 := ⟨j - 1, by omega⟩
        simp only [List.getElem?_cons_succ] at h2
        cases i with
        | zero =>
          simp only [List.getElem?_cons_zero, Option.some.injEq] at h1
          subst h1
          have hmem : np2 ∈ rest := List.getElem?_mem h2
          exact validateLoop_group_recorded hmem hen2 hpg2 hne (hgrp gn hen1 hpg1 hne).2 h
        | succ i1 =>
          simp only [List.getElem?_cons_succ] at h1
          exact ih (by omega) h1 h2 h

/-! ## The rules of `validate` -/

/-- C1, counterexample: two enabled patches that both name the group `""` form a
specification that `validate` accepts. -/
theorem validate_accepts_shared_empty_group :
    (sameGroupSpec "")[0]? = some ("first", enabledInGroup "")
      ∧ (sameGroupSpec "")[1]? = some ("second", enabledInGroup "")
      ∧ hasEnabledTrue (enabledInGroup "") ∧ hasPatchGroup "" (enabledInGroup "")
      ∧ validate (sameGroupSpec "") = none := by
  decide

/-- C1, amended: a specification in which two patches at distinct positions both
have an `Enabled: true` instruction and a `PatchGroup` instruction with the same
non-empty group name is rejected by `validate`. -/
theorem validate_rejects_shared_group (pf : patchFile) (i j : Nat)
    (np1 np2 : String × patch) (gn : String) (hij : i ≠ j)
    (h1 : pf[i]? = some np1) (h2 : pf[j]? = some np2)
    (hen1 : hasEnabledTrue np1.2) (hpg1 : hasPatchGroup gn np1.2)
    (hen2 : hasEnabledTrue np2.2) (hpg2 : hasPatchGroup gn np2.2)
    (hne : gn ≠ "") : (validate pf).isSome = true := by
  have hno : validate pf ≠ none := by
    rcases Nat.lt_or_gt_of_ne hij with hlt | hgt
    · exact validateLoop_same_group hlt h1 h2 hen1 hpg1 hen2 hpg2 hne
    · exact validateLoop_same_group hgt h2 h1 hen2 hpg2 hen1 hpg1 hne
  cases hv : validate pf with
  | none => exact absurd hv hno
  | some err => rfl

/-- C1, witness: the two patches of `sameGroupSpec "night"`. -/
theorem validate_rejects_shared_group_witness :
    (validate (sameGroupSpec "night")).isSome = true :=
  validate_rejects_shared_group (sameGroupSpec "night") 0 1
    ("first", enabledInGroup "night") ("second", enabledInGroup "night") "night"
    (by decide) rfl rfl (by decide) (by decide) (by decide) (by decide) (by decide)

/-- C2: a specification with a patch whose number of `Enabled` instructions is not
one is rejected by `validate`, and every patch of an accepted specification has
exactly one `Enabled` instruction. -/
theorem validate_one_enabled (pf : patchFile) :
    ((∃ np ∈ pf, enabledCount np.2 ≠ 1) → (validate pf).isSome = true)
      ∧ (validate pf = none → ∀ np ∈ pf, enabledCount np.2 = 1) := by
  have key : validate pf = none → ∀ np ∈ pf, enabledCount np.2 = 1 :=
    fun h np hnp => (validateLoop_none_mem h np hnp).2.1
  refine ⟨?_, key⟩
  rintro ⟨np, hnp, hne⟩
  cases hv : validate pf with
  | none => exact absurd (key hv np hnp) hne
  | some err => rfl

/-- C2, witness: a patch without `Enabled` is rejected, the patch of `simpleSpec`
has one. -/
theorem validate_one_enabled_witness :
    (validate noEnabledSpec).isSome = true
      ∧ enabledCount [{ Enabled := some true }, { BaseAddress := some 0 }] = 1 :=
  ⟨(validate_one_enabled noEnabledSpec).1 (by decide),
    (validate_one_enabled simpleSpec).2 (by decide)
      ("only", [{ Enabled := some true }, { BaseAddress := some 0 }]) (by decide)⟩

/-- C3: a specification with an instruction whose number of populated variants is
not one (zero, or two and more) is rejected by `validate`, and every instruction of
an accepted specification has exactly one populated variant. -/
theorem validate_one_variant (pf : patchFile) :
    ((∃ np ∈ pf, ∃ i ∈ np.2, populatedCount i ≠ 1) → (validate pf).isSome = true)
      ∧ (validate pf = none → ∀ np ∈ pf, ∀ i ∈ np.2, populatedCount i = 1) := by
  have key : validate pf = none → ∀ np ∈ pf, ∀ i ∈ np.2, populatedCount i = 1 := by
    intro h np hnp i hi
    rw [← ic_eq_populatedCount]
    exact (validateLoop_none_mem h np hnp).1 i hi
  refine ⟨?_, key⟩
  rintro ⟨np, hnp, i, hi, hne⟩
  cases hv : validate pf with
  | none => exact absurd (key hv np hnp i hi) hne
  | some err => rfl

/-- C3, witness: an instruction without any variant is rejected, the `BaseAddress`
instruction of `simpleSpec` has one variant. -/
theorem validate_one_variant_witness :
    (validate emptyInstructionSpec).isSome = true
      ∧ populatedCount { BaseAddress := some 0 } = 1 :=
  ⟨(validate_one_variant emptyInstructionSpec).1 (by decide),
    (validate_one_variant simpleSpec).2 (by decide)
      ("only", [{ Enabled := some true }, { BaseAddress := some 0 }]) (by decide)
      { BaseAddress := some 0 } (by decide)⟩

/-- C4: a specification with a patch, enabled or not, that has a `ReplaceBytes` and
a `FindBaseAddressString` instruction and no `ReplaceString`, `ReplaceInt`,
`ReplaceFloat` or `FindReplaceString` instruction is rejected by `validate`. -/
theorem validate_rejects_bytes_by_string (pf : patchFile) (np : String × patch)
    (hnp : np ∈ pf) (hp : bytesByStringOnly np.2) : (validate pf).isSome = true := by
  cases hv : validate pf with
  | none => exact absurd hp (validateLoop_none_mem hv np hnp).2.2.2.2
  | some err => rfl

/-- C4, witness: the disabled patch of `bytesByStringSpec`. -/
theorem validate_rejects_bytes_by_string_witness :
    (validate bytesByStringSpec).isSome = true :=
  validate_rejects_bytes_by_string bytesByStringSpec
    ("only", [{ Enabled := some false }, { FindBaseAddressString := some "x" },
      { ReplaceBytes := some ⟨0, none, none, [1], [2]⟩ }]) (by decide) (by decide)

/-- C5: a specification with a patch that has more than one `Description` or more
than one `PatchGroup` instruction is rejected by `validate`, and every patch of an
accepted specification has at most one of each. -/
theorem validate_description_group_once (pf : patchFile) :
    ((∃ np ∈ pf, 1 < descriptionCount np.2 ∨ 1 < patchGroupCount np.2)
        → (validate pf).isSome = true)
      ∧ (validate pf = none →
          ∀ np ∈ pf, descriptionCount np.2 ≤ 1 ∧ patchGroupCount np.2 ≤ 1) := by
  have key : validate pf = none →
      ∀ np ∈ pf, descriptionCount np.2 ≤ 1 ∧ patchGroupCount np.2 ≤ 1 := by
    intro h np hnp
    obtain ⟨_, _, h3, h4, _⟩ := validateLoop_none_mem h np hnp
    exact ⟨h3, h4⟩
  refine ⟨?_, key⟩
  rintro ⟨np, hnp, hgt⟩
  cases hv : validate pf with
  | none =>
    have := key hv np hnp
    omega
  | some err => rfl

/-- C5, witness: two `Description` instructions are rejected, the patch of
`simpleSpec` has no `Description` and no `PatchGroup`. -/
theorem validate_description_group_once_witness :
    (validate twoDescriptionsSpec).isSome = true
      ∧ descriptionCount [{ Enabled := some true }, { BaseAddress := some 0 }] ≤ 1
      ∧ patchGroupCount [{ Enabled := some true }, { BaseAddress := some 0 }] ≤ 1 :=
  ⟨(validate_description_group_once twoDescriptionsSpec).1 (by decide),
    (validate_description_group_once simpleSpec).2 (by decide)
      ("only", [{ Enabled := some true }, { BaseAddress := some 0 }]) (by decide)⟩

/-! ## Hex shorthand -/

theorem hexDigit_digitChar (upper : Bool) (n : Nat) (h : n < 16) :
    hexDigit (digitChar upper n) = some n := by
  interval_cases n <;> cases upper <;> decide

theorem isSpace_digitChar (upper : Bool) (n : Nat) (h : n < 16) :
    isSpace (digitChar upper n) = false ∧ digitChar upper n ≠ '\n' := by
  interval_cases n <;> cases upper <;> decide

set_option maxRecDepth 100000 in
theorem byte_of_digits :
    ∀ x : Fin 256, (((x.val / 16) <<< 4) ||| (x.val % 16)) % 256 = x.val := by
  decide

theorem hexBytes_encodeHex (upper : Bool) (b : List Nat) (acc : List Nat)
    (hb : ∀ x ∈ b, x < 256) : hexBytes (encodeHex upper b) acc = .ok (acc ++ b, []) := by
  induction b generalizing acc with
  | nil => simp [encodeHex, hexBytes]
  | cons x rest ih =>
    have hx : x < 256 := hb x (List.mem_cons_self _ _)
    have h1 : hexDigit (digitChar upper (x / 16)) = some (x / 16) :=
      hexDigit_digitChar upper _ (by omega)
    have h2 : hexDigit (digitChar upper (x % 16)) = some (x % 16) :=
      hexDigit_digitChar upper _ (by omega)
    have h3 : (((x / 16) <<< 4) ||| (x % 16)) % 256 = x := byte_of_digits ⟨x, hx⟩
    simp only [encodeHex, hexBytes, h1, h2, h3]
    rw [ih _ (fun y hy => hb y (List.mem_cons_of_mem _ hy))]
    simp

theorem sscanfHex_encodeHex (upper : Bool) (b : List Nat) (hne : b ≠ [])
    (hb : ∀ x ∈ b, x < 256) : sscanfHex (encodeHex upper b) = .ok b := by
  cases b with
  | nil => exact absurd rfl hne
  | cons x rest =>
    have hx : x < 256 := hb x (List.mem_cons_self _ _)
    obtain ⟨hs, hn⟩ := isSpace_digitChar upper (x / 16) (by omega)
    have hbytes := hexBytes_encodeHex upper (x :: rest) [] hb
    have hskip : SkipSpace (encodeHex upper (x :: rest)) = .ok (encodeHex upper (x :: rest)) := by
      simp [encodeHex, SkipSpace, hs, hn]
    unfold sscanfHex
    rw [hskip]
    simp only [hexString]
    rw [hbytes]
    simp [encodeHex, matchNewline]

theorem SkipSpace_no_newline (l : List Char) (hl : ∀ x ∈ l, x ≠ '\n') :
    ∃ l1, SkipSpace l = .ok l1 ∧ (∀ x ∈ l, isSpace x = false → x ∈ l1)
      ∧ (∀ x ∈ l1, x ∈ l) := by
  induction l with
  | nil => exact ⟨[], rfl, fun x hx => by simp at hx, fun x hx => hx⟩
  | cons r rest ih =>
    have hr : r ≠ '\n' := hl r (List.mem_cons_self _ _)
    obtain ⟨l1, h1, h2, h3⟩ := ih (fun x hx => hl x (List.mem_cons_of_mem _ hx))
    by_cases hsp : isSpace r = true
    · refine ⟨l1, by simp [SkipSpace, hr, hsp, h1], ?_, fun x hx => List.mem_cons_of_mem _ (h3 x hx)⟩
      intro x hx hxs
      rcases List.mem_cons.mp hx with rfl | hmem
      · rw [hsp] at hxs
        cases hxs
      · exact h2 x hmem hxs
    · exact ⟨r :: rest, by simp [SkipSpace, hr, hsp], fun x hx _ => hx, fun x hx => hx⟩

theorem hexBytes_rest (l : List Char) (acc buf : List Nat) (rest : List Char)
    (h : hexBytes l acc = .ok (buf, rest)) :
    (∀ x ∈ l, hexDigit x = none → x ∈ rest) ∧ (∀ x ∈ rest, x ∈ l) := by
  induction l, acc using hexBytes.induct generalizing buf rest with
  | case1 acc =>
    simp only [hexBytes, Except.ok.injEq, Prod.mk.injEq] at h
    obtain ⟨_, rfl⟩ := h
    exact ⟨fun x hx => by simp at hx, fun x hx => hx⟩
  | case2 rune1 acc hd =>
    simp only [hexBytes, hd, Except.ok.injEq, Prod.mk.injEq] at h
    obtain ⟨_, rfl⟩ := h
    exact ⟨fun x hx _ => hx, fun x hx => hx⟩
  | case3 rune1 acc v hd =>
    simp [hexBytes, hd] at h
  | case4 rune1 rune2 rest1 acc hd =>
    simp only [hexBytes, hd, Except.ok.injEq, Prod.mk.injEq] at h
    obtain ⟨_, rfl⟩ := h
    exact ⟨fun x hx _ => hx, fun x hx => hx⟩
  | case5 rune1 rune2 rest1 acc v1 hd1 hd2 =>
    simp [hexBytes, hd1, hd2] at h
  | case6 rune1 rune2 rest1 acc v1 hd1 v2 hd2 ih =>
    simp only [hexBytes, hd1, hd2] at h
    obtain ⟨h1, h2⟩ := ih _ _ h
    refine ⟨?_, fun x hx => List.mem_cons_of_mem _ (List.mem_cons_of_mem _ (h2 x hx))⟩
    intro x hx hnone
    rcases List.mem_cons.mp hx with rfl | hmem
    · rw [hd1] at hnone
      cases hnone
    · rcases List.mem_cons.mp hmem with rfl | hmem2
      · rw [hd2] at hnone
        cases hnone
      · exact h1 x hmem2 hnone

theorem matchNewline_mismatch (l : List Char) (hl : ∀ x ∈ l, x ≠ '\n')
    (hc : ∃ c ∈ l, isSpace c = false) : matchNewline l = .error .newlineMismatch := by
  induction l with
  | nil =>
    obtain ⟨c, hc, _⟩ := hc
    simp at hc
  | cons r rest ih =>
    have hr : r ≠ '\n' := hl r (List.mem_cons_self _ _)
    by_cases hsp : isSpace r = true
    · obtain ⟨c, hc, hcs⟩ := hc
      have hrest : ∃ c ∈ rest, isSpace c = false := by
        rcases List.mem_cons.mp hc with rfl | hmem
        · rw [hsp] at hcs
          cases hcs
        · exact ⟨c, hmem, hcs⟩
      simp only [matchNewline, hr, if_false, hsp, if_true]
      exact ih (fun x hx => hl x (List.mem_cons_of_mem _ hx)) hrest
    · simp [matchNewline, hr, hsp]

/-- A string without newline that has a character which is neither a hex digit nor
a space of the scanner does not decode. -/
theorem decodeHex_fails (hex : String) (hnl : ∀ x ∈ hex.toList, x ≠ '\n')
    (c : Char) (hc : c ∈ hex.toList) (hd : hexDigit c = none) (hs : isSpace c = false) :
    ∃ err, decodeHex hex = .error err := by
  have hcs : c ∈ stripSpaces hex := by
    simp only [stripSpaces, List.mem_filter]
    refine ⟨hc, ?_⟩
    have : c ≠ ' ' := by
      rintro rfl
      revert hs
      decide
    simpa using this
  have hnl1 : ∀ x ∈ stripSpaces hex, x ≠ '\n' :=
    fun x hx => hnl x (List.mem_of_mem_filter hx)
  obtain ⟨l1, h1, h2, h3⟩ := SkipSpace_no_newline _ hnl1
  simp only [decodeHex, sscanfHex, h1]
  cases hh : hexString l1 with
  | error err => exact ⟨err, rfl⟩
  | ok res =>
    obtain ⟨buf, rest⟩ := res
    have hb : hexBytes l1 [] = .ok (buf, rest) := by
      unfold hexString at hh
      split at hh
      · cases hh
      · split at hh
        · cases hh
        · rename_i b r hk
          split at hh
          · cases hh
          · cases hh
            exact hk
    obtain ⟨r1, r2⟩ := hexBytes_rest _ _ _ _ hb
    have hm := matchNewline_mismatch rest (fun x hx => hnl1 x (h3 x (r2 x hx)))
      ⟨c, r1 c (h2 c hcs hs) hd, hs⟩
    exact ⟨.newlineMismatch, by simp [hm]⟩

theorem not_decodes_iff (hex : String) : ¬Decodes hex ↔ ∃ err, decodeHex hex = .error err := by
  unfold Decodes
  cases decodeHex hex with
  | error err => simp
  | ok b => simp

theorem expandFindH_cases (r : ReplaceBytesArgs) :
    match expandFindH r with
    | .ok r1 => r1.ReplaceH = r.ReplaceH ∧ ∀ h ∈ r.FindH.toList, Decodes h
    | .error e => ∃ h ∈ r.FindH.toList, e = .expandingShorthandHex h ∧ ¬Decodes h := by
  unfold expandFindH
  cases hf : r.FindH with
  | none => simp
  | some hex =>
    cases hd : decodeHex hex with
    | error err => simp [not_decodes_iff, hd]
    | ok b => simp [Decodes, hd]

theorem expandReplaceH_cases (r : ReplaceBytesArgs) :
    match expandReplaceH r with
    | .ok _ => ∀ h ∈ r.ReplaceH.toList, Decodes h
    | .error e => ∃ h ∈ r.ReplaceH.toList, e = .expandingShorthandHex h ∧ ¬Decodes h := by
  unfold expandReplaceH
  cases hf : r.ReplaceH with
  | none => simp
  | some hex =>
    cases hd : decodeHex hex with
    | error err => simp [not_decodes_iff, hd]
    | ok b => simp [Decodes, hd]

theorem expandInstruction_cases (i : instruction) :
    match expandInstruction i with
    | .ok _ => ∀ h ∈ instructionShorthand i, Decodes h
    | .error e => ∃ h ∈ instructionShorthand i, e = .expandingShorthandHex h ∧ ¬Decodes h := by
  unfold expandInstruction instructionShorthand
  cases hr : i.ReplaceBytes with
  | none => simp
  | some r =>
    dsimp only
    have h1 := expandFindH_cases r
    cases hf : expandFindH r with
    | error e =>
      dsimp only
      simp only [hf] at h1
      obtain ⟨h, hmem, he, hnd⟩ := h1
      exact ⟨h, List.mem_append_left _ hmem, he, hnd⟩
    | ok r1 =>
      dsimp only
      simp only [hf] at h1
      obtain ⟨hsame, hdec⟩ := h1
      have h2 := expandReplaceH_cases r1
      cases hg : expandReplaceH r1 with
      | error e =>
        dsimp only
        simp only [hg] at h2
        obtain ⟨h, hmem, he, hnd⟩ := h2
        exact ⟨h, List.mem_append_right _ (hsame ▸ hmem), he, hnd⟩
      | ok r2 =>
        dsimp only
        simp only [hg] at h2
        intro h hmem
        rcases List.mem_append.mp hmem with hm | hm
        · exact hdec h hm
        · exact h2 h (hsame ▸ hm)

theorem expandPatch_cases (p : patch) :
    match expandPatch p with
    | .ok _ => ∀ h ∈ p.flatMap instructionShorthand, Decodes h
    | .error e =>
      ∃ h ∈ p.flatMap instructionShorthand, e = .expandingShorthandHex h ∧ ¬Decodes h := by
  induction p with
  | nil => simp [expandPatch]
  | cons i rest ih =>
    unfold expandPatch
    have h1 := expandInstruction_cases i
    cases hi : expandInstruction i with
    | error e =>
      dsimp only
      simp only [hi] at h1
      obtain ⟨h, hmem, he, hnd⟩ := h1
      exact ⟨h, by simp [List.flatMap_cons, hmem], he, hnd⟩
    | ok i1 =>
      dsimp only
      simp only [hi] at h1
      cases hr : expandPatch rest with
      | error e =>
        dsimp only
        simp only [hr] at ih
        obtain ⟨h, hmem, he, hnd⟩ := ih
        exact ⟨h, by simp only [List.flatMap_cons, List.mem_append]; exact Or.inr hmem, he, hnd⟩
      | ok rest1 =>
        dsimp only
        simp only [hr] at ih
        intro h hmem
        simp only [List.flatMap_cons, List.mem_append] at hmem
        rcases hmem with hm | hm
        · exact h1 h hm
        · exact ih h hm

theorem expandPatchFile_cases (pf : patchFile) :
    match expandPatchFile pf with
    | .ok _ => ∀ h ∈ shorthand pf, Decodes h
    | .error e => ∃ h ∈ shorthand pf, e = .expandingShorthandHex h ∧ ¬Decodes h := by
  induction pf with
  | nil => simp [expandPatchFile, shorthand]
  | cons x rest ih =>
    obtain ⟨n, p⟩ := x
    unfold expandPatchFile
    have h1 := expandPatch_cases p
    cases hi : expandPatch p with
    | error e =>
      dsimp only
      simp only [hi] at h1
      obtain ⟨h, hmem, he, hnd⟩ := h1
      exact ⟨h, by simp only [shorthand, List.flatMap_cons, List.mem_append]; exact Or.inl hmem,
        he, hnd⟩
    | ok p1 =>
      dsimp only
      simp only [hi] at h1
      cases hr : expandPatchFile rest with
      | error e =>
        dsimp only
        simp only [hr] at ih
        obtain ⟨h, hmem, he, hnd⟩ := ih
        exact ⟨h, by
          simp only [shorthand, List.flatMap_cons, List.mem_append]; exact Or.inr hmem, he, hnd⟩
      | ok rest1 =>
        dsimp only
        simp only [hr] at ih
        intro h hmem
        simp only [shorthand, List.flatMap_cons, List.mem_append] at hmem
        rcases hmem with hm | hm
        · exact h1 h hm
        · exact ih h hm

/-- C6, counterexample: a tab between the encodings of two bytes is whitespace
that is not stripped, and the string does not expand (the load fails); and a string
with the non-hexadecimal characters `zz` after a newline loads, as the byte `DE`. -/
theorem hex_shorthand_tab_and_newline :
    isSpace '\t' = true
      ∧ "DE\tAD".toList = encodeHex true [0xDE] ++ ['\t'] ++ encodeHex true [0xAD]
      ∧ decodeHex "DE\tAD" = .error .newlineMismatch
      ∧ newPatchFile id (findHSpec "DE\tAD") = .error (.expandingShorthandHex "DE\tAD")
      ∧ hexDigit 'z' = none ∧ isSpace 'z' = false
      ∧ newPatchFile id (findHSpec "DE\nzz")
        = .ok [("only", [{ Enabled := some true },
            { ReplaceBytes := some ⟨0, some "DE\nzz", none, [0xDE], [1]⟩ }])] := by
  decide

/-- C6, amended: hex shorthand expansion strips the space character U+0020 and
decodes the rest as hexadecimal. For every non-empty byte sequence `b`, a string
that is the two-digit hex encodings of the bytes of `b` (upper or lower case) with
spaces U+0020 inserted anywhere expands to exactly `b`, as `FindH` and as
`ReplaceH`. And when a shorthand string of the file has no newline and has a
character that is neither a hexadecimal digit nor whitespace, the whole load fails
with the error that names a shorthand string of the file that does not decode. -/
theorem hex_shorthand_expansion :
    (∀ (upper : Bool) (b : List Nat) (hex : String) (r : ReplaceBytesArgs),
        b ≠ [] → (∀ x ∈ b, x < 256) →
        hex.toList.filter (fun c => c ≠ ' ') = encodeHex upper b →
        decodeHex hex = .ok b
          ∧ (r.FindH = some hex → expandFindH r = .ok { r with Find := b })
          ∧ (r.ReplaceH = some hex → expandReplaceH r = .ok { r with Replace := b }))
    ∧ (∀ (order : patchFile → patchFile) (parsed : patchFile) (hex : String) (c : Char),
        hex ∈ shorthand parsed → (∀ x ∈ hex.toList, x ≠ '\n') → c ∈ hex.toList →
        hexDigit c = none → isSpace c = false →
        ∃ h ∈ shorthand parsed, (∃ err, decodeHex h = .error err)
          ∧ newPatchFile order parsed = .error (.expandingShorthandHex h)) := by
  constructor
  · intro upper b hex r hne hb henc
    have hd : decodeHex hex = .ok b := by
      have hs : stripSpaces hex = encodeHex upper b := by
        rw [← henc]
        unfold stripSpaces
        apply List.filter_congr
        intro c _
        by_cases h : c = ' ' <;> simp [h]
      rw [decodeHex, hs]
      exact sscanfHex_encodeHex upper b hne hb
    refine ⟨hd, ?_, ?_⟩
    · intro hf
      simp [expandFindH, hf, hd]
    · intro hf
      simp [expandReplaceH, hf, hd]
  · intro order parsed hex c hmem hnl hc hdig hsp
    have hbad : ¬Decodes hex := (not_decodes_iff hex).mpr (decodeHex_fails hex hnl c hc hdig hsp)
    have hcases := expandPatchFile_cases parsed
    cases he : expandPatchFile parsed with
    | ok pf =>
      rw [he] at hcases
      exact absurd (hcases hex hmem) hbad
    | error e =>
      rw [he] at hcases
      obtain ⟨h, hm, rfl, hnd⟩ := hcases
      exact ⟨h, hm, (not_decodes_iff h).mp hnd, by simp [newPatchFile, he]⟩

/-- C6, witness: `"DE AD BE EF"` expands to the four bytes DE, AD, BE, EF and a file
whose `FindH` is `"zz"` fails to load with the error that names `"zz"`. -/
theorem hex_shorthand_expansion_witness :
    decodeHex "DE AD BE EF" = .ok [0xDE, 0xAD, 0xBE, 0xEF]
      ∧ newPatchFile id (findHSpec "zz") = .error (.expandingShorthandHex "zz") := by
  refine ⟨(hex_shorthand_expansion.1 true [0xDE, 0xAD, 0xBE, 0xEF] "DE AD BE EF"
    ⟨0, none, none, [], []⟩ (by decide) (by decide) (by decide)).1, ?_⟩
  obtain ⟨h, hmem, _, hres⟩ := hex_shorthand_expansion.2 id (findHSpec "zz") "zz" 'z'
    (by decide) (by decide) (by decide) (by decide) (by decide)
  have hz : h = "zz" := by
    simpa [shorthand, findHSpec, instructionShorthand] using hmem
  rw [hz] at hres
  exact hres

/-! ## The calls `ApplyTo` makes -/

theorem Shape.nil (e : Option Err) : Shape [] e :=
  ⟨[], fun ev hev => by simp at hev, Or.inl rfl⟩

theorem Shape.append {new1 new2 : List Event} {e : Option Err}
    (h1 : Shape new1 none) (h2 : Shape new2 e) : Shape (new1 ++ new2) e := by
  obtain ⟨g1, c1, h1⟩ := h1
  obtain ⟨g2, c2, h2⟩ := h2
  have hn1 : new1 = g1 := by
    rcases h1 with h | ⟨bad, _, _, hsome⟩
    · exact h
    · simp at hsome
  subst hn1
  refine ⟨new1 ++ g2, ?_, ?_⟩
  · intro ev hev
    rcases List.mem_append.mp hev with h | h
    · exact c1 ev h
    · exact c2 ev h
  · rcases h2 with h | ⟨bad, hb, hn, hsome⟩
    · exact Or.inl (by rw [h])
    · exact Or.inr ⟨bad, hb, by rw [hn, List.append_assoc], hsome⟩

theorem Shape.clean_of_none {new : List Event} (h : Shape new none) : Clean new := by
  obtain ⟨g, c, h⟩ := h
  rcases h with h | ⟨bad, _, _, hsome⟩
  · rw [h]; exact c
  · simp at hsome

theorem Shape.last_of_failed {new : List Event} {e : Option Err} (h : Shape new e)
    (pre post : List Event) (ev : Event) (hnew : new = pre ++ ev :: post)
    (hf : ev.failed = true) : post = [] ∧ e.isSome = true := by
  obtain ⟨g, c, h⟩ := h
  rcases h with h | ⟨bad, _, hn, hsome⟩
  · have hmem : ev ∈ g := by rw [← h, hnew]; simp
    rw [c ev hmem] at hf
    cases hf
  · refine ⟨?_, hsome⟩
    cases post with
    | nil => rfl
    | cons x rest =>
      exfalso
      have hd := congrArg List.dropLast (hnew.symm.trans hn)
      have hmem : ev ∈ g := by
        have : ev ∈ (pre ++ ev :: x :: rest).dropLast := by
          rw [List.dropLast_append_of_ne_nil _ (by simp)]
          simp [List.dropLast]
        rw [hd] at this
        simpa using this
      rw [c ev hmem] at hf
      cases hf

theorem invoke_shape {σ : Type} (pt : Patcher σ) (num : Nat) (c : Call) (r : Run σ)
    (f : String → Err) :
    ∃ new, (invoke pt num c r).1.trace = r.trace ++ new
      ∧ Shape new ((invoke pt num c r).2.map f) ∧ ∀ ev ∈ new, ev.num = num ∧ ev.call = c := by
  refine ⟨[⟨num, c, (pt.perform c r.st).2.isSome⟩], rfl, ?_, by simp⟩
  cases h : (pt.perform c r.st).2 with
  | none =>
    refine ⟨[⟨num, c, false⟩], fun ev hev => by simp at hev; simp [hev], Or.inl ?_⟩
    simp
  | some msg =>
    refine ⟨[], fun ev hev => by simp at hev, Or.inr ⟨⟨num, c, true⟩, rfl, ?_, ?_⟩⟩
    · simp
    · simp [invoke, h]

theorem invoke_shape_of {σ : Type} (pt : Patcher σ) (num : Nat) (c : Call) (r : Run σ)
    (f : String → Err) (i : instruction) (hc : c ∈ callsOf i) :
    ∃ new, (invoke pt num c r).1.trace = r.trace ++ new
      ∧ Shape new ((invoke pt num c r).2.map f)
      ∧ ∀ ev ∈ new, ev.num = num ∧ ev.call ∈ callsOf i := by
  obtain ⟨new, t, sh, m⟩ := invoke_shape pt num c r f
  exact ⟨new, t, sh, fun ev hev => ⟨(m ev hev).1, (m ev hev).2 ▸ hc⟩⟩

theorem execInstruction_shape {σ : Type} (pt : Patcher σ) (num : Nat) (i : instruction)
    (r : Run σ) :
    ∃ new, (execInstruction pt num i r).1.trace = r.trace ++ new
      ∧ Shape new (execInstruction pt num i r).2
      ∧ ∀ ev ∈ new, ev.num = num ∧ ev.call ∈ callsOf i := by
  have stay : ∀ e : Option Err, ∃ new, r.trace = r.trace ++ new ∧ Shape new e
      ∧ ∀ ev ∈ new, ev.num = num ∧ ev.call ∈ callsOf i :=
    fun e => ⟨[], by simp, Shape.nil e, fun ev hev => by simp at hev⟩
  unfold execInstruction
  split
  · exact stay _
  · split
    · rename_i a ha
      exact invoke_shape_of pt num _ r Err.surface i (by simp [callsOf, ha])
    · split
      · rename_i hex hh
        split
        · exact stay _
        · rename_i buf hb
          exact invoke_shape_of pt num _ r Err.surface i (by simp [callsOf, hh, hb])
      · split
        · rename_i a ha
          exact invoke_shape_of pt num _ r Err.surface i (by simp [callsOf, ha])
        · split
          · rename_i a ha
            exact invoke_shape_of pt num _ r Err.surface i (by simp [callsOf, ha])
          · split
            · rename_i a ha
              exact invoke_shape_of pt num _ r Err.surface i (by simp [callsOf, ha])
            · split
              · rename_i a ha
                exact invoke_shape_of pt num _ r Err.surface i (by simp [callsOf, ha])
              · split
                · rename_i a ha
                  exact invoke_shape_of pt num _ r Err.surface i (by simp [callsOf, ha])
                · split
                  · rename_i a ha
                    obtain ⟨n1, t1, s1, m1⟩ :=
                      invoke_shape_of pt num (.FindBaseAddressString a.Find) r
                        Err.findReplaceString i (by simp [callsOf, ha])
                    dsimp only
                    cases hmsg : (invoke pt num (.FindBaseAddressString a.Find) r).2 with
                    | some msg =>
                      simp only [hmsg, Option.map_some'] at s1
                      exact ⟨n1, t1, s1, m1⟩
                    | none =>
                      simp only [hmsg, Option.map_none'] at s1
                      obtain ⟨n2, t2, s2, m2⟩ :=
                        invoke_shape_of pt num (.ReplaceString 0 a.Find a.Replace)
                          (invoke pt num (.FindBaseAddressString a.Find) r).1
                          Err.findReplaceString i (by simp [callsOf, ha])
                      refine ⟨n1 ++ n2, ?_, Shape.append s1 s2, ?_⟩
                      · rw [t2, t1, List.append_assoc]
                      · intro ev hev
                        rcases List.mem_append.mp hev with h | h
                        · exact m1 ev h
                        · exact m2 ev h
                  · exact stay _

theorem applyInstructions_shape {σ : Type} (pt : Patcher σ) (num : Nat) (p : patch)
    (r : Run σ) :
    ∃ new, (applyInstructions pt num p r).1.trace = r.trace ++ new
      ∧ Shape new (applyInstructions pt num p r).2
      ∧ ∀ ev ∈ new, ev.num = num ∧ ∃ i ∈ p, ev.call ∈ callsOf i := by
  induction p generalizing r with
  | nil => exact ⟨[], by simp [applyInstructions], Shape.nil _, fun ev hev => by simp at hev⟩
  | cons i rest ih =>
    obtain ⟨n1, t1, s1, m1⟩ := execInstruction_shape pt num i r
    have own : ∀ ev ∈ n1, ev.num = num ∧ ∃ j ∈ i :: rest, ev.call ∈ callsOf j :=
      fun ev hev => ⟨(m1 ev hev).1, i, List.mem_cons_self _ _, (m1 ev hev).2⟩
    unfold applyInstructions
    split
    · rename_i r1 err heq
      rw [heq] at t1 s1
      exact ⟨n1, t1, s1, own⟩
    · rename_i r1 heq
      rw [heq] at t1 s1
      obtain ⟨n2, t2, s2, m2⟩ := ih r1
      refine ⟨n1 ++ n2, ?_, Shape.append s1 s2, ?_⟩
      · rw [t2, t1, List.append_assoc]
      · intro ev hev
        rcases List.mem_append.mp hev with h | h
        · exact own ev h
        · obtain ⟨h1, j, hj, hc⟩ := m2 ev h
          exact ⟨h1, j, List.mem_cons_of_mem _ hj, hc⟩

theorem Origin.cons {x : String × patch} {rest : patchFile} {num : Nat} {ev : Event}
    (h : Origin rest (num + 1) ev) : Origin (x :: rest) num ev := by
  obtain ⟨k, np, h1, h2, h3⟩ := h
  refine ⟨k + 1, np, by simpa using h1, by omega, ?_⟩
  have e : num + 1 + k + 1 = num + (k + 1) + 1 := by omega
  rw [e] at h3
  exact h3

/-- The calls of the patch loop keep the shape and each has its origin in a patch
of the list. -/
theorem applyPatches_shape {σ : Type} (pt : Patcher σ) (pf : patchFile) (num : Nat)
    (r : Run σ) :
    ∃ new, (applyPatches pt pf num r).1.trace = r.trace ++ new
      ∧ Shape new (applyPatches pt pf num r).2 ∧ ∀ ev ∈ new, Origin pf num ev := by
  induction pf generalizing num r with
  | nil => exact ⟨[], by simp [applyPatches], Shape.nil _, fun ev hev => by simp at hev⟩
  | cons x rest ih =>
    obtain ⟨n, p⟩ := x
    have hreset : Shape [resetEvent (num + 1)] none :=
      ⟨[resetEvent (num + 1)], fun ev hev => by simp at hev; simp [hev, resetEvent],
        Or.inl rfl⟩
    have hr1 : (invoke pt (num + 1) .ResetBaseAddress r).1.trace
        = r.trace ++ [resetEvent (num + 1)] := rfl
    have oreset : Origin ((n, p) :: rest) num (resetEvent (num + 1)) :=
      ⟨0, (n, p), by simp, rfl, Or.inl rfl⟩
    unfold applyPatches
    simp only []
    split
    · rename_i hdis
      obtain ⟨n2, t2, s2, m2⟩ := ih (num + 1) (invoke pt (num + 1) .ResetBaseAddress r).1
      refine ⟨resetEvent (num + 1) :: n2, ?_, ?_, ?_⟩
      · rw [t2, hr1]; simp
      · exact Shape.append hreset s2
      · intro ev hev
        rcases List.mem_cons.mp hev with rfl | h
        · exact oreset
        · exact (m2 ev h).cons
    · rename_i hen
      have hen1 : patchEnabled p = true := by
        cases hp : patchEnabled p with
        | true => rfl
        | false => exact absurd hp hen
      obtain ⟨n1, t1, s1, m1⟩ :=
        applyInstructions_shape pt (num + 1) p (invoke pt (num + 1) .ResetBaseAddress r).1
      have own : ∀ ev ∈ n1, Origin ((n, p) :: rest) num ev := by
        intro ev hev
        exact ⟨0, (n, p), by simp, (m1 ev hev).1, Or.inr ⟨hen1, (m1 ev hev).2⟩⟩
      split
      · rename_i r2 err heq
        rw [heq] at t1 s1
        refine ⟨resetEvent (num + 1) :: n1, ?_, ?_, ?_⟩
        · rw [t1, hr1]; simp
        · exact Shape.append hreset s1
        · intro ev hev
          rcases List.mem_cons.mp hev with rfl | h
          · exact oreset
          · exact own ev h
      · rename_i r2 heq
        rw [heq] at t1 s1
        obtain ⟨n2, t2, s2, m2⟩ := ih (num + 1) r2
        refine ⟨resetEvent (num + 1) :: (n1 ++ n2), ?_, ?_, ?_⟩
        · rw [t2, t1, hr1]; simp
        · exact Shape.append hreset (Shape.append s1 s2)
        · intro ev hev
          rcases List.mem_cons.mp hev with rfl | h
          · exact oreset
          · rcases List.mem_append.mp h with h | h
            · exact own ev h
            · exact (m2 ev h).cons

theorem patchEnabled_iff (p : patch) : patchEnabled p = true ↔ hasEnabledTrue p := by
  induction p with
  | nil => simp [patchEnabled, hasEnabledTrue]
  | cons i rest ih =>
    unfold patchEnabled
    split
    · rename_i h
      simp only [true_iff]
      exact ⟨i, List.mem_cons_self _ _, h⟩
    · rename_i h
      rw [ih]
      constructor
      · rintro ⟨j, hj, hen⟩
        exact ⟨j, List.mem_cons_of_mem _ hj, hen⟩
      · rintro ⟨j, hj, hen⟩
        rcases List.mem_cons.mp hj with rfl | hmem
        · exact absurd hen (h)
        · exact ⟨j, hmem, hen⟩

/-- A patch with exactly one `Enabled` instruction, of value false, is not enabled. -/
theorem patchEnabled_false_of_one {p : patch} (hone : enabledCount p = 1)
    (hf : ∃ i ∈ p, i.Enabled = some false) : patchEnabled p = false := by
  cases h : patchEnabled p with
  | false => rfl
  | true =>
    obtain ⟨j, hj, hen⟩ := (patchEnabled_iff p).mp h
    obtain ⟨i, hi, hdis⟩ := hf
    have e1 := foldl_tally_e_of_one p {} hone i hi false hdis
    have e2 := foldl_tally_e_of_one p {} hone j hj true hen
    rw [e1] at e2
    cases e2

/-- When no patch is enabled the patch loop makes one `ResetBaseAddress` call for
each patch and returns nil. -/
theorem applyPatches_all_disabled {σ : Type} (pt : Patcher σ) (pf : patchFile) (num : Nat)
    (r : Run σ) (h : ∀ np ∈ pf, patchEnabled np.2 = false) :
    (applyPatches pt pf num r).2 = none
      ∧ (applyPatches pt pf num r).1.trace
        = r.trace ++ (List.range pf.length).map (fun k => resetEvent (num + k + 1)) := by
  induction pf generalizing num r with
  | nil => simp [applyPatches]
  | cons x rest ih =>
    obtain ⟨n, p⟩ := x
    have hp : patchEnabled p = false := h (n, p) (List.mem_cons_self _ _)
    obtain ⟨h1, h2⟩ := ih (num + 1) (invoke pt (num + 1) .ResetBaseAddress r).1
      (fun np hnp => h np (List.mem_cons_of_mem _ hnp))
    unfold applyPatches
    simp only [hp, if_true]
    refine ⟨h1, ?_⟩
    rw [h2]
    have hr1 : (invoke pt (num + 1) .ResetBaseAddress r).1.trace
        = r.trace ++ [resetEvent (num + 1)] := rfl
    rw [hr1, List.length_cons, List.range_succ_eq_map, List.map_cons, List.map_map,
      List.append_assoc]
    congr 1
    rw [List.singleton_append]
    congr 1
    apply List.map_congr_left
    intro k _
    simp only [Function.comp_apply]
    congr 1
    omega

/-! ## The claims about `ApplyTo` -/

/-- C7: when the validation that `ApplyTo` runs first returns an error, `ApplyTo`
returns that error as an invalid patch file error, makes no surface call and
leaves the surface state as it was. -/
theorem ApplyTo_revalidates {σ : Type} (pt : Patcher σ) (order : patchFile → patchFile)
    (pf : patchFile) (s : σ) (err : Err) (h : validate (order pf) = some err) :
    (ApplyTo pt order pf s).2 = some (.invalidPatchFile err)
      ∧ (ApplyTo pt order pf s).1.trace = [] ∧ (ApplyTo pt order pf s).1.st = s := by
  simp [ApplyTo, h]

/-- C7, witness: a specification without `Enabled`, on the reference surface. -/
theorem ApplyTo_revalidates_witness :
    (ApplyTo referencePatcher id noEnabledSpec smallSurface).2
        = some (.invalidPatchFile (.noEnabledOption "only"))
      ∧ (ApplyTo referencePatcher id noEnabledSpec smallSurface).1.trace = []
      ∧ (ApplyTo referencePatcher id noEnabledSpec smallSurface).1.st = smallSurface :=
  ApplyTo_revalidates referencePatcher id noEnabledSpec smallSurface
    (.noEnabledOption "only") (by decide)

/-- C8, counterexample: for a validated specification whose two patches are both
disabled, `ApplyTo` succeeds and makes two surface calls, one `ResetBaseAddress`
for each patch. -/
theorem ApplyTo_disabled_calls_reset :
    validate disabledSpec = none
      ∧ (∀ np ∈ disabledSpec, ∃ i ∈ np.2, i.Enabled = some false)
      ∧ (ApplyTo referencePatcher id disabledSpec smallSurface).2 = none
      ∧ (ApplyTo referencePatcher id disabledSpec smallSurface).1.trace
        = [⟨1, .ResetBaseAddress, false⟩, ⟨2, .ResetBaseAddress, false⟩] := by
  decide

/-- C8, amended: for every validated specification, the only surface operation
`ApplyTo` invokes for a patch whose `Enabled` instruction is false is the
`ResetBaseAddress` that starts the processing of each patch; and for a specification
whose patches are all disabled, `ApplyTo` succeeds and the sequence of its surface
calls is one `ResetBaseAddress` for each patch, in order. -/
theorem ApplyTo_disabled_only_reset {σ : Type} (pt : Patcher σ)
    (order : patchFile → patchFile) (pf : patchFile) (s : σ)
    (hperm : (order pf).Perm pf) (hv : validate (order pf) = none) :
    (∀ k np, pf[k]? = some np → (∃ i ∈ np.2, i.Enabled = some false) →
        ∀ ev ∈ (ApplyTo pt order pf s).1.trace, ev.num = k + 1 → ev = resetEvent (k + 1))
      ∧ ((∀ np ∈ pf, ∃ i ∈ np.2, i.Enabled = some false) →
          (ApplyTo pt order pf s).2 = none
            ∧ (ApplyTo pt order pf s).1.trace
              = (List.range pf.length).map (fun k => resetEvent (k + 1))) := by
  have hdis : ∀ np ∈ pf, (∃ i ∈ np.2, i.Enabled = some false) → patchEnabled np.2 = false :=
    fun np hnp hf =>
      patchEnabled_false_of_one (validateLoop_none_mem hv np (hperm.mem_iff.mpr hnp)).2.1 hf
  have hrun : ApplyTo pt order pf s = applyPatches pt pf 0 ⟨s, []⟩ := by
    simp [ApplyTo, hv]
  rw [hrun]
  constructor
  · intro k np hk hf ev hev hnum
    obtain ⟨new, t, _, m⟩ := applyPatches_shape pt pf 0 ⟨s, []⟩
    rw [t] at hev
    obtain ⟨k1, np1, hk1, hn1, horigin⟩ := m ev (by simpa using hev)
    have hkk : k1 = k := by omega
    subst hkk
    rw [hk] at hk1
    cases hk1
    rcases horigin with h | ⟨hen, _⟩
    · simpa using h
    · rw [hdis np (List.getElem?_mem hk) hf] at hen
      cases hen
  · intro hall
    have := applyPatches_all_disabled pt pf 0 ⟨s, []⟩ (fun np hnp => hdis np hnp (hall np hnp))
    simpa using this

/-- C8, witness: the two disabled patches of `disabledSpec`. -/
theorem ApplyTo_disabled_only_reset_witness :
    (ApplyTo referencePatcher id disabledSpec smallSurface).2 = none
      ∧ (ApplyTo referencePatcher id disabledSpec smallSurface).1.trace
        = (List.range disabledSpec.length).map (fun k => resetEvent (k + 1)) :=
  (ApplyTo_disabled_only_reset referencePatcher id disabledSpec smallSurface
    (List.Perm.refl _) (by decide)).2 (by decide)

theorem mem_callsOf_findBaseAddress {i : instruction} {buf : List Nat}
    (h : Call.FindBaseAddress buf ∈ callsOf i) :
    ∃ hex, i.FindBaseAddressHex = some hex ∧ decodeHex hex = .ok buf := by
  unfold callsOf at h
  simp only [List.mem_append, or_assoc] at h
  rcases h with h | h | h | h | h | h | h | h
  · split at h <;> simp at h
  · split at h
    · rename_i hex hh
      split at h
      · rename_i b hb
        simp only [List.mem_singleton, Call.FindBaseAddress.injEq] at h
        exact ⟨hex, hh, by rw [h]; exact hb⟩
      · simp at h
    · simp at h
  · split at h <;> simp at h
  · split at h <;> simp at h
  · split at h <;> simp at h
  · split at h <;> simp at h
  · split at h <;> simp at h
  · split at h <;> simp at h

/-- C9, counterexample: in the enabled patch of `hexMissSpec` the replace instruction
placed before the `FindBaseAddressHex` has been executed, and has changed the buffer,
when the scan fails. -/
theorem ApplyTo_replace_before_hex_miss :
    validate hexMissSpec = none
      ∧ (ApplyTo referencePatcher id hexMissSpec smallSurface).1.trace
        = [⟨1, .ResetBaseAddress, false⟩, ⟨1, .ReplaceInt 0 1 2, false⟩,
           ⟨1, .FindBaseAddress [0xAA], true⟩]
      ∧ (ApplyTo referencePatcher id hexMissSpec smallSurface).1.st.buf = [2, 2, 3]
      ∧ (ApplyTo referencePatcher id hexMissSpec smallSurface).2
        = some (.surface "could not find bytes") := by
  decide

/-- C9, amended: for every specification and every enabled patch in it, if the scan
of a `FindBaseAddressHex` instruction of that patch fails, `ApplyTo` returns an error
and the failed scan is the last surface call it makes: no instruction placed after
it in the patch, replace or other, is executed. The failed scan belongs to an
enabled patch of the specification, which has a `FindBaseAddressHex` instruction
whose string decodes to the pattern. -/
theorem ApplyTo_hex_miss_aborts {σ : Type} (pt : Patcher σ) (order : patchFile → patchFile)
    (pf : patchFile) (s : σ) (pre post : List Event) (ev : Event) (buf : List Nat)
    (htrace : (ApplyTo pt order pf s).1.trace = pre ++ ev :: post)
    (hcall : ev.call = .FindBaseAddress buf) (hfail : ev.failed = true) :
    (ApplyTo pt order pf s).2.isSome = true ∧ post = []
      ∧ ∃ k np i hex, pf[k]? = some np ∧ ev.num = k + 1 ∧ patchEnabled np.2 = true
          ∧ i ∈ np.2 ∧ i.FindBaseAddressHex = some hex ∧ decodeHex hex = .ok buf := by
  cases hv : validate (order pf) with
  | some err =>
    simp [ApplyTo, hv] at htrace
  | none =>
    have hrun : ApplyTo pt order pf s = applyPatches pt pf 0 ⟨s, []⟩ := by
      simp [ApplyTo, hv]
    rw [hrun] at htrace ⊢
    obtain ⟨new, t, sh, m⟩ := applyPatches_shape pt pf 0 ⟨s, []⟩
    rw [t] at htrace
    have hnew : new = pre ++ ev :: post := by simpa using htrace
    have hlast := sh.last_of_failed pre post ev hnew hfail
    refine ⟨hlast.2, hlast.1, ?_⟩
    obtain ⟨k, np, hk, hnum, horigin⟩ := m ev (by rw [hnew]; simp)
    rcases horigin with h | ⟨hen, i, hi, hc⟩
    · rw [h] at hcall
      cases hcall
    · rw [hcall] at hc
      obtain ⟨hex, hh, hd⟩ := mem_callsOf_findBaseAddress hc
      exact ⟨k, np, i, hex, hk, by omega, hen, hi, hh, hd⟩

/-- C9, witness: the failed scan of `hexMissSpec` on the reference surface is the last
call and `ApplyTo` returns an error. -/
theorem ApplyTo_hex_miss_aborts_witness :
    (ApplyTo referencePatcher id hexMissSpec smallSurface).1.trace
        = [⟨1, .ResetBaseAddress, false⟩, ⟨1, .ReplaceInt 0 1 2, false⟩]
          ++ ⟨1, .FindBaseAddress [0xAA], true⟩ :: []
      ∧ (ApplyTo referencePatcher id hexMissSpec smallSurface).2.isSome = true :=
  have htrace : (ApplyTo referencePatcher id hexMissSpec smallSurface).1.trace
      = [⟨1, .ResetBaseAddress, false⟩, ⟨1, .ReplaceInt 0 1 2, false⟩]
        ++ ⟨1, .FindBaseAddress [0xAA], true⟩ :: [] := by decide
  ⟨htrace, (ApplyTo_hex_miss_aborts referencePatcher id hexMissSpec smallSurface
    [⟨1, .ResetBaseAddress, false⟩, ⟨1, .ReplaceInt 0 1 2, false⟩]
    [] ⟨1, .FindBaseAddress [0xAA], true⟩ [0xAA] htrace rfl rfl).1⟩

/-- C10: the first failing surface operation aborts the whole specification. If a
surface call made by `ApplyTo` returns an error then `ApplyTo` returns an error and
that call is the last one it makes, for the current patch and for every later one;
and when `ApplyTo` returns success every surface call it made succeeded. -/
theorem ApplyTo_first_failure_aborts {σ : Type} (pt : Patcher σ)
    (order : patchFile → patchFile) (pf : patchFile) (s : σ) :
    (∀ pre ev post, (ApplyTo pt order pf s).1.trace = pre ++ ev :: post →
        ev.failed = true → (ApplyTo pt order pf s).2.isSome = true ∧ post = [])
      ∧ ((ApplyTo pt order pf s).2 = none →
          ∀ ev ∈ (ApplyTo pt order pf s).1.trace, ev.failed = false) := by
  cases hv : validate (order pf) with
  | some err =>
    simp [ApplyTo, hv]
  | none =>
    have hrun : ApplyTo pt order pf s = applyPatches pt pf 0 ⟨s, []⟩ := by
      simp [ApplyTo, hv]
    rw [hrun]
    obtain ⟨new, t, sh, _⟩ := applyPatches_shape pt pf 0 ⟨s, []⟩
    rw [t]
    constructor
    · intro pre ev post htrace hfail
      have := sh.last_of_failed pre post ev (by simpa using htrace) hfail
      exact ⟨this.2, this.1⟩
    · intro hnone ev hev
      rw [hnone] at sh
      exact sh.clean_of_none ev (by simpa using hev)

/-- C10, witness: the first replace of `failingSpec` fails on the reference surface,
it is the last call and `ApplyTo` returns an error, the second patch is not started;
the run of `simpleSpec` succeeds and its `BaseAddress` call succeeded. -/
theorem ApplyTo_first_failure_aborts_witness :
    (ApplyTo referencePatcher id failingSpec smallSurface).1.trace
        = [⟨1, .ResetBaseAddress, false⟩] ++ ⟨1, .ReplaceInt 0 9 2, true⟩ :: []
      ∧ (ApplyTo referencePatcher id failingSpec smallSurface).2.isSome = true
      ∧ (ApplyTo referencePatcher id simpleSpec smallSurface).2 = none
      ∧ (⟨1, .BaseAddress 0, false⟩ : Event).failed = false :=
  have htrace : (ApplyTo referencePatcher id failingSpec smallSurface).1.trace
      = [⟨1, .ResetBaseAddress, false⟩] ++ ⟨1, .ReplaceInt 0 9 2, true⟩ :: [] := by decide
  have hok : (ApplyTo referencePatcher id simpleSpec smallSurface).2 = none := by decide
  ⟨htrace,
    ((ApplyTo_first_failure_aborts referencePatcher id failingSpec smallSurface).1
      [⟨1, .ResetBaseAddress, false⟩] ⟨1, .ReplaceInt 0 9 2, true⟩ [] htrace rfl).1,
    hok,
    (ApplyTo_first_failure_aborts referencePatcher id simpleSpec smallSurface).2 hok
      ⟨1, .BaseAddress 0, false⟩ (by decide)⟩

/-! ## What `validate` accepts -/

theorem recordGroup_eq (c : patchCounters) (g : List String) :
    recordGroup c g =
      if c.pg ≠ "" ∧ c.e = true then
        if c.pg ∈ g then .error (.moreThanOneEnabledInGroup c.pg) else .ok (c.pg :: g)
      else .ok g := rfl

theorem patch_step_of_passes (n : String) (p : patch) (g : List String)
    (hp : patchPasses p) (hg : ∀ x ∈ groupKey p, x ∉ g) :
    scanInstructions n p {} = .ok (patchTotals p)
      ∧ checkCounters n (patchTotals p) g = .ok ((groupKey p).toList ++ g) := by
  obtain ⟨hall, hec, hdc, hpgc, hroc⟩ := hp
  refine ⟨scanInstructions_of_all n p {} hall, ?_⟩
  have h1 : ¬(patchTotals p).ec < 1 := by omega
  have h2 : ¬(patchTotals p).ec > 1 := by omega
  have h3 : ¬(patchTotals p).dc > 1 := by omega
  have h4 : ¬(patchTotals p).pgc > 1 := by omega
  unfold checkCounters
  rw [if_neg h1, if_neg h2, if_neg h3, if_neg h4]
  by_cases hc : (patchTotals p).pg ≠ "" ∧ (patchTotals p).e = true
  · have hk : groupKey p = some (patchTotals p).pg := by simp [groupKey, hc]
    have hnot : (patchTotals p).pg ∉ g := hg _ (by simp [hk])
    rw [recordGroup_eq, if_pos hc, if_neg hnot]
    simp only [if_neg hroc, hk]
    simp
  · have hk : groupKey p = none := by simp only [groupKey, hc, if_false]
    rw [recordGroup_eq, if_neg hc]
    simp only [if_neg hroc, hk]
    simp

theorem patch_step_passes {n : String} {p : patch} {c : patchCounters} {g g1 : List String}
    (hs : scanInstructions n p {} = .ok c) (hc : checkCounters n c g = .ok g1) :
    patchPasses p ∧ (∀ x ∈ groupKey p, x ∉ g) ∧ g1 = (groupKey p).toList ++ g := by
  obtain ⟨hall, hfold⟩ := scanInstructions_ok hs
  have hct : c = patchTotals p := hfold
  subst hct
  obtain ⟨hec, hdc, hpgc, hrec, hroc⟩ := checkCounters_ok hc
  refine ⟨⟨hall, hec, hdc, hpgc, hroc⟩, ?_⟩
  rw [recordGroup_eq] at hrec
  by_cases hcond : (patchTotals p).pg ≠ "" ∧ (patchTotals p).e = true
  · have hk : groupKey p = some (patchTotals p).pg := by simp [groupKey, hcond]
    rw [if_pos hcond] at hrec
    by_cases hin : (patchTotals p).pg ∈ g
    · rw [if_pos hin] at hrec
      cases hrec
    · rw [if_neg hin] at hrec
      cases hrec
      refine ⟨?_, by simp [hk]⟩
      intro x hx
      rw [hk] at hx
      cases hx
      exact hin
  · have hk : groupKey p = none := by simp only [groupKey, hcond, if_false]
    rw [if_neg hcond] at hrec
    cases hrec
    refine ⟨?_, by simp [hk]⟩
    intro x hx
    rw [hk] at hx
    cases hx

/-- The loop of `validate` accepts a specification exactly when every patch passes
the checks made on a patch alone and the group names of its patches are pairwise
distinct and not yet among the recorded names. -/
theorem validateLoop_none_iff (pf : patchFile) (g : List String) :
    validateLoop pf g = none ↔
      (∀ np ∈ pf, patchPasses np.2) ∧ (groupKeys pf).Nodup ∧ ∀ x ∈ groupKeys pf, x ∉ g := by
  induction pf generalizing g with
  | nil => simp [validateLoop, groupKeys]
  | cons x rest ih =>
    obtain ⟨n, p⟩ := x
    have hkeys : groupKeys ((n, p) :: rest) = (groupKey p).toList ++ groupKeys rest := by
      unfold groupKeys
      cases hk : groupKey p with
      | none => simp [List.filterMap_cons, hk]
      | some k => simp [List.filterMap_cons, hk]
    constructor
    · intro h
      unfold validateLoop at h
      split at h
      · cases h
      · rename_i c hs
        split at h
        · cases h
        · rename_i g1 hc
          obtain ⟨hp, hg, rfl⟩ := patch_step_passes hs hc
          obtain ⟨r1, r2, r3⟩ := (ih _).mp h
          refine ⟨?_, ?_, ?_⟩
          · intro np hnp
            rcases List.mem_cons.mp hnp with rfl | hmem
            · exact hp
            · exact r1 np hmem
          · rw [hkeys, List.nodup_append]
            refine ⟨by cases groupKey p <;> simp, r2, ?_⟩
            intro a ha hb
            exact r3 a hb (List.mem_append_left _ ha)
          · intro a ha
            rw [hkeys] at ha
            rcases List.mem_append.mp ha with h1 | h1
            · exact hg a (by simpa using h1)
            · exact fun hag => r3 a h1 (List.mem_append_right _ hag)
    · rintro ⟨h1, h2, h3⟩
      rw [hkeys] at h2 h3
      have hp : patchPasses p := h1 (n, p) (List.mem_cons_self _ _)
      have hg : ∀ x ∈ groupKey p, x ∉ g :=
        fun a ha => h3 a (List.mem_append_left _ (by simpa using ha))
      obtain ⟨hs, hc⟩ := patch_step_of_passes n p g hp hg
      unfold validateLoop
      simp only [hs, hc]
      rw [ih]
      rw [List.nodup_append] at h2
      refine ⟨fun np hnp => h1 np (List.mem_cons_of_mem _ hnp), h2.2.1, ?_⟩
      intro a ha hag
      rcases List.mem_append.mp hag with h4 | h4
      · exact h2.2.2 h4 ha
      · exact h3 a (List.mem_append_right _ ha) h4

/-- Acceptance by `validate` is the same for two enumerations of the same map. -/
theorem validate_none_of_perm {pf1 pf2 : patchFile} (h : pf1.Perm pf2) :
    validate pf1 = none ↔ validate pf2 = none := by
  unfold validate
  rw [validateLoop_none_iff, validateLoop_none_iff]
  have hk : (groupKeys pf1).Perm (groupKeys pf2) := h.filterMap _
  constructor
  · rintro ⟨h1, h2, _⟩
    exact ⟨fun np hnp => h1 np (h.mem_iff.mpr hnp), hk.nodup_iff.mp h2, by simp⟩
  · rintro ⟨h1, h2, _⟩
    exact ⟨fun np hnp => h1 np (h.mem_iff.mp hnp), hk.nodup_iff.mpr h2, by simp⟩

theorem foldl_tally_roc_zero (p : patch) (c : patchCounters)
    (h : (p.foldl tally c).roc = 0) :
    c.roc = 0 ∧ ∀ i ∈ p, i.ReplaceString = none ∧ i.ReplaceInt = none
      ∧ i.ReplaceFloat = none ∧ i.FindReplaceString = none := by
  induction p generalizing c with
  | nil => exact ⟨by simpa using h, fun i hi => by simp at hi⟩
  | cons j rest ih =>
    rw [List.foldl_cons] at h
    obtain ⟨h1, h2⟩ := ih _ h
    have hsum : c.roc + isSet j.ReplaceFloat + isSet j.ReplaceInt + isSet j.ReplaceString
        + isSet j.FindReplaceString = 0 := h1
    have z : ∀ {α : Type} (o : Option α), isSet o = 0 → o = none := by
      intro α o ho
      cases o with
      | none => rfl
      | some a => simp [isSet] at ho
    refine ⟨by omega, ?_⟩
    intro i hi
    rcases List.mem_cons.mp hi with rfl | hmem
    · exact ⟨z _ (by omega), z _ (by omega), z _ (by omega), z _ (by omega)⟩
    · exact h2 i hmem

/-- The checks on a patch alone, told in the vocabulary of the specification. -/
theorem patchPasses_of_rules {p : patch} (h1 : ∀ i ∈ p, populatedCount i = 1)
    (h2 : enabledCount p = 1) (h3 : descriptionCount p ≤ 1) (h4 : patchGroupCount p ≤ 1)
    (h5 : ¬bytesByStringOnly p) : patchPasses p := by
  refine ⟨fun i hi => by rw [ic_eq_populatedCount]; exact h1 i hi, ?_, ?_, ?_, ?_⟩
  · rw [patchTotals, foldl_tally_ec]; simpa using h2
  · rw [patchTotals, foldl_tally_dc]; simpa using h3
  · rw [patchTotals, foldl_tally_pgc]; simpa using h4
  · rintro ⟨r1, r2, r3⟩
    apply h5
    rw [patchTotals, foldl_tally_rbc] at r2
    rw [patchTotals, foldl_tally_fbsc] at r3
    have c2 : 0 < p.countP (fun i => i.ReplaceBytes.isSome) := by simpa using r2
    have c3 : 0 < p.countP (fun i => i.FindBaseAddressString.isSome) := by simpa using r3
    obtain ⟨i, hi, hrb⟩ := List.countP_pos_iff.mp c2
    obtain ⟨j, hj, hfb⟩ := List.countP_pos_iff.mp c3
    exact ⟨⟨i, hi, hrb⟩, ⟨j, hj, hfb⟩, (foldl_tally_roc_zero p _ r1).2⟩

/-- A patch that passes and records a group name is enabled and names that group,
which is not the empty name. -/
theorem groupKey_some {p : patch} {g : String} (hp : patchPasses p)
    (hk : groupKey p = some g) : g ≠ "" ∧ hasEnabledTrue p ∧ hasPatchGroup g p := by
  obtain ⟨_, hec, _, hpgc, _⟩ := hp
  have e1 : enabledCount p = 1 := by
    rw [patchTotals, foldl_tally_ec] at hec; simpa using hec
  have e3 : patchGroupCount p ≤ 1 := by
    rw [patchTotals, foldl_tally_pgc] at hpgc; simpa using hpgc
  unfold groupKey at hk
  split at hk
  · rename_i hcond
    cases hk
    obtain ⟨hne, he⟩ := hcond
    refine ⟨hne, ?_, ?_⟩
    · have hpos : 0 < enabledCount p := by omega
      obtain ⟨i, hi, hset⟩ := List.countP_pos_iff.mp hpos
      cases hb : i.Enabled with
      | none => simp [hb] at hset
      | some b =>
        have := foldl_tally_e_of_one p {} e1 i hi b hb
        rw [patchTotals] at he
        rw [he] at this
        exact ⟨i, hi, by rw [hb, this]⟩
    · have hpos : 0 < patchGroupCount p := by
        by_contra hzero
        have h0 : patchGroupCount p = 0 := by omega
        have := foldl_tally_pg_of_zero p {} h0
        exact hne (by rw [patchTotals, this])
      obtain ⟨i, hi, hset⟩ := List.countP_pos_iff.mp hpos
      cases hb : i.PatchGroup with
      | none => simp [hb] at hset
      | some g1 =>
        have := foldl_tally_pg_of_one p {} (by omega) i hi g1 hb
        exact ⟨i, hi, by rw [hb, patchTotals, this]⟩
  · cases hk

/-- C18: whether `validate` returns an error does not depend on the order in which
the patches of the map are visited: for two enumerations of the same entries it
returns an error under one exactly when it returns an error under the other. -/
theorem validate_order_independent (pf1 pf2 : patchFile) (h : pf1.Perm pf2) :
    (validate pf1).isSome = true ↔ (validate pf2).isSome = true := by
  have key := validate_none_of_perm h
  cases h1 : validate pf1 with
  | none =>
    rw [key.mp h1]
  | some e1 =>
    cases h2 : validate pf2 with
    | none =>
      rw [key.mpr h2] at h1
      cases h1
    | some e2 => simp

/-- C18, witness: `twoFaultsSpec` is rejected in both orders of its two patches, with
a different error. -/
theorem validate_order_independent_witness :
    validate twoFaultsSpec = some (.noEnabledOption "first")
      ∧ validate twoFaultsSpec.reverse = some (.moreThanOneDescription "second")
      ∧ ((validate twoFaultsSpec).isSome = true
        ↔ (validate twoFaultsSpec.reverse).isSome = true) :=
  ⟨by decide, by decide,
    validate_order_independent twoFaultsSpec twoFaultsSpec.reverse
      (List.reverse_perm twoFaultsSpec).symm⟩

/-- C19: `validate` rejects nothing beyond its rules. A specification in which each
instruction has exactly one populated variant, each patch has exactly one `Enabled`,
at most one `Description` and at most one `PatchGroup` instruction, no two enabled
patches have the same non-empty `PatchGroup` name, and no patch has `ReplaceBytes`
and `FindBaseAddressString` without any `ReplaceString`, `ReplaceInt`, `ReplaceFloat`
or `FindReplaceString`, is accepted. -/
theorem validate_accepts_within_rules (pf : patchFile)
    (h1 : ∀ np ∈ pf, ∀ i ∈ np.2, populatedCount i = 1)
    (h2 : ∀ np ∈ pf, enabledCount np.2 = 1 ∧ descriptionCount np.2 ≤ 1
      ∧ patchGroupCount np.2 ≤ 1)
    (h3 : ∀ (i j : Nat) (np1 np2 : String × patch) (g : String), i ≠ j →
      pf[i]? = some np1 → pf[j]? = some np2 →
      hasEnabledTrue np1.2 → hasPatchGroup g np1.2 →
      hasEnabledTrue np2.2 → hasPatchGroup g np2.2 → g = "")
    (h4 : ∀ np ∈ pf, ¬bytesByStringOnly np.2) : validate pf = none := by
  have hpass : ∀ np ∈ pf, patchPasses np.2 := fun np hnp =>
    patchPasses_of_rules (h1 np hnp) (h2 np hnp).1 (h2 np hnp).2.1 (h2 np hnp).2.2 (h4 np hnp)
  unfold validate
  rw [validateLoop_none_iff]
  refine ⟨hpass, ?_, by simp⟩
  unfold groupKeys List.Nodup
  rw [List.pairwise_filterMap, List.pairwise_iff_getElem]
  intro i j hi hj hij b hb b1 hb1 heq
  subst heq
  have m1 : pf[i] ∈ pf := List.getElem_mem hi
  have m2 : pf[j] ∈ pf := List.getElem_mem hj
  obtain ⟨hne, en1, pg1⟩ := groupKey_some (hpass _ m1) hb
  obtain ⟨_, en2, pg2⟩ := groupKey_some (hpass _ m2) hb1
  exact hne (h3 i j pf[i] pf[j] b (by omega) (List.getElem?_eq_getElem hi)
    (List.getElem?_eq_getElem hj) en1 pg1 en2 pg2)

/-- C19, witness: `mixedSpec`, where two enabled patches name different groups and
a disabled patch names the group of the first, is accepted. -/
theorem validate_accepts_within_rules_witness : validate mixedSpec = none :=
  validate_accepts_within_rules mixedSpec (by decide) (by decide)
    (by
      intro i j np1 np2 g hij e1 e2 en1 pg1 en2 pg2
      rcases i with _ | _ | _ | i <;> rcases j with _ | _ | _ | j <;>
        simp [mixedSpec] at e1 e2 hij <;> subst e1 <;> subst e2 <;>
        simp [hasEnabledTrue, hasPatchGroup] at en1 pg1 en2 pg2 <;>
        (subst pg1; exact absurd pg2 (by decide)))
    (by decide)

/-! ## Composition of the loops of `ApplyTo` -/

theorem applyInstructions_append {σ : Type} (pt : Patcher σ) (num : Nat) (p1 p2 : patch)
    (r : Run σ) :
    applyInstructions pt num (p1 ++ p2) r =
      match applyInstructions pt num p1 r with
      | (r1, some err) => (r1, some err)
      | (r1, none) => applyInstructions pt num p2 r1 := by
  induction p1 generalizing r with
  | nil => simp [applyInstructions]
  | cons i rest ih =>
    simp only [List.cons_append, applyInstructions]
    cases h : execInstruction pt num i r with
    | mk r1 e =>
      cases e with
      | some err => simp
      | none =>
        simp only []
        exact ih r1

theorem applyPatches_append {σ : Type} (pt : Patcher σ) (l1 l2 : patchFile) (num : Nat)
    (r : Run σ) :
    applyPatches pt (l1 ++ l2) num r =
      match applyPatches pt l1 num r with
      | (r1, some err) => (r1, some err)
      | (r1, none) => applyPatches pt l2 (num + l1.length) r1 := by
  induction l1 generalizing num r with
  | nil => simp [applyPatches]
  | cons x rest ih =>
    obtain ⟨n, p⟩ := x
    have hlen : num + ((n, p) :: rest).length = num + 1 + rest.length := by
      simp only [List.length_cons]; omega
    simp only [List.cons_append, applyPatches, hlen]
    split
    · exact ih (num + 1) _
    · cases h : applyInstructions pt (num + 1) p (invoke pt (num + 1) .ResetBaseAddress r).1 with
      | mk r2 e =>
        cases e with
        | some err => simp
        | none =>
          simp only []
          exact ih (num + 1) r2

theorem patchEnabled_append (p1 p2 : patch) :
    patchEnabled (p1 ++ p2) = (patchEnabled p1 || patchEnabled p2) := by
  induction p1 with
  | nil => simp [patchEnabled]
  | cons i rest ih =>
    simp only [List.cons_append, patchEnabled]
    split
    · simp
    · exact ih

/-- Two instruction lists that leave the same run and fail together do so in every
context of instructions before and after them. -/
theorem applyInstructions_context {σ : Type} (pt : Patcher σ) (num : Nat) (mid1 mid2 : patch)
    (h : ∀ r : Run σ, (applyInstructions pt num mid1 r).1 = (applyInstructions pt num mid2 r).1
      ∧ (applyInstructions pt num mid1 r).2.isSome = (applyInstructions pt num mid2 r).2.isSome)
    (pre post : patch) (r : Run σ) :
    (applyInstructions pt num (pre ++ mid1 ++ post) r).1
        = (applyInstructions pt num (pre ++ mid2 ++ post) r).1
      ∧ (applyInstructions pt num (pre ++ mid1 ++ post) r).2.isSome
        = (applyInstructions pt num (pre ++ mid2 ++ post) r).2.isSome := by
  rw [List.append_assoc, List.append_assoc, applyInstructions_append pt num pre,
    applyInstructions_append pt num pre]
  cases hp : applyInstructions pt num pre r with
  | mk r1 e =>
    cases e with
    | some err => simp
    | none =>
      simp only []
      rw [applyInstructions_append pt num mid1, applyInstructions_append pt num mid2]
      obtain ⟨h1, h2⟩ := h r1
      cases hm1 : applyInstructions pt num mid1 r1 with
      | mk ra ea =>
        cases hm2 : applyInstructions pt num mid2 r1 with
        | mk rb eb =>
          rw [hm1, hm2] at h1 h2
          simp only at h1
          subst h1
          cases ea with
          | some erra =>
            cases eb with
            | some errb => simp
            | none => simp at h2
          | none =>
            cases eb with
            | some errb => simp at h2
            | none => simp

/-- Two patches with the same enabled flag whose instructions leave the same run and
fail together do so in every context of patches before and after them. -/
theorem applyPatches_context {σ : Type} (pt : Patcher σ) (p1 p2 : patch)
    (hen : patchEnabled p1 = patchEnabled p2)
    (h : ∀ (num : Nat) (r : Run σ),
      (applyInstructions pt num p1 r).1 = (applyInstructions pt num p2 r).1
      ∧ (applyInstructions pt num p1 r).2.isSome = (applyInstructions pt num p2 r).2.isSome)
    (before after : patchFile) (n : String) (num : Nat) (r : Run σ) :
    (applyPatches pt (before ++ (n, p1) :: after) num r).1
        = (applyPatches pt (before ++ (n, p2) :: after) num r).1
      ∧ (applyPatches pt (before ++ (n, p1) :: after) num r).2.isSome
        = (applyPatches pt (before ++ (n, p2) :: after) num r).2.isSome := by
  rw [applyPatches_append, applyPatches_append]
  cases hb : applyPatches pt before num r with
  | mk r1 e =>
    cases e with
    | some err => simp
    | none =>
      simp only [applyPatches, hen]
      split
      · exact ⟨rfl, rfl⟩
      · obtain ⟨h1, h2⟩ := h (num + before.length + 1)
          (invoke pt (num + before.length + 1) .ResetBaseAddress r1).1
        cases hm1 : applyInstructions pt (num + before.length + 1) p1
            (invoke pt (num + before.length + 1) .ResetBaseAddress r1).1 with
        | mk ra ea =>
          cases hm2 : applyInstructions pt (num + before.length + 1) p2
              (invoke pt (num + before.length + 1) .ResetBaseAddress r1).1 with
          | mk rb eb =>
            rw [hm1, hm2] at h1 h2
            simp only at h1
            subst h1
            cases ea with
            | some erra =>
              cases eb with
              | some errb => simp
              | none => simp at h2
            | none =>
              cases eb with
              | some errb => simp at h2
              | none => simp

theorem findReplaceString_step {σ : Type} (pt : Patcher σ) (num : Nat) (f rep : String)
    (r : Run σ) :
    (applyInstructions pt num [findReplaceStringOf f rep] r).1
        = (applyInstructions pt num (findThenReplaceOf f rep) r).1
      ∧ (applyInstructions pt num [findReplaceStringOf f rep] r).2.isSome
        = (applyInstructions pt num (findThenReplaceOf f rep) r).2.isSome := by
  simp only [applyInstructions, findReplaceStringOf, findThenReplaceOf, execInstruction]
  cases h1 : (invoke pt num (.FindBaseAddressString f) r).2 with
  | some msg => simp [h1]
  | none =>
    cases h2 : (invoke pt num (.ReplaceString 0 f rep)
        (invoke pt num (.FindBaseAddressString f) r).1).2 with
    | some msg => simp [h1, h2]
    | none => simp [h1, h2]

theorem agreeButFbsc_tally {c d : patchCounters} (h : agreeButFbsc c d) (i : instruction) :
    agreeButFbsc (tally c i) (tally d i) := by
  obtain ⟨h1, h2, h3, h4, h5, h6, h7, h8⟩ := h
  refine ⟨?_, ?_, ?_, ?_, ?_, ?_, ?_, ?_⟩ <;> simp only [tally, h1, h2, h3, h4, h5, h6, h7]
  omega

theorem agreeButFbsc_foldl (p : patch) {c d : patchCounters} (h : agreeButFbsc c d) :
    agreeButFbsc (p.foldl tally c) (p.foldl tally d) := by
  induction p generalizing c d with
  | nil => exact h
  | cons i rest ih => exact ih (agreeButFbsc_tally h i)

theorem patchTotals_composite (f rep : String) (pre post : patch) :
    agreeButFbsc (patchTotals (pre ++ [findReplaceStringOf f rep] ++ post))
      (patchTotals (pre ++ findThenReplaceOf f rep ++ post)) := by
  simp only [patchTotals, List.foldl_append]
  apply agreeButFbsc_foldl
  simp [agreeButFbsc, findReplaceStringOf, findThenReplaceOf, tally, isSet]

theorem patchPasses_composite (f rep : String) (pre post : patch) :
    patchPasses (pre ++ [findReplaceStringOf f rep] ++ post)
      ↔ patchPasses (pre ++ findThenReplaceOf f rep ++ post) := by
  obtain ⟨h1, h2, h3, h4, h5, h6, h7, h8⟩ := patchTotals_composite f rep pre post
  have hic : (∀ i ∈ pre ++ [findReplaceStringOf f rep] ++ post, ic i = 1)
      ↔ ∀ i ∈ pre ++ findThenReplaceOf f rep ++ post, ic i = 1 := by
    have a1 : ic (findReplaceStringOf f rep) = 1 := rfl
    have a2 : ic ({ FindBaseAddressString := some f } : instruction) = 1 := rfl
    have a3 : ic ({ ReplaceString := some ⟨0, f, rep⟩ } : instruction) = 1 := rfl
    constructor
    · intro h i hi
      simp only [findThenReplaceOf, List.mem_append, List.mem_cons, List.not_mem_nil,
        or_false] at hi
      rcases hi with (hi | hi | hi) | hi
      · exact h i (by simp [hi])
      · rw [hi]; exact a2
      · rw [hi]; exact a3
      · exact h i (by simp [hi])
    · intro h i hi
      simp only [List.mem_append, List.mem_cons, List.not_mem_nil, or_false] at hi
      rcases hi with (hi | hi) | hi
      · exact h i (by simp [hi])
      · rw [hi]; exact a1
      · exact h i (by simp [hi])
  unfold patchPasses
  rw [hic, h1, h5, h3]
  have r1 : ¬((patchTotals (pre ++ [findReplaceStringOf f rep] ++ post)).roc = 0
      ∧ (patchTotals (pre ++ [findReplaceStringOf f rep] ++ post)).rbc > 0
      ∧ (patchTotals (pre ++ [findReplaceStringOf f rep] ++ post)).fbsc > 0) :=
    fun h => by omega
  have r2 : ¬((patchTotals (pre ++ findThenReplaceOf f rep ++ post)).roc = 0
      ∧ (patchTotals (pre ++ findThenReplaceOf f rep ++ post)).rbc > 0
      ∧ (patchTotals (pre ++ findThenReplaceOf f rep ++ post)).fbsc > 0) :=
    fun h => by omega
  simp only [r1, r2]

theorem groupKey_composite (f rep : String) (pre post : patch) :
    groupKey (pre ++ [findReplaceStringOf f rep] ++ post)
      = groupKey (pre ++ findThenReplaceOf f rep ++ post) := by
  obtain ⟨h1, h2, h3, h4, h5, h6, h7, h8⟩ := patchTotals_composite f rep pre post
  simp only [groupKey, h2, h4]

theorem validate_composite (f rep : String) (before after : patchFile) (n : String)
    (pre post : patch) :
    validate (before ++ (n, pre ++ [findReplaceStringOf f rep] ++ post) :: after) = none
      ↔ validate (before ++ (n, pre ++ findThenReplaceOf f rep ++ post) :: after) = none := by
  unfold validate
  rw [validateLoop_none_iff, validateLoop_none_iff]
  have hk : groupKeys (before ++ (n, pre ++ [findReplaceStringOf f rep] ++ post) :: after)
      = groupKeys (before ++ (n, pre ++ findThenReplaceOf f rep ++ post) :: after) := by
    simp only [groupKeys, List.filterMap_append, List.filterMap_cons, groupKey_composite]
  rw [hk]
  have hp := patchPasses_composite f rep pre post
  constructor
  · rintro ⟨h1, h2⟩
    refine ⟨?_, h2⟩
    intro np hnp
    rcases List.mem_append.mp hnp with h | h
    · exact h1 np (List.mem_append_left _ h)
    · rcases List.mem_cons.mp h with rfl | h
      · exact hp.mp (h1 _ (List.mem_append_right _ (List.mem_cons_self _ _)))
      · exact h1 np (List.mem_append_right _ (List.mem_cons_of_mem _ h))
  · rintro ⟨h1, h2⟩
    refine ⟨?_, h2⟩
    intro np hnp
    rcases List.mem_append.mp hnp with h | h
    · exact h1 np (List.mem_append_left _ h)
    · rcases List.mem_cons.mp h with rfl | h
      · exact hp.mpr (h1 _ (List.mem_append_right _ (List.mem_cons_self _ _)))
      · exact h1 np (List.mem_append_right _ (List.mem_cons_of_mem _ h))

/-! ## `FindReplaceString` -/

/-- C11: a `FindReplaceString{f, r}` instruction behaves as the two instructions
`FindBaseAddressString(f)` and `ReplaceString(0, f, r)` in its place. Executed from any
state of the run, both make the same surface calls in the same order with the same
results and leave the surface in the same state, and one fails exactly when the
other fails; and `ApplyTo` on a specification with the one instruction and on the
specification with the two in its place ends with the same calls and the same
surface state, and fails on the one exactly when it fails on the other. -/
theorem findReplaceString_refines {σ : Type} (pt : Patcher σ) (f rep : String)
    (order1 order2 : patchFile → patchFile) (before after : patchFile) (n : String)
    (pre post : patch) (s : σ)
    (h1 : (order1 (before ++ (n, pre ++ [findReplaceStringOf f rep] ++ post) :: after)).Perm
      (before ++ (n, pre ++ [findReplaceStringOf f rep] ++ post) :: after))
    (h2 : (order2 (before ++ (n, pre ++ findThenReplaceOf f rep ++ post) :: after)).Perm
      (before ++ (n, pre ++ findThenReplaceOf f rep ++ post) :: after)) :
    (∀ (num : Nat) (r : Run σ),
        (applyInstructions pt num [findReplaceStringOf f rep] r).1.trace
            = (applyInstructions pt num (findThenReplaceOf f rep) r).1.trace
          ∧ (applyInstructions pt num [findReplaceStringOf f rep] r).1.st
            = (applyInstructions pt num (findThenReplaceOf f rep) r).1.st
          ∧ (applyInstructions pt num [findReplaceStringOf f rep] r).2.isSome
            = (applyInstructions pt num (findThenReplaceOf f rep) r).2.isSome)
      ∧ (ApplyTo pt order1
            (before ++ (n, pre ++ [findReplaceStringOf f rep] ++ post) :: after) s).1.trace
          = (ApplyTo pt order2
            (before ++ (n, pre ++ findThenReplaceOf f rep ++ post) :: after) s).1.trace
      ∧ (ApplyTo pt order1
            (before ++ (n, pre ++ [findReplaceStringOf f rep] ++ post) :: after) s).1.st
          = (ApplyTo pt order2
            (before ++ (n, pre ++ findThenReplaceOf f rep ++ post) :: after) s).1.st
      ∧ (ApplyTo pt order1
            (before ++ (n, pre ++ [findReplaceStringOf f rep] ++ post) :: after) s).2.isSome
          = (ApplyTo pt order2
            (before ++ (n, pre ++ findThenReplaceOf f rep ++ post) :: after) s).2.isSome := by
  have step := findReplaceString_step pt
  refine ⟨fun num r => ?_, ?_⟩
  · obtain ⟨e1, e2⟩ := step num f rep r
    exact ⟨by rw [e1], by rw [e1], e2⟩
  · have hv : validate (order1 (before ++ (n, pre ++ [findReplaceStringOf f rep] ++ post)
          :: after)) = none
        ↔ validate (order2 (before ++ (n, pre ++ findThenReplaceOf f rep ++ post)
          :: after)) = none := by
      rw [validate_none_of_perm h1, validate_none_of_perm h2]
      exact validate_composite f rep before after n pre post
    have hen : patchEnabled (pre ++ [findReplaceStringOf f rep] ++ post)
        = patchEnabled (pre ++ findThenReplaceOf f rep ++ post) := by
      simp [patchEnabled_append, patchEnabled, findReplaceStringOf, findThenReplaceOf]
    have hctx := applyPatches_context pt _ _ hen
      (fun num r => applyInstructions_context pt num [findReplaceStringOf f rep]
        (findThenReplaceOf f rep) (fun r1 => step num f rep r1) pre post r)
      before after n 0 ⟨s, []⟩
    cases hv1 : validate (order1 (before ++ (n, pre ++ [findReplaceStringOf f rep] ++ post)
        :: after)) with
    | none =>
      have hv2 := hv.mp hv1
      simp only [ApplyTo, hv1, hv2]
      obtain ⟨e1, e2⟩ := hctx
      exact ⟨by rw [e1], by rw [e1], e2⟩
    | some err1 =>
      cases hv2 : validate (order2 (before ++ (n, pre ++ findThenReplaceOf f rep ++ post)
          :: after)) with
      | none =>
        rw [hv.mpr hv2] at hv1
        cases hv1
      | some err2 =>
        simp only [ApplyTo, hv1, hv2]
        simp

/-- C11, witness: on a buffer that holds `ab`, the composite instruction and the
sequence both make a find call and a replace call and end with `cd` in the buffer. -/
theorem findReplaceString_refines_witness :
    (ApplyTo referencePatcher id compositeSpec textSurface).1.trace
        = [⟨1, .ResetBaseAddress, false⟩, ⟨1, .FindBaseAddressString "ab", false⟩,
           ⟨1, .ReplaceString 0 "ab" "cd", false⟩]
      ∧ (ApplyTo referencePatcher id compositeSpec textSurface).1.trace
        = (ApplyTo referencePatcher id sequenceSpec textSurface).1.trace
      ∧ (ApplyTo referencePatcher id compositeSpec textSurface).1.st
        = (ApplyTo referencePatcher id sequenceSpec textSurface).1.st
      ∧ (ApplyTo referencePatcher id compositeSpec textSurface).2.isSome
        = (ApplyTo referencePatcher id sequenceSpec textSurface).2.isSome :=
  ⟨by decide,
    (findReplaceString_refines referencePatcher "ab" "cd" id id [] [] "only"
      [{ Enabled := some true }] [] textSurface (List.Perm.refl _) (List.Perm.refl _)).2⟩

/-! ## The `invalid instruction` branch -/

theorem map_surface_ne_invalid (o : Option String) (j : instruction) :
    o.map Err.surface ≠ some (.invalidInstruction j) := by
  cases o <;> simp

theorem execInstruction_not_invalid {σ : Type} (pt : Patcher σ) (num : Nat) (i : instruction)
    (r : Run σ) (hic : ic i = 1) (j : instruction) :
    (execInstruction pt num i r).2 ≠ some (.invalidInstruction j) := by
  unfold execInstruction
  split
  · simp
  · rename_i hgate
    split
    · exact map_surface_ne_invalid _ j
    · split
      · split
        · simp
        · exact map_surface_ne_invalid _ j
      · split
        · exact map_surface_ne_invalid _ j
        · split
          · exact map_surface_ne_invalid _ j
          · split
            · exact map_surface_ne_invalid _ j
            · split
              · exact map_surface_ne_invalid _ j
              · split
                · exact map_surface_ne_invalid _ j
                · split
                  · dsimp only
                    split
                    · simp
                    · cases (invoke pt num (Call.ReplaceString 0 _ _) _).2 <;> simp
                  · rename_i a1 e1 a2 e2 a3 e3 a4 e4 a5 e5 a6 e6 a7 e7 a8 e8
                    exfalso
                    simp only [not_or, Bool.not_eq_true] at hgate
                    obtain ⟨g1, g2, g3⟩ := hgate
                    simp [ic, isSet_eq_toNat, g1, g2, g3, e1, e2, e3, e4, e5, e6, e7, e8] at hic

theorem applyInstructions_not_invalid {σ : Type} (pt : Patcher σ) (num : Nat) (p : patch)
    (r : Run σ) (hic : ∀ i ∈ p, ic i = 1) (j : instruction) :
    (applyInstructions pt num p r).2 ≠ some (.invalidInstruction j) := by
  induction p generalizing r with
  | nil => simp [applyInstructions]
  | cons i rest ih =>
    have h1 := execInstruction_not_invalid pt num i r (hic i (List.mem_cons_self _ _)) j
    unfold applyInstructions
    split
    · rename_i r1 err heq
      rw [heq] at h1
      exact h1
    · rename_i r1 heq
      exact ih r1 (fun k hk => hic k (List.mem_cons_of_mem _ hk))

theorem applyPatches_not_invalid {σ : Type} (pt : Patcher σ) (pf : patchFile) (num : Nat)
    (r : Run σ) (hic : ∀ np ∈ pf, ∀ i ∈ np.2, ic i = 1) (j : instruction) :
    (applyPatches pt pf num r).2 ≠ some (.invalidInstruction j) := by
  induction pf generalizing num r with
  | nil => simp [applyPatches]
  | cons x rest ih =>
    obtain ⟨n, p⟩ := x
    have hrest : ∀ np ∈ rest, ∀ i ∈ np.2, ic i = 1 :=
      fun np hnp => hic np (List.mem_cons_of_mem _ hnp)
    have h1 := applyInstructions_not_invalid pt (num + 1) p
      (invoke pt (num + 1) .ResetBaseAddress r).1 (hic (n, p) (List.mem_cons_self _ _)) j
    unfold applyPatches
    simp only []
    split
    · exact ih _ _ hrest
    · split
      · rename_i r2 err heq
        rw [heq] at h1
        exact h1
      · rename_i r2 heq
        exact ih _ _ hrest

/-- C16: the `invalid instruction` branch of the dispatch of `ApplyTo` is unreachable.
For every specification and every surface `ApplyTo` does not return the invalid
instruction error: a specification with an instruction that has no populated variant
is rejected by the validation `ApplyTo` runs first. -/
theorem ApplyTo_never_invalid_instruction {σ : Type} (pt : Patcher σ)
    (order : patchFile → patchFile) (pf : patchFile) (s : σ)
    (hperm : (order pf).Perm pf) (j : instruction) :
    (ApplyTo pt order pf s).2 ≠ some (.invalidInstruction j)
      ∧ ((∃ np ∈ pf, ∃ i ∈ np.2, populatedCount i = 0) →
          ∃ err, (ApplyTo pt order pf s).2 = some (.invalidPatchFile err)) := by
  cases hv : validate (order pf) with
  | some err =>
    simp [ApplyTo, hv]
  | none =>
    have hic : ∀ np ∈ pf, ∀ i ∈ np.2, ic i = 1 :=
      fun np hnp => (validateLoop_none_mem hv np (hperm.mem_iff.mpr hnp)).1
    constructor
    · simp only [ApplyTo, hv]
      exact applyPatches_not_invalid pt pf 0 ⟨s, []⟩ hic j
    · rintro ⟨np, hnp, i, hi, hzero⟩
      have := hic np hnp i hi
      rw [ic_eq_populatedCount, hzero] at this
      cases this

/-- C16, witness: a specification with an instruction without any variant ends in
the invalid patch file error, not in the invalid instruction error. -/
theorem ApplyTo_never_invalid_instruction_witness :
    (ApplyTo referencePatcher id emptyInstructionSpec smallSurface).2
        ≠ some (.invalidInstruction {})
      ∧ (ApplyTo referencePatcher id emptyInstructionSpec smallSurface).2
        = some (.invalidPatchFile (.internalValidating "only")) :=
  ⟨(ApplyTo_never_invalid_instruction referencePatcher id emptyInstructionSpec smallSurface
      (List.Perm.refl _) {}).1, by decide⟩

/-! ## The string of `FindBaseAddressHex` -/

theorem sameButHex_fields {i j : instruction} (h : sameButHex i j) :
    i.Enabled = j.Enabled ∧ i.Description = j.Description ∧ i.PatchGroup = j.PatchGroup
      ∧ i.BaseAddress = j.BaseAddress ∧ i.FindBaseAddressString = j.FindBaseAddressString
      ∧ i.FindReplaceString = j.FindReplaceString ∧ i.ReplaceString = j.ReplaceString
      ∧ i.ReplaceInt = j.ReplaceInt ∧ i.ReplaceFloat = j.ReplaceFloat
      ∧ i.ReplaceBytes = j.ReplaceBytes
      ∧ isSet i.FindBaseAddressHex = isSet j.FindBaseAddressHex := by
  obtain ⟨h1, h2⟩ := h
  simp only [instruction.mk.injEq, true_and] at h2
  obtain ⟨a1, a2, a3, a4, a5, a6, a7, a8, a9, a10⟩ := h2
  refine ⟨a1, a2, a3, a4, a5, a6, a7, a8, a9, a10, ?_⟩
  rw [isSet_eq_toNat, isSet_eq_toNat, h1]

theorem sameButHex_tally {i j : instruction} (h : sameButHex i j) (c : patchCounters) :
    tally c i = tally c j ∧ ic i = ic j := by
  obtain ⟨h1, h2, h3, h4, h5, h6, h7, h8, h9, h10, h11⟩ := sameButHex_fields h
  constructor
  · simp only [tally, h1, h2, h3, h5, h6, h7, h8, h9, h10]
  · simp only [ic, h1, h2, h3, h4, h5, h6, h7, h8, h9, h10, h11]

theorem sameButHex_scan (n : String) (p q : patch) (h : List.Forall₂ sameButHex p q)
    (c : patchCounters) : scanInstructions n p c = scanInstructions n q c := by
  induction p generalizing q c with
  | nil =>
    rw [List.forall₂_nil_left_iff.mp h]
  | cons i rest ih =>
    obtain ⟨j, rest2, hij, htail, rfl⟩ := List.forall₂_cons_left_iff.mp h
    obtain ⟨ht, hc⟩ := sameButHex_tally hij c
    simp only [scanInstructions, ht, hc, ih rest2 htail]

theorem sameSpecButHex_validateLoop (pf1 pf2 : patchFile) (h : sameSpecButHex pf1 pf2)
    (g : List String) : validateLoop pf1 g = validateLoop pf2 g := by
  unfold sameSpecButHex at h
  induction pf1 generalizing pf2 g with
  | nil =>
    rw [List.forall₂_nil_left_iff.mp h]
  | cons a l1 ih =>
    obtain ⟨b, l2, hab, htail, rfl⟩ := List.forall₂_cons_left_iff.mp h
    obtain ⟨n1, p1⟩ := a
    obtain ⟨n2, p2⟩ := b
    obtain ⟨hn, hp⟩ := hab
    simp only at hn hp
    subst hn
    simp only [validateLoop, sameButHex_scan n1 p1 p2 hp]
    cases scanInstructions n1 p2 {} with
    | error e => rfl
    | ok c =>
      simp only []
      cases checkCounters n1 c g with
      | error e => rfl
      | ok g1 => exact ih l2 htail g1

theorem expandInstruction_error_congr {i j : instruction} (h : i.ReplaceBytes = j.ReplaceBytes)
    (e : Err) : expandInstruction i = .error e ↔ expandInstruction j = .error e := by
  unfold expandInstruction
  rw [h]
  cases j.ReplaceBytes with
  | none => simp
  | some r =>
    simp only []
    cases expandFindH r with
    | error e1 => simp
    | ok r1 =>
      simp only []
      cases expandReplaceH r1 with
      | error e2 => simp
      | ok r2 => simp

theorem expandInstruction_ok_congr {i j : instruction} (h : i.ReplaceBytes = j.ReplaceBytes) :
    (∃ i1, expandInstruction i = .ok i1) ↔ ∃ j1, expandInstruction j = .ok j1 := by
  unfold expandInstruction
  rw [h]
  cases j.ReplaceBytes with
  | none => simp
  | some r =>
    simp only []
    cases expandFindH r with
    | error e1 => simp
    | ok r1 =>
      simp only []
      cases expandReplaceH r1 with
      | error e2 => simp
      | ok r2 => simp

theorem expandPatch_error_congr (p q : patch) (h : List.Forall₂ sameButHex p q) (e : Err) :
    (expandPatch p = .error e ↔ expandPatch q = .error e)
      ∧ ((∃ p1, expandPatch p = .ok p1) ↔ ∃ q1, expandPatch q = .ok q1) := by
  induction p generalizing q with
  | nil =>
    rw [List.forall₂_nil_left_iff.mp h]
    simp
  | cons i l1 ih =>
    obtain ⟨j, l2, hij, htail, rfl⟩ := List.forall₂_cons_left_iff.mp h
    have hrb := (sameButHex_fields hij).2.2.2.2.2.2.2.2.2.1
    have h2 := expandInstruction_ok_congr hrb
    obtain ⟨ih1, ih2⟩ := ih l2 htail
    unfold expandPatch
    cases hi : expandInstruction i with
    | error e1 =>
      cases hj : expandInstruction j with
      | error e2 =>
        have hsame : e1 = e2 := by
          have := (expandInstruction_error_congr hrb e1).mp hi
          rw [hj] at this
          cases this
          rfl
        subst hsame
        simp
      | ok j1 =>
        exfalso
        obtain ⟨i1, hi1⟩ := h2.mpr ⟨j1, hj⟩
        rw [hi] at hi1
        cases hi1
    | ok i1 =>
      cases hj : expandInstruction j with
      | error e2 =>
        exfalso
        obtain ⟨j1, hj1⟩ := h2.mp ⟨i1, hi⟩
        rw [hj] at hj1
        cases hj1
      | ok j1 =>
        simp only []
        cases hl1 : expandPatch l1 with
        | error e3 =>
          cases hl2 : expandPatch l2 with
          | error e4 =>
            rw [hl1, hl2] at ih1
            simpa using ih1
          | ok q1 =>
            rw [hl1, hl2] at ih2
            simp at ih2
        | ok p1 =>
          cases hl2 : expandPatch l2 with
          | error e4 =>
            rw [hl1, hl2] at ih2
            simp at ih2
          | ok q1 => simp

theorem expandPatchFile_error_congr (pf1 pf2 : patchFile) (h : sameSpecButHex pf1 pf2)
    (e : Err) :
    (expandPatchFile pf1 = .error e ↔ expandPatchFile pf2 = .error e)
      ∧ ((∃ r, expandPatchFile pf1 = .ok r) ↔ ∃ r, expandPatchFile pf2 = .ok r) := by
  unfold sameSpecButHex at h
  induction pf1 generalizing pf2 with
  | nil =>
    rw [List.forall₂_nil_left_iff.mp h]
    simp
  | cons a l1 ih =>
    obtain ⟨b, l2, hab, htail, rfl⟩ := List.forall₂_cons_left_iff.mp h
    obtain ⟨n1, p1⟩ := a
    obtain ⟨n2, p2⟩ := b
    obtain ⟨hn, hp⟩ := hab
    simp only at hn hp
    subst hn
    obtain ⟨ih1, ih2⟩ := ih l2 htail
    have hpe := fun e1 => (expandPatch_error_congr p1 p2 hp e1).1
    have hpo := (expandPatch_error_congr p1 p2 hp e).2
    unfold expandPatchFile
    cases hi : expandPatch p1 with
    | error e1 =>
      rw [(hpe e1).mp hi]
      simp
    | ok i1 =>
      obtain ⟨j1, hj⟩ := hpo.mp ⟨i1, hi⟩
      rw [hj]
      simp only []
      cases hl1 : expandPatchFile l1 with
      | error e3 =>
        cases hl2 : expandPatchFile l2 with
        | error e4 =>
          rw [hl1, hl2] at ih1
          simpa using ih1
        | ok q1 =>
          rw [hl1, hl2] at ih2
          simp at ih2
      | ok r1 =>
        cases hl2 : expandPatchFile l2 with
        | error e4 =>
          rw [hl1, hl2] at ih2
          simp at ih2
        | ok q1 => simp

theorem execInstruction_bad_hex {σ : Type} (pt : Patcher σ) (num : Nat) (i : instruction)
    (r : Run σ) (hex : String) (hic : ic i = 1) (hh : i.FindBaseAddressHex = some hex)
    (hd : ∃ err, decodeHex hex = .error err) :
    execInstruction pt num i r = (r, some .invalidHexString) := by
  obtain ⟨err, hd⟩ := hd
  obtain ⟨en, de, pg, ba, fbh, fbs, frs, rs, ri, rf, rb⟩ := i
  simp only at hh
  subst hh
  cases en <;> cases de <;> cases pg <;> cases ba <;>
    first
    | (exfalso
       simp only [ic, isSet_eq_toNat, Option.isSome_some, Option.isSome_none, Bool.toNat_true,
         Bool.toNat_false] at hic
       omega)
    | simp [execInstruction, hd]

/-- C20, counterexample: the enabled patch of `badHexLateSpec` has a
`FindBaseAddressHex` whose string `zz` does not decode, the specification is accepted
by `validate`, and `ApplyTo` fails at the replace instruction placed before it, with
the error of the surface and not with the invalid hex string error. -/
theorem ApplyTo_fails_before_bad_hex :
    validate badHexLateSpec = none
      ∧ decodeHex "zz" = .error .noHexData
      ∧ (ApplyTo referencePatcher id badHexLateSpec smallSurface).2
        = some (.surface "could not find specified bytes at offset")
      ∧ (ApplyTo referencePatcher id badHexLateSpec smallSurface).2
        ≠ some .invalidHexString := by
  decide

/-- C20, amended: the hex string of a `FindBaseAddressHex` instruction is not checked
at load or validation time. The result of `validate`, and whether and with which
error the expansion of the hex shorthand at load time fails, are the same for two
specifications that differ only in the strings of their `FindBaseAddressHex`
instructions. And when such an instruction of an enabled patch of a validated
specification carries a string that does not decode, and every earlier patch and
every earlier instruction of the patch has succeeded, `ApplyTo` fails at that
instruction with the invalid hex string error, having made the surface calls of the
earlier patches and instructions and no call for the instruction itself. -/
theorem hex_string_checked_at_apply :
    (∀ (pf1 pf2 : patchFile), sameSpecButHex pf1 pf2 →
        validate pf1 = validate pf2
          ∧ ∀ e, expandPatchFile pf1 = .error e ↔ expandPatchFile pf2 = .error e)
    ∧ (∀ (σ : Type) (pt : Patcher σ) (order : patchFile → patchFile)
        (before after : patchFile) (n : String) (ins1 ins2 : patch) (i : instruction)
        (hex : String) (s : σ) (r0 r1 : Run σ),
        (order (before ++ (n, ins1 ++ i :: ins2) :: after)).Perm
          (before ++ (n, ins1 ++ i :: ins2) :: after) →
        validate (order (before ++ (n, ins1 ++ i :: ins2) :: after)) = none →
        patchEnabled (ins1 ++ i :: ins2) = true →
        i.FindBaseAddressHex = some hex →
        (∃ err, decodeHex hex = .error err) →
        applyPatches pt before 0 ⟨s, []⟩ = (r0, none) →
        applyInstructions pt (before.length + 1) ins1
          (invoke pt (before.length + 1) .ResetBaseAddress r0).1 = (r1, none) →
        ApplyTo pt order (before ++ (n, ins1 ++ i :: ins2) :: after) s
          = (r1, some .invalidHexString)) := by
  constructor
  · intro pf1 pf2 h
    exact ⟨sameSpecButHex_validateLoop pf1 pf2 h [],
      fun e => (expandPatchFile_error_congr pf1 pf2 h e).1⟩
  · intro σ pt order before after n ins1 ins2 i hex s r0 r1 hperm hv hen hh hd hb hi
    have hmem : (n, ins1 ++ i :: ins2) ∈ order (before ++ (n, ins1 ++ i :: ins2) :: after) :=
      hperm.mem_iff.mpr (List.mem_append_right _ (List.mem_cons_self _ _))
    have hic : ic i = 1 :=
      (validateLoop_none_mem hv _ hmem).1 i (List.mem_append_right _ (List.mem_cons_self _ _))
    have hexec := execInstruction_bad_hex pt (before.length + 1) i r1 hex hic hh hd
    simp only [ApplyTo, hv]
    rw [applyPatches_append, hb]
    simp only [applyPatches, Nat.zero_add, hen]
    rw [applyInstructions_append, hi]
    simp only [applyInstructions, hexec]
    simp

/-- C20, witness: `badHexSpec` and `hexMissSpec` differ only in the hex string and get
the same result from `validate`; `badHexSpec` loads, and `ApplyTo` fails on it with
the invalid hex string error after the reset and the first replace, which changed
the buffer. -/
theorem hex_string_checked_at_apply_witness :
    validate badHexSpec = validate hexMissSpec
      ∧ newPatchFile id badHexSpec = .ok badHexSpec
      ∧ ApplyTo referencePatcher id badHexSpec smallSurface
        = (⟨⟨[2, 2, 3], 0⟩, [⟨1, .ResetBaseAddress, false⟩, ⟨1, .ReplaceInt 0 1 2, false⟩]⟩,
            some .invalidHexString) :=
  ⟨(hex_string_checked_at_apply.1 badHexSpec hexMissSpec (by decide)).1, by decide,
    hex_string_checked_at_apply.2 Surface referencePatcher id [] [] "only"
      [{ Enabled := some true }, { ReplaceInt := some ⟨0, 1, 2⟩ }]
      [{ ReplaceInt := some ⟨0, 2, 3⟩ }] { FindBaseAddressHex := some "zz" } "zz"
      smallSurface ⟨smallSurface, []⟩
      ⟨⟨[2, 2, 3], 0⟩, [⟨1, .ResetBaseAddress, false⟩, ⟨1, .ReplaceInt 0 1 2, false⟩]⟩
      (List.Perm.refl _) (by decide) (by decide) rfl ⟨.noHexData, by decide⟩ (by decide)
      (by decide)⟩

/-! ## The order of the patches -/

theorem replaceOnce_run {σ : Type} (lib : Patchlib σ) (abs : σ → Surface)
    (hc : VerifyThenWrite lib abs) (num : Nat) (r : Run σ) (b f rep : Nat)
    (hb : (abs r.st).buf = [b]) :
    (b = f → ∃ r1, applyInstructions lib.toPatcher num (replaceOnce f rep)
        (invoke lib.toPatcher num .ResetBaseAddress r).1 = (r1, none)
        ∧ (abs r1.st).buf = [rep])
    ∧ (b ≠ f → (applyInstructions lib.toPatcher num (replaceOnce f rep)
        (invoke lib.toPatcher num .ResetBaseAddress r).1).2.isSome = true) := by
  obtain ⟨hb1, hb2⟩ := hc.base 0 (lib.ResetBaseAddress r.st)
  have habs : abs (lib.BaseAddress 0 (lib.ResetBaseAddress r.st)).1 = ⟨[b], 0⟩ := by
    rw [hb2]
    simp only [hc.reset, hb]
  obtain ⟨hr1, hr2⟩ := hc.replaceInt 0 f rep (lib.BaseAddress 0 (lib.ResetBaseAddress r.st)).1
  rw [habs] at hr1 hr2
  constructor
  · intro hbf
    subst hbf
    have hhit : (Surface.replace 0 [b] [rep] ⟨[b], 0⟩) = (⟨[rep], 0⟩, none) := by
      simp [Surface.replace]
    rw [hhit] at hr1 hr2
    have hnone : (lib.ReplaceInt 0 b rep
        (lib.BaseAddress 0 (lib.ResetBaseAddress r.st)).1).2 = none := by
      cases h : (lib.ReplaceInt 0 b rep (lib.BaseAddress 0 (lib.ResetBaseAddress r.st)).1).2 with
      | none => rfl
      | some msg => rw [h] at hr1; simp at hr1
    have h2 : (applyInstructions lib.toPatcher num (replaceOnce b rep)
        (invoke lib.toPatcher num .ResetBaseAddress r).1).2 = none := by
      simp [replaceOnce, applyInstructions, execInstruction, invoke, Patcher.perform, hb1, hnone]
    have hst : (applyInstructions lib.toPatcher num (replaceOnce b rep)
        (invoke lib.toPatcher num .ResetBaseAddress r).1).1.st
        = (lib.ReplaceInt 0 b rep (lib.BaseAddress 0 (lib.ResetBaseAddress r.st)).1).1 := by
      simp [replaceOnce, applyInstructions, execInstruction, invoke, Patcher.perform, hb1, hnone]
    exact ⟨_, Prod.ext rfl h2, by rw [hst, hr2 hnone]⟩
  · intro hbf
    have hmiss : ((Surface.replace 0 [f] [rep] ⟨[b], 0⟩)).2.isSome = true := by
      simp [Surface.replace, hbf]
    rw [hmiss] at hr1
    obtain ⟨msg, hmsg⟩ := Option.isSome_iff_exists.mp hr1
    simp [replaceOnce, applyInstructions, execInstruction, invoke, Patcher.perform, hb1, hmsg]

theorem applyPatches_cons_enabled {σ : Type} (pt : Patcher σ) (n : String) (p : patch)
    (rest : patchFile) (num : Nat) (r : Run σ) (hen : patchEnabled p = true) :
    applyPatches pt ((n, p) :: rest) num r =
      match applyInstructions pt (num + 1) p (invoke pt (num + 1) .ResetBaseAddress r).1 with
      | (r2, some err) => (r2, some err)
      | (r2, none) => applyPatches pt rest (num + 1) r2 := by
  simp [applyPatches, hen]

/-- C17: the order of the patches can matter. The specification `chainSpec` has two
enabled patches and is accepted by `validate` in both orders; on the one-byte
buffer `[1]`, against every surface that obeys the verify-then-write contract,
`ApplyTo` succeeds in the one order, leaving the buffer `[3]`, and fails in the
other order. -/
theorem patch_order_matters {σ : Type} (lib : Patchlib σ) (abs : σ → Surface)
    (hc : VerifyThenWrite lib abs) (order1 order2 : patchFile → patchFile)
    (h1 : (order1 chainSpec).Perm chainSpec)
    (h2 : (order2 chainSpec.reverse).Perm chainSpec.reverse) :
    validate chainSpec = none ∧ validate chainSpec.reverse = none
      ∧ (∀ np ∈ chainSpec, patchEnabled np.2 = true)
      ∧ (ApplyTo lib.toPatcher order1 chainSpec (lib.NewPatcher [1])).2 = none
      ∧ lib.GetBytes (ApplyTo lib.toPatcher order1 chainSpec (lib.NewPatcher [1])).1.st = [3]
      ∧ (ApplyTo lib.toPatcher order2 chainSpec.reverse (lib.NewPatcher [1])).2.isSome
        = true := by
  have v1 : validate chainSpec = none := by decide
  have v2 : validate chainSpec.reverse = none := by decide
  have e1 : patchEnabled (replaceOnce 1 2) = true := rfl
  have e2 : patchEnabled (replaceOnce 2 3) = true := rfl
  have hrev : chainSpec.reverse = [("second", replaceOnce 2 3), ("first", replaceOnce 1 2)] :=
    rfl
  have hs0 : (abs (lib.NewPatcher [1])).buf = [1] := hc.create [1]
  refine ⟨v1, v2, by decide, ?_⟩
  have run1 : ApplyTo lib.toPatcher order1 chainSpec (lib.NewPatcher [1])
      = applyPatches lib.toPatcher chainSpec 0 ⟨lib.NewPatcher [1], []⟩ := by
    simp only [ApplyTo, (validate_none_of_perm h1).mpr v1]
  have run2 : ApplyTo lib.toPatcher order2 chainSpec.reverse (lib.NewPatcher [1])
      = applyPatches lib.toPatcher chainSpec.reverse 0 ⟨lib.NewPatcher [1], []⟩ := by
    simp only [ApplyTo, (validate_none_of_perm h2).mpr v2]
  rw [run1, run2, hrev]
  obtain ⟨ra, ha, hba⟩ :=
    (replaceOnce_run lib abs hc 1 ⟨lib.NewPatcher [1], []⟩ 1 1 2 hs0).1 rfl
  obtain ⟨rb, hb, hbb⟩ := (replaceOnce_run lib abs hc 2 ra 2 2 3 hba).1 rfl
  have hrun : applyPatches lib.toPatcher chainSpec 0 ⟨lib.NewPatcher [1], []⟩ = (rb, none) := by
    unfold chainSpec
    rw [applyPatches_cons_enabled _ _ _ _ _ _ e1, ha]
    simp only []
    rw [applyPatches_cons_enabled _ _ _ _ _ _ e2, hb]
    rfl
  have hmiss :=
    (replaceOnce_run lib abs hc 1 ⟨lib.NewPatcher [1], []⟩ 1 2 3 hs0).2 (by decide)
  have hfail : (applyPatches lib.toPatcher [("second", replaceOnce 2 3),
      ("first", replaceOnce 1 2)] 0 ⟨lib.NewPatcher [1], []⟩).2.isSome = true := by
    rw [applyPatches_cons_enabled _ _ _ _ _ _ e2]
    cases hres : applyInstructions lib.toPatcher (0 + 1) (replaceOnce 2 3)
        (invoke lib.toPatcher (0 + 1) .ResetBaseAddress ⟨lib.NewPatcher [1], []⟩).1 with
    | mk r2 e =>
      rw [hres] at hmiss
      cases e with
      | none => simp at hmiss
      | some err => rfl
  rw [hrun]
  exact ⟨rfl, by rw [hc.bytes, hbb], hfail⟩

theorem referencePatchlib_contract : VerifyThenWrite referencePatchlib id where
  create := fun _ => rfl
  bytes := fun _ => rfl
  reset := fun _ => rfl
  base := fun _ _ => ⟨rfl, rfl⟩
  replaceInt := fun _ _ _ _ => ⟨rfl, fun _ => rfl⟩

/-- C17, witness: on the reference surface the two orders of `chainSpec` end with the
buffer `[3]` and with an error. -/
theorem patch_order_matters_witness :
    (ApplyTo referencePatcher id chainSpec ⟨[1], 0⟩).2 = none
      ∧ (ApplyTo referencePatcher id chainSpec ⟨[1], 0⟩).1.st.buf = [3]
      ∧ (ApplyTo referencePatcher id chainSpec.reverse ⟨[1], 0⟩).2.isSome = true :=
  (patch_order_matters referencePatchlib id referencePatchlib_contract id id
    (List.Perm.refl _) (List.Perm.refl _)).2.2.2

/-! ## The selection of the entries -/

theorem needsPatching_some {l : List (String × String)} {name pfn : String}
    (h : needsPatching l name = some pfn) :
    ∃ f, (pfn, f) ∈ l ∧ (name = "./" ++ f ∨ name = f) := by
  induction l with
  | nil => simp [needsPatching] at h
  | cons x rest ih =>
    obtain ⟨n, f⟩ := x
    unfold needsPatching at h
    split at h
    · rename_i hm
      cases h
      exact ⟨f, List.mem_cons_self _ _, hm⟩
    · obtain ⟨f1, hmem, hm⟩ := ih h
      exact ⟨f1, List.mem_cons_of_mem _ hmem, hm⟩

theorem needsPatching_isSome (l : List (String × String)) (name : String) :
    (needsPatching l name).isSome = true ↔ ∃ nf ∈ l, name = "./" ++ nf.2 ∨ name = nf.2 := by
  induction l with
  | nil => simp [needsPatching]
  | cons x rest ih =>
    obtain ⟨n, f⟩ := x
    unfold needsPatching
    split
    · rename_i hm
      simp only [Option.isSome_some, true_iff]
      exact ⟨(n, f), List.mem_cons_self _ _, hm⟩
    · rename_i hm
      rw [ih]
      constructor
      · rintro ⟨nf, hmem, h⟩
        exact ⟨nf, List.mem_cons_of_mem _ hmem, h⟩
      · rintro ⟨nf, hmem, h⟩
        rcases List.mem_cons.mp hmem with rfl | hmem1
        · exact absurd h hm
        · exact ⟨nf, hmem1, h⟩

theorem matchesConfig_iff (l : List (String × String)) (name : String) :
    matchesConfig l name = true ↔ ∃ nf ∈ l, name = "./" ++ nf.2 ∨ name = nf.2 := by
  simp [matchesConfig, List.any_eq_true]

theorem needsPatching_of_perm {l1 l2 : List (String × String)} (h : l1.Perm l2)
    (name : String) : (needsPatching l1 name).isSome = matchesConfig l2 name := by
  have e1 := needsPatching_isSome l1 name
  have e2 := matchesConfig_iff l2 name
  have hiff : (needsPatching l1 name).isSome = true ↔ matchesConfig l2 name = true := by
    rw [e1, e2]
    constructor
    · rintro ⟨nf, hmem, h1⟩
      exact ⟨nf, h.mem_iff.mp hmem, h1⟩
    · rintro ⟨nf, hmem, h1⟩
      exact ⟨nf, h.mem_iff.mpr hmem, h1⟩
  cases ha : (needsPatching l1 name).isSome <;> cases hb : matchesConfig l2 name <;>
    simp_all

/-- C12, counterexample: with the mapping from the key `nickel.yaml` to the value
`bin/app`, the entry `bin/app`, which equals no key, is selected and the file
loaded for it is the key `nickel.yaml` (the run succeeds in a world where only that
file can be read); the entries `./nickel.yaml` and `nickel.yaml`, which equal the
key, are not selected. And with the value `./x` the entry `./x` is selected, though
its name without the leading `./` is not the value. -/
theorem selection_by_value_not_key :
    needsPatching demoConfig.Patches "bin/app" = some "nickel.yaml"
      ∧ needsPatching demoConfig.Patches "./nickel.yaml" = none
      ∧ needsPatching demoConfig.Patches "nickel.yaml" = none
      ∧ (main (keyedWorld demoConfig [appEntry]) demoConfig).fatal = none
      ∧ needsPatching [("p.yaml", "./x")] "./x" = some "p.yaml" := by
  decide

/-- C12, amended: the configured mapping goes from the path of the patch specification
(key) to the target filename inside the inner archive (value). An inner entry is
selected for patching exactly when its name equals some value of the mapping or
that value with `./` before it, and the specification file loaded for it is a key
under which such a value is stored: an entry that is not selected is skipped, and for
a selected regular file whose contents were read the run loads the file named by
that key, failing with its load error when it does not load. -/
theorem selection_matches_values (patches : List (String × String)) (name : String) :
    ((needsPatching patches name).isSome = true
        ↔ ∃ nf ∈ patches, name = "./" ++ nf.2 ∨ name = nf.2)
      ∧ (∀ pfn, needsPatching patches name = some pfn →
          ∃ f, (pfn, f) ∈ patches ∧ (name = "./" ++ f ∨ name = f))
      ∧ (∀ (σ : Type) (w : World σ) (readErr : Option String) (e : TarEntry)
          (rest : List TarEntry) (k : Nat) (out : List TarOut),
          w.cfgOrder k = patches → e.header.Name = name →
          (needsPatching patches name = none →
            streamEntries w readErr (e :: rest) k out
              = streamEntries w readErr rest (k + 1) out)
          ∧ (∀ pfn fbuf err, needsPatching patches name = some pfn →
              e.header.Typeflag = TypeReg → e.contents = .ok fbuf →
              loadPatchFile w pfn = .error err →
              streamEntries w readErr (e :: rest) k out = .error (.loadPatchFile pfn err))) := by
  refine ⟨needsPatching_isSome patches name, fun pfn h => needsPatching_some h, ?_⟩
  intro σ w readErr e rest k out hord hname
  constructor
  · intro hnone
    simp only [streamEntries, hord, hname, hnone]
  · intro pfn fbuf err hsome hreg hcont hload
    simp [streamEntries, hord, hname, hsome, hreg, hcont, hload]

/-- C12, witness: the entry `./bin/app` is selected by the value `bin/app` and the key
`nickel.yaml` is the file to load. -/
theorem selection_matches_values_witness :
    (needsPatching demoConfig.Patches "./bin/app").isSome = true
      ∧ ("nickel.yaml", "bin/app") ∈ demoConfig.Patches :=
  ⟨(selection_matches_values demoConfig.Patches "./bin/app").1.mpr
      ⟨("nickel.yaml", "bin/app"), by decide, Or.inl (by decide)⟩,
    by decide⟩

/-! ## The archive rewrite -/

theorem forall₂_exists_right {α β : Type} {R : α → β → Prop} {l1 : List α} {l2 : List β}
    (h : List.Forall₂ R l1 l2) : ∀ a ∈ l1, ∃ b ∈ l2, R a b := by
  induction h with
  | nil => intro a ha; simp at ha
  | cons hab _ ih =>
    intro a ha
    rcases List.mem_cons.mp ha with rfl | hmem
    · exact ⟨_, List.mem_cons_self _ _, hab⟩
    · obtain ⟨b, hb, hr⟩ := ih a hmem
      exact ⟨b, List.mem_cons_of_mem _ hb, hr⟩

/-- A run of the loop over the entries that ends without a fatal error has read the
archive to its end and has written, after the entries written before, one entry for
each selected entry, in order. -/
theorem streamEntries_ok {σ : Type} (w : World σ) (cfg : config)
    (hord : ∀ k, (w.cfgOrder k).Perm cfg.Patches) (readErr : Option String)
    (entries : List TarEntry) (k : Nat) (out0 out : List TarOut)
    (h : streamEntries w readErr entries k out0 = .ok out) :
    readErr = none ∧ ∃ new, out = out0 ++ new
      ∧ List.Forall₂ (Patched w cfg)
          (entries.filter (fun e => matchesConfig cfg.Patches e.header.Name)) new := by
  induction entries generalizing k out0 with
  | nil =>
    unfold streamEntries at h
    split at h
    · cases h
    · cases h
      exact ⟨rfl, [], by simp, List.Forall₂.nil⟩
  | cons e rest ih =>
    have hm := needsPatching_of_perm (hord k) e.header.Name
    unfold streamEntries at h
    split at h
    · rename_i hnone
      rw [hnone] at hm
      obtain ⟨h1, new, h2, h3⟩ := ih _ _ h
      refine ⟨h1, new, h2, ?_⟩
      rw [List.filter_cons_of_neg (by simpa using hm.symm)]
      exact h3
    · rename_i pfn hsome
      rw [hsome] at hm
      obtain ⟨f, hmem, hname⟩ := needsPatching_some hsome
      split at h
      · cases h
      · rename_i hreg
        split at h
        · cases h
        · rename_i fbuf hcont
          split at h
          · cases h
          · rename_i pf hload
            split at h
            · cases h
            · rename_i run happly
              simp only at h
              split at h
              · cases h
              · split at h
                · cases h
                · split at h
                  · cases h
                  · obtain ⟨h1, new, h2, h3⟩ := ih _ _ h
                    refine ⟨h1, ⟨outputHeader e.header (w.lib.GetBytes run.st) (w.now k),
                      w.lib.GetBytes run.st⟩ :: new, by rw [h2]; simp, ?_⟩
                    rw [List.filter_cons_of_pos (by simpa using hm.symm)]
                    refine List.Forall₂.cons ?_ h3
                    refine ⟨rfl, rfl, rfl, rfl, rfl, rfl, rfl, rfl, rfl, pfn, f, fbuf, pf, run,
                      (hord k).mem_iff.mp hmem, hname, ?_, hcont, hload, happly, rfl, rfl⟩
                    exact Decidable.of_not_not hreg

theorem main_success {σ : Type} (w : World σ) (cfg : config)
    (h : (main w cfg).fatal = none) :
    ∃ entries readErr out, w.openInner = .ok (entries, readErr)
      ∧ streamEntries w readErr entries 0 [] = .ok out
      ∧ (main w cfg).ops
        = [.create cfg.Log, .logged cfg.Log, .remove cfg.Out, .writeFile cfg.Out out] := by
  by_cases h1 : cfg.Version = "" ∨ cfg.In = "" ∨ cfg.Out = "" ∨ cfg.Log = ""
  · simp [main, h1] at h
  by_cases h2 : cfg.UseNewPatchFormat = false
  · simp [main, h1, h2] at h
  cases h3 : w.createLog with
  | some msg => simp [main, h1, h2, h3] at h
  | none =>
    cases h4 : w.openInner with
    | error f => simp [main, h1, h2, h3, h4] at h
    | ok res =>
      obtain ⟨entries, readErr⟩ := res
      cases h5 : streamEntries w readErr entries 0 [] with
      | error f => simp [main, h1, h2, h3, h4, h5] at h
      | ok out =>
        refine ⟨entries, readErr, out, rfl, h5, ?_⟩
        cases h6 : w.closeTar out with
        | some msg => simp [main, finish, h1, h2, h3, h4, h5, h6] at h
        | none =>
          cases h7 : w.closeGzip out with
          | some msg => simp [main, finish, h1, h2, h3, h4, h5, h6, h7] at h
          | none =>
            cases h8 : w.writeOut out with
            | some msg => simp [main, finish, h1, h2, h3, h4, h5, h6, h7, h8] at h
            | none => simp [main, finish, h1, h2, h3, h4, h5, h6, h7, h8]

theorem main_stream_failure {σ : Type} (w : World σ) (cfg : config)
    (h1 : ¬(cfg.Version = "" ∨ cfg.In = "" ∨ cfg.Out = "" ∨ cfg.Log = ""))
    (h2 : cfg.UseNewPatchFormat = true) (h3 : w.createLog = none)
    (entries : List TarEntry) (readErr : Option String)
    (h4 : w.openInner = .ok (entries, readErr)) (f : Fatal)
    (h5 : streamEntries w readErr entries 0 [] = .error f) :
    main w cfg = ⟨[.create cfg.Log, .logged cfg.Log], some f⟩ := by
  unfold main
  rw [if_neg h1]
  simp only [h2, h3, h4, h5]
  simp

/-- C13: in a run that succeeds the output tar holds exactly one entry for each entry
of the inner archive that the configuration selects, in the order of the input and
under the name of the input entry, and nothing else: the archive was read to its
end, and the entries written to the output path correspond one to one, in order and
by name, to the selected entries of the input. -/
theorem output_holds_selected_entries {σ : Type} (w : World σ) (cfg : config)
    (hord : ∀ k, (w.cfgOrder k).Perm cfg.Patches) (hok : (main w cfg).fatal = none) :
    ∃ entries out, w.openInner = .ok (entries, none)
      ∧ (main w cfg).ops
        = [.create cfg.Log, .logged cfg.Log, .remove cfg.Out, .writeFile cfg.Out out]
      ∧ List.Forall₂ (fun e o => o.header.Name = e.header.Name)
          (entries.filter (fun e => matchesConfig cfg.Patches e.header.Name)) out
      ∧ out.length
        = (entries.filter (fun e => matchesConfig cfg.Patches e.header.Name)).length := by
  obtain ⟨entries, readErr, out, hopen, hstream, hops⟩ := main_success w cfg hok
  obtain ⟨hread, new, hnew, hrel⟩ := streamEntries_ok w cfg hord readErr entries 0 [] out hstream
  subst hread
  have hout : out = new := by simpa using hnew
  subst hout
  exact ⟨entries, out, hopen, hops, hrel.imp (fun _ _ h => h.2.1), hrel.length_eq.symm⟩

/-- C13, witness: of the three entries of the archive only `./bin/app` is selected,
and the run succeeds with an output of one entry for it. -/
theorem output_holds_selected_entries_witness :
    (main (demoWorld demoConfig [otherEntry, appEntry, otherEntry]) demoConfig).fatal = none
      ∧ [otherEntry, appEntry, otherEntry].filter
          (fun e => matchesConfig demoConfig.Patches e.header.Name) = [appEntry]
      ∧ ∃ entries out,
          (demoWorld demoConfig [otherEntry, appEntry, otherEntry]).openInner
            = .ok (entries, none)
          ∧ (main (demoWorld demoConfig [otherEntry, appEntry, otherEntry]) demoConfig).ops
            = [.create demoConfig.Log, .logged demoConfig.Log, .remove demoConfig.Out,
               .writeFile demoConfig.Out out]
          ∧ List.Forall₂ (fun e o => o.header.Name = e.header.Name)
              (entries.filter (fun e => matchesConfig demoConfig.Patches e.header.Name)) out
          ∧ out.length
            = (entries.filter
                (fun e => matchesConfig demoConfig.Patches e.header.Name)).length :=
  have hok : (main (demoWorld demoConfig [otherEntry, appEntry, otherEntry]) demoConfig).fatal
      = none := by decide
  ⟨hok, by decide,
    output_holds_selected_entries
      (demoWorld demoConfig [otherEntry, appEntry, otherEntry]) demoConfig
      (fun _ => List.Perm.refl _) hok⟩

/-- C14: for every patched entry the type flag, name, mode, uid, gid, user name, group
name, PAX records and format of the output header are those of the input header, its
size is the length of the patched payload returned by the surface, and the payload
written is that byte sequence: in a run that succeeds the entries written correspond
one to one, in order, to the selected entries of the input, each in the relation
`Patched` to its input entry. -/
theorem output_entry_cloned {σ : Type} (w : World σ) (cfg : config)
    (hord : ∀ k, (w.cfgOrder k).Perm cfg.Patches) (hok : (main w cfg).fatal = none) :
    ∃ entries out, w.openInner = .ok (entries, none)
      ∧ (main w cfg).ops
        = [.create cfg.Log, .logged cfg.Log, .remove cfg.Out, .writeFile cfg.Out out]
      ∧ List.Forall₂ (Patched w cfg)
          (entries.filter (fun e => matchesConfig cfg.Patches e.header.Name)) out := by
  obtain ⟨entries, readErr, out, hopen, hstream, hops⟩ := main_success w cfg hok
  obtain ⟨hread, new, hnew, hrel⟩ := streamEntries_ok w cfg hord readErr entries 0 [] out hstream
  subst hread
  have hout : out = new := by simpa using hnew
  subst hout
  exact ⟨entries, out, hopen, hops, hrel⟩

/-- C14, witness: the entry written for `./bin/app` has the attributes of the input
entry, the size five of the patched payload, a new modification time, and the payload
with the byte after `AA BB` changed from 1 to 2. -/
theorem output_entry_cloned_witness :
    (main (demoWorld demoConfig [otherEntry, appEntry]) demoConfig).ops
        = [.create "log.txt", .logged "log.txt", .remove "out.tgz",
           .writeFile "out.tgz"
             [⟨{ Typeflag := TypeReg, Name := "./bin/app", Size := 5, Mode := 493, Uid := 0,
                 Gid := 0, Uname := "root", Gname := "root", ModTime := 1001,
                 PAXRecords := [("path", "./bin/app")], Format := 4 },
               [0, 0xAA, 0xBB, 2, 5]⟩]]
      ∧ ∃ entries out,
          (demoWorld demoConfig [otherEntry, appEntry]).openInner = .ok (entries, none)
          ∧ (main (demoWorld demoConfig [otherEntry, appEntry]) demoConfig).ops
            = [.create demoConfig.Log, .logged demoConfig.Log, .remove demoConfig.Out,
               .writeFile demoConfig.Out out]
          ∧ List.Forall₂ (Patched (demoWorld demoConfig [otherEntry, appEntry]) demoConfig)
              (entries.filter (fun e => matchesConfig demoConfig.Patches e.header.Name)) out :=
  ⟨by decide,
    output_entry_cloned (demoWorld demoConfig [otherEntry, appEntry]) demoConfig
      (fun _ => List.Perm.refl _) (by decide)⟩

/-- C15, counterexample: with the log path equal to the output path, a run that fails
on a selected entry that is not a regular file has created, truncating it, and
written the file at the output path. -/
theorem log_overwrites_output :
    aliasConfig.Log = aliasConfig.Out
      ∧ matchesConfig aliasConfig.Patches dirEntry.header.Name = true
      ∧ dirEntry.header.Typeflag ≠ TypeReg
      ∧ main (demoWorld aliasConfig [appEntry, dirEntry]) aliasConfig
        = ⟨[.create "out.tgz", .logged "out.tgz"], some .notRegularFile⟩
      ∧ FsOp.create aliasConfig.Out
        ∈ (main (demoWorld aliasConfig [appEntry, dirEntry]) aliasConfig).ops := by
  decide

/-- C15, amended: when the run has reached the loop over the inner entries, a selected
entry that is not a regular file makes the loop fail, and whenever the loop fails
(not a regular file, read failure, load failure, apply failure, write failure, short
write) the run fails with that error and has neither removed nor written the output
path: its only effects on the file system are the creation of the log file and the
text logged to it, so that a file at the output path is left as it was provided
the log path is not the output path. -/
theorem stream_failure_keeps_output {σ : Type} (w : World σ) (cfg : config)
    (hord : ∀ k, (w.cfgOrder k).Perm cfg.Patches)
    (h1 : ¬(cfg.Version = "" ∨ cfg.In = "" ∨ cfg.Out = "" ∨ cfg.Log = ""))
    (h2 : cfg.UseNewPatchFormat = true) (h3 : w.createLog = none)
    (entries : List TarEntry) (readErr : Option String)
    (h4 : w.openInner = .ok (entries, readErr)) :
    ((∃ e ∈ entries, matchesConfig cfg.Patches e.header.Name = true
          ∧ e.header.Typeflag ≠ TypeReg) →
        ∃ f, streamEntries w readErr entries 0 [] = .error f)
      ∧ (∀ f, streamEntries w readErr entries 0 [] = .error f →
          (main w cfg).fatal = some f
            ∧ (main w cfg).ops = [.create cfg.Log, .logged cfg.Log]
            ∧ (cfg.Log ≠ cfg.Out → ∀ op ∈ (main w cfg).ops, op.path ≠ cfg.Out)) := by
  constructor
  · rintro ⟨e, he, hm, hreg⟩
    cases hs : streamEntries w readErr entries 0 [] with
    | error f => exact ⟨f, rfl⟩
    | ok out =>
      exfalso
      obtain ⟨_, new, _, hrel⟩ := streamEntries_ok w cfg hord readErr entries 0 [] out hs
      have hin : e ∈ entries.filter (fun e => matchesConfig cfg.Patches e.header.Name) :=
        List.mem_filter.mpr ⟨he, hm⟩
      obtain ⟨o, _, hp⟩ := forall₂_exists_right hrel e hin
      obtain ⟨_, _, _, _, _, _, _, _, _, _, _, _, _, _, _, _, hr, _⟩ := hp
      exact hreg hr
  · intro f hf
    rw [main_stream_failure w cfg h1 h2 h3 entries readErr h4 f hf]
    refine ⟨rfl, rfl, ?_⟩
    intro hne op hop
    simp only [List.mem_cons, List.mem_singleton, List.not_mem_nil, or_false] at hop
    rcases hop with rfl | rfl
    · exact hne
    · exact hne

/-- C15, witness: the run over `appEntry` and the directory `dirEntry` fails with the
not a regular file error, and its only effects are on the log file. -/
theorem stream_failure_keeps_output_witness :
    streamEntries (demoWorld demoConfig [appEntry, dirEntry]) none [appEntry, dirEntry] 0 []
        = .error .notRegularFile
      ∧ (main (demoWorld demoConfig [appEntry, dirEntry]) demoConfig).fatal
        = some .notRegularFile
      ∧ (main (demoWorld demoConfig [appEntry, dirEntry]) demoConfig).ops
        = [.create demoConfig.Log, .logged demoConfig.Log] :=
  have hs : streamEntries (demoWorld demoConfig [appEntry, dirEntry]) none
      [appEntry, dirEntry] 0 [] = .error .notRegularFile := by decide
  have h := (stream_failure_keeps_output (demoWorld demoConfig [appEntry, dirEntry]) demoConfig
    (fun _ => List.Perm.refl _) (by decide) rfl rfl [appEntry, dirEntry] none rfl).2
    .notRegularFile hs
  ⟨hs, h.1, h.2.1⟩

end Kobopatch
